import Mathlib

/-!
Verification of the dnd-maze-generator core (models.py, generator.py).

The Python code is shallowly embedded:
* `Direction`, `OwnerType`, `TreasureType`, `TrapType` mirror the enums of
  `models.py`.
* `MazeNode` mirrors the `MazeNode` dataclass (with its `Room`/`Connection`
  variants folded into `NodeKind`); since Python nodes reference each other
  through object pointers and equality is by `id`, neighbor links are
  represented by the neighbor's `id` (an index into the maze grid, which owns
  all nodes).
* The pseudo-random stream `random.Random(seed)` is modeled by `Rng`: two
  seed-determined streams (`ints` for `randint`/`choice` draws, `floats` for
  `random()` draws) together with cursor positions.  Theorems quantify over
  arbitrary streams, hence cover every seed.  `randint` with an empty range
  is an error, exactly as Python's `ValueError`.
* `generateMaze` mirrors `generate_maze` step by step, with the carving
  `while` loop written as fuel recursion and Python exceptions modeled by
  `Except String`.
-/

namespace DndMaze

/-- Cardinal directions (models.py `Direction`). -/
inductive Direction
  | north
  | east
  | south
  | west
deriving DecidableEq, Repr, Fintype

/-- `Direction.opposite` from models.py. -/
def Direction.opposite : Direction → Direction
  | .north => .south
  | .south => .north
  | .east => .west
  | .west => .east

/-- Row offset of `DIRECTION_DELTAS` (generator.py). -/
def Direction.dRow : Direction → ℤ
  | .north => -1
  | .south => 1
  | .east => 0
  | .west => 0

/-- Column offset of `DIRECTION_DELTAS` (generator.py). -/
def Direction.dCol : Direction → ℤ
  | .north => 0
  | .south => 0
  | .east => 1
  | .west => -1

/-- Iteration order of the `DIRECTION_DELTAS` dict (insertion order). -/
def directionOrder : List Direction := [.north, .south, .east, .west]

/-- models.py `TrapType` (NONE plus 8 kinds). -/
inductive TrapType
  | none
  | pit
  | poisonDart
  | spike
  | fire
  | rollingBoulder
  | collapsingCeiling
  | poisonGas
  | arrow
deriving DecidableEq, Repr

/-- Members of `TrapType` in definition order. -/
def TrapType.all : List TrapType :=
  [.none, .pit, .poisonDart, .spike, .fire, .rollingBoulder, .collapsingCeiling,
   .poisonGas, .arrow]

/-- models.py `TreasureType` (NONE plus 9 kinds). -/
inductive TreasureType
  | none
  | goldCoins
  | silverCoins
  | gems
  | magicWeapon
  | magicArmor
  | potion
  | scroll
  | ring
  | chest
deriving DecidableEq, Repr

/-- Members of `TreasureType` in definition order. -/
def TreasureType.all : List TreasureType :=
  [.none, .goldCoins, .silverCoins, .gems, .magicWeapon, .magicArmor, .potion,
   .scroll, .ring, .chest]

/-- models.py `OwnerType` (NONE plus 11 kinds). -/
inductive OwnerType
  | none
  | goblin
  | orc
  | skeleton
  | zombie
  | spider
  | rat
  | dragon
  | mimic
  | lich
  | bandit
  | ghost
deriving DecidableEq, Repr

/-- Members of `OwnerType` in definition order. -/
def OwnerType.all : List OwnerType :=
  [.none, .goblin, .orc, .skeleton, .zombie, .spider, .rat, .dragon, .mimic,
   .lich, .bandit, .ghost]

/-- generator.py `ROOM_ADJECTIVES`. -/
def ROOM_ADJECTIVES : List String :=
  ["Dark", "Dusty", "Crumbling", "Damp", "Eerie", "Forgotten",
   "Gloomy", "Haunted", "Icy", "Jagged", "Looming", "Mossy",
   "Narrow", "Overgrown", "Putrid", "Quiet", "Ruined", "Shadowy",
   "Twisted", "Unholy", "Vast", "Winding", "Ancient", "Burning"]

/-- generator.py `ROOM_NOUNS`. -/
def ROOM_NOUNS : List String :=
  ["Chamber", "Crypt", "Hall", "Cavern", "Den",
   "Dungeon", "Gallery", "Grotto", "Lair", "Pit",
   "Sanctum", "Shrine", "Tomb", "Vault", "Alcove",
   "Barracks", "Cell", "Chapel", "Forge", "Library", "Throne Room"]

/-- generator.py `CONNECTION_ADJECTIVES`. -/
def CONNECTION_ADJECTIVES : List String :=
  ["Dark", "Narrow", "Winding", "Crumbling", "Damp", "Shadowy",
   "Long", "Twisted", "Mossy", "Dusty", "Cold", "Echoing",
   "Dim", "Steep", "Hidden", "Ancient", "Worn", "Slippery"]

/-- generator.py `CONNECTION_NOUNS`. -/
def CONNECTION_NOUNS : List String :=
  ["Corridor", "Passage", "Tunnel", "Hallway", "Walkway",
   "Path", "Bridge", "Stairway", "Crawlway", "Alley"]

/-- The seeded pseudo-random stream (`random.Random(seed)`).  `ints` is the
stream backing `randint`/`choice` draws, `floats` the stream backing
`random()` draws; both are fixed by the seed, the cursors advance as values
are consumed. -/
structure Rng where
  ints : ℕ → ℕ
  floats : ℕ → ℚ
  intIdx : ℕ
  floatIdx : ℕ

/-- Consume one integer from the stream. -/
def Rng.nextNat (r : Rng) : ℕ × Rng :=
  (r.ints r.intIdx, { r with intIdx := r.intIdx + 1 })

/-- `rng.random()`: one uniform draw in `[0,1)` (a rational models the float). -/
def Rng.random (r : Rng) : ℚ × Rng :=
  (r.floats r.floatIdx, { r with floatIdx := r.floatIdx + 1 })

/-- `rng.choice(l)` on a nonempty sequence: a uniform index into `l`. -/
def Rng.chooseNE (r : Rng) {α : Type} (l : List α) (h : l ≠ []) : α × Rng :=
  let (k, r') := r.nextNat
  (l.get ⟨k % l.length, Nat.mod_lt _ (List.length_pos.mpr h)⟩, r')

/-- `rng.randint(lo, hi)`: inclusive uniform integer; Python raises
`ValueError` when the range is empty. -/
def Rng.randint (r : Rng) (lo hi : ℤ) : Except String (ℤ × Rng) :=
  if lo ≤ hi then
    let (k, r') := r.nextNat
    .ok (lo + ((k % (hi - lo + 1).toNat : ℕ) : ℤ), r')
  else
    .error ("empty range for randrange()")

/-- The payload distinguishing the `Room` and `Connection` dataclasses. -/
inductive NodeKind
  | room (owner : OwnerType) (treasure : TreasureType) (trap : TrapType)
  | conn (length : ℤ)
deriving DecidableEq, Repr

/-- models.py `MazeNode` (with the `Room`/`Connection` payload in `kind`).
`links` is the `connections` dict: an insertion-ordered association list from
`Direction` to the neighboring node's `id`. -/
structure MazeNode where
  id : ℕ
  name : String
  row : ℤ
  col : ℤ
  links : List (Direction × ℕ)
  kind : NodeKind
deriving DecidableEq, Repr

/-- `isinstance(n, Room)`. -/
def MazeNode.isRoom (n : MazeNode) : Bool :=
  match n.kind with
  | .room _ _ _ => true
  | _ => false

/-- `isinstance(n, Connection)`. -/
def MazeNode.isConn (n : MazeNode) : Bool :=
  match n.kind with
  | .conn _ => true
  | _ => false

/-- `MazeNode.get_connection`: dict lookup by direction. -/
def MazeNode.getLink (n : MazeNode) (d : Direction) : Option ℕ :=
  (n.links.find? (fun p => decide (p.1 = d))).map (fun p => p.2)

/-- `MazeNode.has_connection`. -/
def MazeNode.hasLink (n : MazeNode) (d : Direction) : Bool :=
  (n.getLink d).isSome

/-- `MazeNode.add_connection`: dict assignment `connections[direction] = dest`
(overwrite in place if the key exists, else append). -/
def MazeNode.addConnection (n : MazeNode) (d : Direction) (j : ℕ) : MazeNode :=
  { n with links :=
      if n.links.any (fun p => decide (p.1 = d)) then
        n.links.map (fun p => if p.1 = d then (d, j) else p)
      else
        n.links ++ [(d, j)] }

/-- `MazeNode.connection_count` (= `Connection.ways`). -/
def MazeNode.connectionCount (n : MazeNode) : ℕ := n.links.length

/-- The room `owner` field (rooms only). -/
def MazeNode.owner? (n : MazeNode) : Option OwnerType :=
  match n.kind with
  | .room o _ _ => some o
  | _ => Option.none

/-- The room `treasure` field (rooms only). -/
def MazeNode.treasure? (n : MazeNode) : Option TreasureType :=
  match n.kind with
  | .room _ t _ => some t
  | _ => Option.none

/-- The room `trap` field (rooms only). -/
def MazeNode.trap? (n : MazeNode) : Option TrapType :=
  match n.kind with
  | .room _ _ t => some t
  | _ => Option.none

/-- The `Connection.length` field (connections only). -/
def MazeNode.length? (n : MazeNode) : Option ℤ :=
  match n.kind with
  | .conn l => some l
  | _ => Option.none

/-- The expanded grid: rows of cells, `Option.none` meaning wall / empty. -/
abbrev Grid := List (List (Option MazeNode))

/-- models.py `Maze`. -/
structure Maze where
  roomsWide : ℤ
  roomsTall : ℤ
  grid : Grid
  entry : Option MazeNode
  name : String
deriving DecidableEq, Repr

/-- `Maze.grid_width`. -/
def Maze.gridWidth (m : Maze) : ℤ :=
  if m.roomsWide ≤ 0 then 0 else 2 * m.roomsWide - 1

/-- `Maze.grid_height`. -/
def Maze.gridHeight (m : Maze) : ℤ :=
  if m.roomsTall ≤ 0 then 0 else 2 * m.roomsTall - 1

/-- `Maze.get_cell(row, col)`: guarded grid indexing, `None` out of bounds. -/
def Maze.getCell (m : Maze) (row col : ℤ) : Option MazeNode :=
  if 0 ≤ row ∧ row < (m.grid.length : ℤ) ∧ m.grid ≠ [] ∧
      0 ≤ col ∧ col < ((m.grid.headD []).length : ℤ) then
    (m.grid.getD row.toNat []).getD col.toNat Option.none
  else
    Option.none

/-- `Maze.get_room(logical_row, logical_col)`. -/
def Maze.getRoom (m : Maze) (lr lc : ℤ) : Option MazeNode :=
  match m.getCell (lr * 2) (lc * 2) with
  | some n => if n.isRoom then some n else Option.none
  | Option.none => Option.none

/-- `Maze.all_nodes`: grid scan omitting empty cells. -/
def Maze.allNodes (m : Maze) : List MazeNode :=
  m.grid.flatten.reduceOption

/-- `Maze.all_rooms`. -/
def Maze.allRooms (m : Maze) : List MazeNode :=
  m.grid.flatten.reduceOption.filter (fun n => n.isRoom)

/-- `Maze.all_connections`. -/
def Maze.allConnections (m : Maze) : List MazeNode :=
  m.grid.flatten.reduceOption.filter (fun n => n.isConn)

/-- `Maze.total_rooms`. -/
def Maze.totalRooms (m : Maze) : ℤ := m.roomsWide * m.roomsTall

/-- `Maze.total_nodes`. -/
def Maze.totalNodes (m : Maze) : ℕ := m.allNodes.length

/-! ### Naming component (generator.py `_generate_room_name` /
`_generate_connection_name`) -/

/-- The decimal rendering of a natural number, as Python's `str(counter)`. -/
def natDecimal (n : ℕ) : String :=
  if n = 0 then "0" else ⟨((Nat.digits 10 n).map Nat.digitChar).reverse⟩

/-- `f"{base} {counter}"`. -/
def suffixedName (base : String) (c : ℕ) : String :=
  base ++ " " ++ natDecimal c

theorem digitChar_inj_lt10 (a b : ℕ) (ha : a < 10) (hb : b < 10)
    (h : Nat.digitChar a = Nat.digitChar b) : a = b := by
  have : ∀ x y : Fin 10, Nat.digitChar x.1 = Nat.digitChar y.1 → x = y := by decide
  have := this ⟨a, ha⟩ ⟨b, hb⟩ h
  exact congrArg Fin.val this

theorem map_digitChar_inj : ∀ (l₁ l₂ : List ℕ), (∀ x ∈ l₁, x < 10) →
    (∀ x ∈ l₂, x < 10) → l₁.map Nat.digitChar = l₂.map Nat.digitChar → l₁ = l₂
  | [], [], _, _, _ => rfl
  | [], _ :: _, _, _, h => by simp at h
  | _ :: _, [], _, _, h => by simp at h
  | a :: l₁, b :: l₂, h₁, h₂, h => by
    simp only [List.map_cons, List.cons.injEq] at h
    have hab := digitChar_inj_lt10 a b (h₁ a (by simp)) (h₂ b (by simp)) h.1
    have := map_digitChar_inj l₁ l₂ (fun x hx => h₁ x (by simp [hx]))
      (fun x hx => h₂ x (by simp [hx])) h.2
    simp [hab, this]

theorem natDecimal_ne_zero_str {m : ℕ} (hm : m ≠ 0) (h : natDecimal m = "0") : False := by
  have hd : ((Nat.digits 10 m).map Nat.digitChar).reverse = ['0'] := by
    have := congrArg String.data h
    simpa [natDecimal, hm] using this
  have hmap : (Nat.digits 10 m).map Nat.digitChar = ['0'] := by
    have := congrArg List.reverse hd
    simpa using this
  have hdig : Nat.digits 10 m = [0] := by
    refine map_digitChar_inj _ [0]
      (fun x hx => Nat.digits_lt_base (by norm_num) hx) (by simp) ?_
    rw [hmap]
    rfl
  have := congrArg (Nat.ofDigits 10) hdig
  rw [Nat.ofDigits_digits] at this
  simp [Nat.ofDigits] at this
  exact hm this

theorem natDecimal_inj {n m : ℕ} (h : natDecimal n = natDecimal m) : n = m := by
  by_cases hn : n = 0 <;> by_cases hm : m = 0
  · omega
  · exact (natDecimal_ne_zero_str hm (by rw [← h, hn]; rfl)).elim
  · exact (natDecimal_ne_zero_str hn (by rw [h, hm]; rfl)).elim
  · simp only [natDecimal, if_neg hn, if_neg hm] at h
    have hdata := congrArg String.data h
    simp only at hdata
    have hrev : (Nat.digits 10 n).map Nat.digitChar = (Nat.digits 10 m).map Nat.digitChar := by
      have := congrArg List.reverse hdata
      simpa using this
    have hmap := map_digitChar_inj _ _
      (fun x hx => Nat.digits_lt_base (by norm_num) hx)
      (fun x hx => Nat.digits_lt_base (by norm_num) hx) hrev
    have := congrArg (Nat.ofDigits 10) hmap
    rwa [Nat.ofDigits_digits, Nat.ofDigits_digits] at this

theorem suffixedName_inj (base : String) {c₁ c₂ : ℕ}
    (h : suffixedName base c₁ = suffixedName base c₂) : c₁ = c₂ := by
  have hdata := congrArg String.data h
  simp only [suffixedName, String.data_append] at hdata
  have h₁ : (natDecimal c₁).data = (natDecimal c₂).data := by
    simpa [List.append_assoc] using hdata
  exact natDecimal_inj (String.ext h₁)

/-- The numeric-suffix fallback always finds a free name: some counter `≥ 2`
yields a name not in the (finite) used set. -/
theorem exists_fresh_suffix (base : String) (used : List String) :
    ∃ k : ℕ, suffixedName base (k + 2) ∉ used := by
  by_contra hall
  push_neg at hall
  have hinj : Function.Injective (fun k : ℕ => suffixedName base (k + 2)) := by
    intro a b hab
    have := suffixedName_inj base hab
    omega
  have hsub : (Finset.range (used.length + 1)).image
      (fun k : ℕ => suffixedName base (k + 2)) ⊆ used.toFinset := by
    intro s hs
    rcases Finset.mem_image.mp hs with ⟨k, _, rfl⟩
    exact List.mem_toFinset.mpr (hall k)
  have hcard := Finset.card_le_card hsub
  rw [Finset.card_image_of_injective _ hinj, Finset.card_range] at hcard
  have := used.toFinset_card_le
  omega

/-- The retry loop of the name generators: up to `fuel` draws of
`"The {adj} {noun}"`, returning the first phrase not yet used (and the used
set with it added), or the advanced rng on exhaustion. -/
def tryFreshName (adjs nouns : List String) (ha : adjs ≠ []) (hn : nouns ≠ []) :
    ℕ → Rng → List String → Option (String × List String) × Rng
  | 0, rng, _ => (Option.none, rng)
  | fuel + 1, rng, used =>
    let (adj, r₁) := rng.chooseNE adjs ha
    let (noun, r₂) := r₁.chooseNE nouns hn
    let name := "The " ++ adj ++ " " ++ noun
    if name ∈ used then tryFreshName adjs nouns ha hn fuel r₂ used
    else (some (name, name :: used), r₂)

/-- The least counter `≥ 2` whose suffixed name is free (the `while` loop of
the fallback). -/
def fallbackCounter (base : String) (used : List String) : ℕ :=
  Nat.find (exists_fresh_suffix base used) + 2

/-- Common body of `_generate_room_name` / `_generate_connection_name`:
100 fresh draws, then the numeric-suffix fallback on a freshly drawn base
phrase. -/
def generateName (adjs nouns : List String) (ha : adjs ≠ []) (hn : nouns ≠ [])
    (rng : Rng) (used : List String) : String × Rng × List String :=
  match tryFreshName adjs nouns ha hn 100 rng used with
  | (some (name, used'), r) => (name, r, used')
  | (Option.none, r) =>
    let (adj, r₁) := r.chooseNE adjs ha
    let (noun, r₂) := r₁.chooseNE nouns hn
    let base := "The " ++ adj ++ " " ++ noun
    let name := suffixedName base (fallbackCounter base used)
    (name, r₂, name :: used)

/-- generator.py `_generate_room_name`. -/
def generateRoomName (rng : Rng) (used : List String) : String × Rng × List String :=
  generateName ROOM_ADJECTIVES ROOM_NOUNS (by decide) (by decide) rng used

/-- generator.py `_generate_connection_name`. -/
def generateConnectionName (rng : Rng) (used : List String) : String × Rng × List String :=
  generateName CONNECTION_ADJECTIVES CONNECTION_NOUNS (by decide) (by decide) rng used

theorem tryFreshName_fresh (adjs nouns : List String) (ha : adjs ≠ []) (hn : nouns ≠ []) :
    ∀ (fuel : ℕ) (rng : Rng) (used : List String) (nm : String) (used' : List String) (r : Rng),
      tryFreshName adjs nouns ha hn fuel rng used = (some (nm, used'), r) →
      nm ∉ used ∧ used' = nm :: used
  | 0, rng, used, nm, used', r, h => by simp [tryFreshName] at h
  | fuel + 1, rng, used, nm, used', r, h => by
    simp only [tryFreshName] at h
    split at h
    · exact tryFreshName_fresh adjs nouns ha hn fuel _ used nm used' r h
    · rename_i hnotmem
      simp only [Prod.mk.injEq, Option.some.injEq] at h
      obtain ⟨⟨h1, h2⟩, _⟩ := h
      subst h1; subst h2
      exact ⟨hnotmem, rfl⟩

/-- The name generators always return a fresh name and register it. -/
theorem generateName_fresh (adjs nouns : List String) (ha : adjs ≠ []) (hn : nouns ≠ [])
    (rng : Rng) (used : List String) (nm : String) (r : Rng) (used' : List String)
    (h : generateName adjs nouns ha hn rng used = (nm, r, used')) :
    nm ∉ used ∧ used' = nm :: used := by
  unfold generateName at h
  split at h
  · rename_i name used₀ r₀ heq
    simp only [Prod.mk.injEq] at h
    obtain ⟨h1, _, h3⟩ := h
    subst h1; subst h3
    exact tryFreshName_fresh adjs nouns ha hn 100 rng used _ _ _ heq
  · rename_i r₀ _
    simp only [Prod.mk.injEq] at h
    obtain ⟨h1, _, h3⟩ := h
    subst h1; subst h3
    constructor
    · have := Nat.find_spec (exists_fresh_suffix
        ("The " ++ (r₀.chooseNE adjs ha).1 ++ " " ++
          ((r₀.chooseNE adjs ha).2.chooseNE nouns hn).1) used)
      simpa [fallbackCounter] using this
    · rfl

/-! ### Generator (generator.py `generate_maze`) -/

/-- Read the expanded-grid cell at integer coordinates (`grid[r][c]` is only
reached through bounds-guarded code; out of range reads as empty here). -/
def cellZ (G : Grid) (r c : ℤ) : Option MazeNode :=
  if 0 ≤ r ∧ 0 ≤ c then ((G[r.toNat]?).bind (fun row => row[c.toNat]?)).join
  else Option.none

/-- `grid[r][c] = v`. -/
def setCellZ (G : Grid) (r c : ℤ) (v : Option MazeNode) : Grid :=
  G.set r.toNat ((G.getD r.toNat []).set c.toNat v)

/-- generator.py `_random_owner`. -/
def randomOwner (rng : Rng) (chance : ℚ) : OwnerType × Rng :=
  let (q, r₁) := rng.random
  if q > chance then (.none, r₁)
  else r₁.chooseNE (OwnerType.all.filter (fun o => decide (o ≠ OwnerType.none))) (by decide)

/-- generator.py `_random_treasure`. -/
def randomTreasure (rng : Rng) (chance : ℚ) : TreasureType × Rng :=
  let (q, r₁) := rng.random
  if q > chance then (.none, r₁)
  else r₁.chooseNE (TreasureType.all.filter (fun t => decide (t ≠ TreasureType.none))) (by decide)

/-- generator.py `_random_trap`. -/
def randomTrap (rng : Rng) (chance : ℚ) : TrapType × Rng :=
  let (q, r₁) := rng.random
  if q > chance then (.none, r₁)
  else r₁.chooseNE (TrapType.all.filter (fun t => decide (t ≠ TrapType.none))) (by decide)

/-- The mutable generation state: rng, used-names set, `next_id`, grid. -/
structure GenSt where
  rng : Rng
  used : List String
  nextId : ℕ
  grid : Grid

/-- The logical room coordinates in row-major order (`for r in range(height):
for c in range(width)`). -/
def coordsList (width height : ℤ) : List (ℕ × ℕ) :=
  (List.range height.toNat).flatMap (fun r => (List.range width.toNat).map (fun c => (r, c)))

/-- Step 1 body: place one room at grid position `(2r, 2c)`. -/
def placeRoom (oc tc pc : ℚ) (r c : ℕ) (st : GenSt) : GenSt :=
  let gr : ℤ := (r : ℤ) * 2
  let gc : ℤ := (c : ℤ) * 2
  let (name, rng₁, used₁) := generateRoomName st.rng st.used
  let (ow, rng₂) := randomOwner rng₁ oc
  let (tr, rng₃) := randomTreasure rng₂ tc
  let (tp, rng₄) := randomTrap rng₃ pc
  let room : MazeNode := ⟨st.nextId, name, gr, gc, [], .room ow tr tp⟩
  ⟨rng₄, used₁, st.nextId + 1, setCellZ st.grid gr gc (some room)⟩

/-- Step 1: place all rooms in row-major order. -/
def placeRooms (oc tc pc : ℚ) : List (ℕ × ℕ) → GenSt → GenSt
  | [], st => st
  | (r, c) :: rest, st => placeRooms oc tc pc rest (placeRoom oc tc pc r c st)

/-- generator.py `_create_connection_between`: build the connection node and
wire the four links (`room_a --d--> conn --d--> room_b` and the opposites).
Returns the updated `room_a`, updated `room_b`, and the new connection. -/
def createConnectionBetween (roomA roomB : MazeNode) (d : Direction) (length : ℤ)
    (connId : ℕ) (connName : String) (gridRow gridCol : ℤ) :
    MazeNode × MazeNode × MazeNode :=
  let connection : MazeNode := ⟨connId, connName, gridRow, gridCol, [], .conn length⟩
  let roomA' := roomA.addConnection d connId
  let conn₁ := connection.addConnection d.opposite roomA.id
  let conn₂ := conn₁.addConnection d roomB.id
  let roomB' := roomB.addConnection d.opposite connId
  (roomA', roomB', conn₂)

/-- The DFS carving state: generation state plus visited set and stack of
logical room coordinates. -/
structure CarveSt where
  gs : GenSt
  visited : List (ℤ × ℤ)
  stack : List (ℤ × ℤ)

/-- The unvisited in-bounds logical neighbours of `(cr, cc)`, scanned in
`DIRECTION_DELTAS` order. -/
def logicalNeighbors (width height : ℤ) (visited : List (ℤ × ℤ)) (cr cc : ℤ) :
    List (Direction × ℤ × ℤ) :=
  directionOrder.filterMap (fun d =>
    if 0 ≤ cr + d.dRow ∧ cr + d.dRow < height ∧ 0 ≤ cc + d.dCol ∧ cc + d.dCol < width ∧
        (cr + d.dRow, cc + d.dCol) ∉ visited then
      some (d, cr + d.dRow, cc + d.dCol)
    else Option.none)

/-- Step 2: the `while stack:` randomized-DFS loop, as fuel recursion. -/
def carve (width height minLen maxLen : ℤ) : ℕ → CarveSt → Except String CarveSt
  | 0, _ => .error ("fuel exhausted")
  | fuel + 1, st =>
    match st.stack with
    | [] => .ok st
    | (cr, cc) :: rest =>
      let nbrs := logicalNeighbors width height st.visited cr cc
      if hne : nbrs ≠ [] then
        let ((d, nr, nc), rng₁) := st.gs.rng.chooseNE nbrs hne
        let curGr := cr * 2
        let curGc := cc * 2
        let nbrGr := nr * 2
        let nbrGc := nc * 2
        let connGr := (curGr + nbrGr) / 2
        let connGc := (curGc + nbrGc) / 2
        match rng₁.randint minLen maxLen with
        | .error e => .error e
        | .ok (len, rng₂) =>
          let (cname, rng₃, used₁) := generateConnectionName rng₂ st.gs.used
          match cellZ st.gs.grid curGr curGc, cellZ st.gs.grid nbrGr nbrGc with
          | some ra, some rb =>
            if ra.isRoom && rb.isRoom then
              let (ra', rb', conn) :=
                createConnectionBetween ra rb d len st.gs.nextId cname connGr connGc
              let g₁ := setCellZ st.gs.grid curGr curGc (some ra')
              let g₂ := setCellZ g₁ nbrGr nbrGc (some rb')
              let g₃ := setCellZ g₂ connGr connGc (some conn)
              carve width height minLen maxLen fuel
                ⟨⟨rng₃, used₁, st.gs.nextId + 1, g₃⟩,
                 (nr, nc) :: st.visited, (nr, nc) :: st.stack⟩
            else .error ("assert isinstance Room")
          | _, _ => .error ("assert isinstance Room")
      else
        carve width height minLen maxLen fuel ⟨st.gs, st.visited, rest⟩

/-- Step 3 body, one direction of one room: maybe add an extra connection. -/
def extraDir (width height minLen maxLen : ℤ) (ec : ℚ) (r c : ℕ) (d : Direction)
    (gs : GenSt) : Except String GenSt :=
  let nr := (r : ℤ) + d.dRow
  let nc := (c : ℤ) + d.dCol
  let curGr := (r : ℤ) * 2
  let curGc := (c : ℤ) * 2
  match cellZ gs.grid curGr curGc with
  | some cur =>
    if 0 ≤ nr ∧ nr < height ∧ 0 ≤ nc ∧ nc < width ∧ cur.hasLink d = false then
      let (q, rng₁) := gs.rng.random
      if q < ec then
        let nbrGr := nr * 2
        let nbrGc := nc * 2
        match cellZ gs.grid nbrGr nbrGc with
        | some nbr =>
          if nbr.isRoom then
            if nbr.hasLink d.opposite = false then
              let connGr := (curGr + nbrGr) / 2
              let connGc := (curGc + nbrGc) / 2
              match rng₁.randint minLen maxLen with
              | .error e => .error e
              | .ok (len, rng₂) =>
                let (cname, rng₃, used₁) := generateConnectionName rng₂ gs.used
                let (ra, rb, conn) :=
                  createConnectionBetween cur nbr d len gs.nextId cname connGr connGc
                let g₁ := setCellZ gs.grid curGr curGc (some ra)
                let g₂ := setCellZ g₁ nbrGr nbrGc (some rb)
                let g₃ := setCellZ g₂ connGr connGc (some conn)
                .ok ⟨rng₃, used₁, gs.nextId + 1, g₃⟩
            else .ok { gs with rng := rng₁ }
          else .error ("assert isinstance Room")
        | Option.none => .error ("assert isinstance Room")
      else .ok { gs with rng := rng₁ }
    else .ok gs
  | Option.none => .error ("assert isinstance Room")

/-- Step 3, inner loop over the four directions of one room. -/
def extrasDirs (width height minLen maxLen : ℤ) (ec : ℚ) (r c : ℕ) :
    List Direction → GenSt → Except String GenSt
  | [], gs => .ok gs
  | d :: ds, gs =>
    match extraDir width height minLen maxLen ec r c d gs with
    | .error e => .error e
    | .ok gs' => extrasDirs width height minLen maxLen ec r c ds gs'

/-- Step 3, one room: fetch and check the room, then scan its directions. -/
def extrasForCell (width height minLen maxLen : ℤ) (ec : ℚ) (r c : ℕ)
    (gs : GenSt) : Except String GenSt :=
  match cellZ gs.grid ((r : ℤ) * 2) ((c : ℤ) * 2) with
  | some cur =>
    if cur.isRoom then extrasDirs width height minLen maxLen ec r c directionOrder gs
    else .error ("assert isinstance Room")
  | Option.none => .error ("assert isinstance Room")

/-- Step 3: loop over all logical rooms in row-major order. -/
def extras (width height minLen maxLen : ℤ) (ec : ℚ) :
    List (ℕ × ℕ) → GenSt → Except String GenSt
  | [], gs => .ok gs
  | (r, c) :: rest, gs =>
    match extrasForCell width height minLen maxLen ec r c gs with
    | .error e => .error e
    | .ok gs' => extras width height minLen maxLen ec rest gs'

/-- Step 4 (generator.py lines 326-344): choose the entry connection — the
first connection in grid scan order on the grid boundary, else the first
connection, else none. -/
def entryOf (gridH gridW : ℤ) (G : Grid) : Option MazeNode :=
  let allConns := G.flatten.reduceOption.filter (fun n => n.isConn)
  match allConns.find? (fun k =>
      decide (k.row = 0 ∨ k.row = gridH - 1 ∨ k.col = 0 ∨ k.col = gridW - 1)) with
  | some e => some e
  | Option.none => allConns.head?

/-- generator.py `generate_maze`.  The two streams model `random.Random(seed)`
(see the header); all other arguments mirror the Python signature.  Python
exceptions (`ValueError` from `randint`, failed `assert`s) are `Except.error`;
the carving loop gets fuel `2·width·height + 1`, an upper bound on its
iteration count (each cell is pushed once and popped once). -/
def generateMaze (ints : ℕ → ℕ) (floats : ℕ → ℚ) (width height : ℤ)
    (minConnectionLength maxConnectionLength : ℤ)
    (ownerChance treasureChance trapChance extraConnections : ℚ)
    (dungeonName : String) : Except String Maze :=
  let rng : Rng := ⟨ints, floats, 0, 0⟩
  let gridH : ℤ := if height > 0 then max (2 * height - 1) 0 else 0
  let gridW : ℤ := if width > 0 then max (2 * width - 1) 0 else 0
  let grid₀ : Grid := List.replicate gridH.toNat (List.replicate gridW.toNat Option.none)
  let st₁ := placeRooms ownerChance treasureChance trapChance
    (coordsList width height) ⟨rng, [], 0, grid₀⟩
  match st₁.rng.randint 0 (height - 1) with
  | .error e => .error e
  | .ok (startRow, rng₁) =>
    match rng₁.randint 0 (width - 1) with
    | .error e => .error e
    | .ok (startCol, rng₂) =>
      match carve width height minConnectionLength maxConnectionLength
          (2 * (width.toNat * height.toNat) + 1)
          ⟨⟨rng₂, st₁.used, st₁.nextId, st₁.grid⟩,
           [(startRow, startCol)], [(startRow, startCol)]⟩ with
      | .error e => .error e
      | .ok cst =>
        match extras width height minConnectionLength maxConnectionLength
            extraConnections (coordsList width height) cst.gs with
        | .error e => .error e
        | .ok gs₂ => .ok ⟨width, height, gs₂.grid, entryOf gridH gridW gs₂.grid, dungeonName⟩

/-- Concrete integer stream used to exercise the generator at concrete inputs. -/
def wInts : ℕ → ℕ := fun k => k

/-- Concrete float stream used to exercise the generator at concrete inputs. -/
def wFloats : ℕ → ℚ := fun _ => 0

/-- A concrete run of the generator (integral chances keep the rational
arithmetic kernel-reducible). -/
def runMaze (w h : ℤ) (ec : ℚ) : Except String Maze :=
  generateMaze wInts wFloats w h 1 10 0 0 0 ec "The Dungeon"

/-- Placeholder maze (never produced by a successful run). -/
def mzFallback : Maze := ⟨0, 0, [], Option.none, "empty"⟩

/-- Extract the maze from a successful run. -/
def okMaze (e : Except String Maze) : Maze := e.toOption.getD mzFallback

/-- A throwaway node, used as the `headD` default when probing a concrete
maze. -/
def wNode : MazeNode := ⟨0, "", 0, 0, [], .conn 0⟩

deriving instance DecidableEq for Except

/-- Row-major boundary test used by entry selection, phrased through the
maze-level `grid_height`/`grid_width` queries. -/
def onBoundary (m : Maze) (k : MazeNode) : Bool :=
  decide (k.row = 0 ∨ k.row = m.gridHeight - 1 ∨ k.col = 0 ∨ k.col = m.gridWidth - 1)

/-! ### Basic facts about directions, links, and grid cells -/

/-- All populated nodes of a grid, in row-major scan order. -/
def nodesOf (G : Grid) : List MazeNode := G.flatten.reduceOption

/-- All rooms of a grid. -/
def roomsOf (G : Grid) : List MazeNode := (nodesOf G).filter (fun n => n.isRoom)

/-- All connections of a grid. -/
def connsOf (G : Grid) : List MazeNode := (nodesOf G).filter (fun n => n.isConn)

theorem allNodes_eq (m : Maze) : m.allNodes = nodesOf m.grid := rfl

theorem allRooms_eq (m : Maze) : m.allRooms = roomsOf m.grid := rfl

theorem allConnections_eq (m : Maze) : m.allConnections = connsOf m.grid := rfl

theorem opposite_opposite (d : Direction) : d.opposite.opposite = d := by
  cases d <;> rfl

theorem opposite_ne (d : Direction) : d.opposite ≠ d := by
  cases d <;> simp [Direction.opposite]

theorem dRow_opposite (d : Direction) : d.opposite.dRow = -d.dRow := by
  cases d <;> rfl

theorem dCol_opposite (d : Direction) : d.opposite.dCol = -d.dCol := by
  cases d <;> rfl

theorem delta_cases (d : Direction) :
    (d.dRow = -1 ∧ d.dCol = 0) ∨ (d.dRow = 1 ∧ d.dCol = 0) ∨
    (d.dRow = 0 ∧ d.dCol = 1) ∨ (d.dRow = 0 ∧ d.dCol = -1) := by
  cases d <;> simp [Direction.dRow, Direction.dCol]

theorem isRoom_not_isConn {n : MazeNode} (h : n.isRoom = true) : n.isConn = false := by
  unfold MazeNode.isRoom at h
  unfold MazeNode.isConn
  cases hk : n.kind <;> simp [hk] at h ⊢

theorem isConn_not_isRoom {n : MazeNode} (h : n.isConn = true) : n.isRoom = false := by
  unfold MazeNode.isConn at h
  unfold MazeNode.isRoom
  cases hk : n.kind <;> simp [hk] at h ⊢

theorem isRoom_or_isConn (n : MazeNode) : n.isRoom = true ∨ n.isConn = true := by
  unfold MazeNode.isRoom MazeNode.isConn
  cases n.kind <;> simp

/-- Fields other than `links` are untouched by `add_connection`. -/
theorem addConnection_id (n : MazeNode) (d : Direction) (j : ℕ) :
    (n.addConnection d j).id = n.id := rfl

theorem addConnection_name (n : MazeNode) (d : Direction) (j : ℕ) :
    (n.addConnection d j).name = n.name := rfl

theorem addConnection_row (n : MazeNode) (d : Direction) (j : ℕ) :
    (n.addConnection d j).row = n.row := rfl

theorem addConnection_col (n : MazeNode) (d : Direction) (j : ℕ) :
    (n.addConnection d j).col = n.col := rfl

theorem addConnection_kind (n : MazeNode) (d : Direction) (j : ℕ) :
    (n.addConnection d j).kind = n.kind := rfl

theorem hasLink_eq_any (n : MazeNode) (d : Direction) :
    n.links.any (fun p => decide (p.1 = d)) = (n.getLink d).isSome := by
  unfold MazeNode.getLink
  have h1 : ((n.links.find? (fun p => decide (p.1 = d))).map (fun p => p.2)).isSome =
      (n.links.find? (fun p => decide (p.1 = d))).isSome := by
    cases n.links.find? (fun p => decide (p.1 = d)) <;> rfl
  rw [h1, Bool.eq_iff_iff, List.any_eq_true, List.find?_isSome]

/-- With no existing link in direction `d`, `add_connection` appends. -/
theorem addConnection_links_fresh {n : MazeNode} {d : Direction} (j : ℕ)
    (h : n.getLink d = Option.none) :
    (n.addConnection d j).links = n.links ++ [(d, j)] := by
  unfold MazeNode.addConnection
  rw [hasLink_eq_any, h]
  rfl

theorem getLink_append_one (l : List (Direction × ℕ)) (d : Direction) (e : Direction × ℕ) :
    (MazeNode.getLink ⟨0, "", 0, 0, l ++ [e], .conn 0⟩ d) =
      ((l.find? (fun p => decide (p.1 = d))).or (if e.1 = d then some e else Option.none)).map
        (fun p => p.2) := by
  unfold MazeNode.getLink
  rw [List.find?_append]
  congr 1
  unfold List.find?
  split_ifs with he
  · simp [he]
  · simp [he]

theorem getLink_addConnection_fresh_same {n : MazeNode} {d : Direction} (j : ℕ)
    (h : n.getLink d = Option.none) :
    (n.addConnection d j).getLink d = some j := by
  have hl := addConnection_links_fresh j h
  unfold MazeNode.getLink at h ⊢
  rw [hl, List.find?_append]
  have hfind : n.links.find? (fun p => decide (p.1 = d)) = Option.none := by
    cases hf : n.links.find? (fun p => decide (p.1 = d)) with
    | none => rfl
    | some p => rw [hf] at h; exact Option.noConfusion h
  rw [hfind]
  simp [List.find?]

theorem getLink_addConnection_fresh_other {n : MazeNode} {d : Direction} (j : ℕ)
    (h : n.getLink d = Option.none) (d' : Direction) (hne : d' ≠ d) :
    (n.addConnection d j).getLink d' = n.getLink d' := by
  have hl := addConnection_links_fresh j h
  unfold MazeNode.getLink
  rw [hl, List.find?_append]
  have : [(d, j)].find? (fun p => decide (p.1 = d')) = Option.none := by
    simp [List.find?, Ne.symm hne]
  rw [this]
  cases n.links.find? (fun p => decide (p.1 = d')) <;> rfl

/-- `getLink` on the literal two-entry dict of a freshly created connection. -/
theorem getLink_pair (i : ℕ) (nm : String) (r c : ℤ) (k : NodeKind)
    (d d' : Direction) (a b : ℕ) :
    (MazeNode.mk i nm r c [(d.opposite, a), (d, b)] k).getLink d' =
      if d' = d.opposite then some a else if d' = d then some b else Option.none := by
  cases d <;> cases d' <;>
    simp [MazeNode.getLink, List.find?, Direction.opposite]

theorem cellZ_some_nonneg {G : Grid} {r c : ℤ} {n : MazeNode}
    (h : cellZ G r c = some n) : 0 ≤ r ∧ 0 ≤ c := by
  by_contra hcon
  unfold cellZ at h
  rw [if_neg (by tauto)] at h
  exact Option.noConfusion h

theorem cellZ_natCast (G : Grid) (r c : ℕ) :
    cellZ G (r : ℤ) (c : ℤ) = ((G[r]?).bind (fun row => row[c]?)).join := by
  unfold cellZ
  rw [if_pos ⟨Int.natCast_nonneg r, Int.natCast_nonneg c⟩]
  rw [Int.toNat_natCast, Int.toNat_natCast]

theorem mem_nodesOf {G : Grid} {n : MazeNode} :
    n ∈ nodesOf G ↔ ∃ r c : ℕ, cellZ G (r : ℤ) (c : ℤ) = some n := by
  unfold nodesOf
  rw [List.reduceOption_mem_iff, List.mem_flatten]
  constructor
  · rintro ⟨row, hrow, hcell⟩
    rcases List.mem_iff_getElem?.mp hrow with ⟨r, hr⟩
    rcases List.mem_iff_getElem?.mp hcell with ⟨c, hc⟩
    refine ⟨r, c, ?_⟩
    rw [cellZ_natCast, hr]
    show (row[c]?).join = some n
    rw [hc]
    rfl
  · rintro ⟨r, c, h⟩
    rw [cellZ_natCast] at h
    cases hr : G[r]? with
    | none => rw [hr] at h; exact Option.noConfusion h
    | some row =>
      rw [hr] at h
      replace h : (row[c]?).join = some n := h
      cases hc : row[c]? with
      | none => rw [hc] at h; exact Option.noConfusion h
      | some cell =>
        rw [hc] at h
        cases cell with
        | none => exact Option.noConfusion h
        | some x =>
          refine ⟨row, List.mem_iff_getElem?.mpr ⟨r, hr⟩, ?_⟩
          have : x = n := by injection h
          subst this
          exact List.mem_iff_getElem?.mpr ⟨c, hc⟩

theorem reduceOption_cons_toList (x : Option MazeNode) (t : List (Option MazeNode)) :
    (x :: t).reduceOption = x.toList ++ t.reduceOption := by
  cases x <;> simp [List.reduceOption_cons_of_some]

theorem nodesOf_cons (row : List (Option MazeNode)) (rest : Grid) :
    nodesOf (row :: rest) = row.reduceOption ++ nodesOf rest := by
  unfold nodesOf
  rw [List.flatten_cons, List.reduceOption_append]

theorem reduceOption_set_splice :
    ∀ (l : List (Option MazeNode)) (c : ℕ), c < l.length → ∀ (v : Option MazeNode),
    ∃ l₁ l₂ : List MazeNode,
      l.reduceOption = l₁ ++ ((l[c]?).getD Option.none).toList ++ l₂ ∧
      (l.set c v).reduceOption = l₁ ++ v.toList ++ l₂
  | [], c, hc, v => absurd hc (by simp)
  | x :: t, 0, _, v => by
    refine ⟨[], t.reduceOption, ?_, ?_⟩
    · simp [reduceOption_cons_toList]
    · simp [List.set_cons_zero, reduceOption_cons_toList]
  | x :: t, c + 1, hc, v => by
    have hct : c < t.length := by simpa using hc
    obtain ⟨l₁, l₂, h₁, h₂⟩ := reduceOption_set_splice t c hct v
    refine ⟨x.toList ++ l₁, l₂, ?_, ?_⟩
    · rw [reduceOption_cons_toList]
      simp only [List.getElem?_cons_succ]
      rw [h₁]
      simp [List.append_assoc]
    · rw [List.set_cons_succ, reduceOption_cons_toList, h₂]
      simp [List.append_assoc]

theorem cellZ_eq_row (G : Grid) (r c : ℕ) (hr : r < G.length) :
    cellZ G (r : ℤ) (c : ℤ) = ((G.getD r [])[c]?).getD Option.none := by
  rw [cellZ_natCast]
  rw [List.getElem?_eq_getElem hr]
  show ((G[r])[c]?).join = _
  rw [List.getD_eq_getElem _ _ hr]
  cases (G[r])[c]? with
  | none => rfl
  | some o => cases o <;> rfl

theorem nodesOf_set_splice :
    ∀ (G : Grid) (r : ℕ), r < G.length → ∀ (c : ℕ), c < (G.getD r []).length →
    ∀ (v : Option MazeNode),
    ∃ l₁ l₂ : List MazeNode,
      nodesOf G = l₁ ++ (cellZ G (r : ℤ) (c : ℤ)).toList ++ l₂ ∧
      nodesOf (G.set r ((G.getD r []).set c v)) = l₁ ++ v.toList ++ l₂
  | [], r, hr, _, _, _ => absurd hr (by simp)
  | row :: rest, 0, hr0, c, hc, v => by
    have hc' : c < row.length := by simpa using hc
    obtain ⟨l₁, l₂, h₁, h₂⟩ := reduceOption_set_splice row c hc' v
    refine ⟨l₁, l₂ ++ nodesOf rest, ?_, ?_⟩
    · have hcell : cellZ (row :: rest) ((0 : ℕ) : ℤ) (c : ℤ) = ((row[c]?).getD Option.none) := by
        rw [cellZ_eq_row _ _ _ (by simp)]
        rfl
      rw [nodesOf_cons, h₁, hcell]
      simp [List.append_assoc]
    · have hgd : (row :: rest).getD 0 [] = row := rfl
      rw [hgd, List.set_cons_zero, nodesOf_cons, h₂]
      simp [List.append_assoc]
  | row :: rest, r + 1, hr, c, hc, v => by
    have hr' : r < rest.length := by simpa using hr
    have hgd : (row :: rest).getD (r + 1) [] = rest.getD r [] := rfl
    have hc' : c < (rest.getD r []).length := by rw [hgd] at hc; exact hc
    obtain ⟨l₁, l₂, h₁, h₂⟩ := nodesOf_set_splice rest r hr' c hc' v
    refine ⟨row.reduceOption ++ l₁, l₂, ?_, ?_⟩
    · have hcell : cellZ (row :: rest) ((r + 1 : ℕ) : ℤ) (c : ℤ) = cellZ rest (r : ℤ) (c : ℤ) := by
        rw [cellZ_natCast, cellZ_natCast]
        simp only [Nat.cast_add, Nat.cast_one, List.getElem?_cons_succ]
      rw [nodesOf_cons, h₁, hcell]
      simp [List.append_assoc]
    · rw [hgd, List.set_cons_succ, nodesOf_cons, h₂]
      simp [List.append_assoc]

theorem setCellZ_natCast (G : Grid) (r c : ℕ) (v : Option MazeNode) :
    setCellZ G (r : ℤ) (c : ℤ) v = G.set r ((G.getD r []).set c v) := by
  unfold setCellZ
  rw [Int.toNat_natCast, Int.toNat_natCast]

/-- Reading a cell after a (in-bounds) write. -/
theorem cellZ_setCellZ (G : Grid) (r c : ℕ) (hr : r < G.length)
    (hc : c < (G.getD r []).length) (v : Option MazeNode) (r' c' : ℤ) :
    cellZ (setCellZ G (r : ℤ) (c : ℤ) v) r' c' =
      if r' = (r : ℤ) ∧ c' = (c : ℤ) then v else cellZ G r' c' := by
  rw [setCellZ_natCast]
  by_cases hneg : 0 ≤ r' ∧ 0 ≤ c'
  · obtain ⟨a, rfl⟩ : ∃ a : ℕ, r' = (a : ℤ) := ⟨r'.toNat, (Int.toNat_of_nonneg hneg.1).symm⟩
    obtain ⟨b, rfl⟩ : ∃ b : ℕ, c' = (b : ℤ) := ⟨c'.toNat, (Int.toNat_of_nonneg hneg.2).symm⟩
    rw [cellZ_natCast, cellZ_natCast]
    by_cases har : a = r
    · subst har
      rw [List.getElem?_set_self hr]
      by_cases hbc : b = c
      · subst hbc
        rw [if_pos ⟨rfl, rfl⟩]
        show ((((G.getD a []).set b v))[b]?).join = v
        rw [List.getElem?_set_self hc]
        cases v <;> rfl
      · rw [if_neg (by
          intro hand
          exact hbc (by exact_mod_cast hand.2))]
        show ((((G.getD a []).set c v))[b]?).join = _
        rw [List.getElem?_set_ne (fun h => hbc h.symm)]
        rw [List.getElem?_eq_getElem hr, List.getD_eq_getElem _ _ hr]
        rfl
    · rw [List.getElem?_set_ne (fun h => har h.symm)]
      rw [if_neg (by
        intro hand
        exact har (by exact_mod_cast hand.1))]
  · rw [if_neg (by
      intro hand
      rw [hand.1, hand.2] at hneg
      exact hneg ⟨Int.natCast_nonneg r, Int.natCast_nonneg c⟩)]
    unfold cellZ
    rw [if_neg (by tauto), if_neg (by tauto)]

/-- Rectangular grid of the given row length and row count. -/
def RectGrid (W H : ℕ) (G : Grid) : Prop :=
  G.length = H ∧ ∀ row ∈ G, row.length = W

theorem rect_setCellZ {W H : ℕ} {G : Grid} (h : RectGrid W H G) (r c : ℕ)
    (hr : r < G.length) (v : Option MazeNode) :
    RectGrid W H (setCellZ G (r : ℤ) (c : ℤ) v) := by
  rw [setCellZ_natCast]
  refine ⟨by rw [List.length_set]; exact h.1, ?_⟩
  intro row hrow
  rcases List.mem_or_eq_of_mem_set hrow with hmem | heq
  · exact h.2 row hmem
  · subst heq
    rw [List.length_set]
    rw [List.getD_eq_getElem _ _ hr]
    exact h.2 _ (List.getElem_mem hr)

/-- In a rectangular grid, a populated cell is in bounds. -/
theorem cellZ_some_bounds {W H : ℕ} {G : Grid} (hrect : RectGrid W H G)
    {r c : ℤ} {n : MazeNode} (h : cellZ G r c = some n) :
    0 ≤ r ∧ r < (H : ℤ) ∧ 0 ≤ c ∧ c < (W : ℤ) := by
  obtain ⟨hr0, hc0⟩ := cellZ_some_nonneg h
  unfold cellZ at h
  rw [if_pos ⟨hr0, hc0⟩] at h
  cases hrow : G[r.toNat]? with
  | none => rw [hrow] at h; exact Option.noConfusion h
  | some row =>
    rw [hrow] at h
    replace h : (row[c.toNat]?).join = some n := h
    cases hcell : row[c.toNat]? with
    | none => rw [hcell] at h; exact Option.noConfusion h
    | some o =>
      have hrlen : r.toNat < G.length := by
        by_contra hcon
        rw [List.getElem?_eq_none (by omega)] at hrow
        exact Option.noConfusion hrow
      have hclen : c.toNat < row.length := by
        by_contra hcon
        rw [List.getElem?_eq_none (by omega)] at hcell
        exact Option.noConfusion hcell
      have hrowmem : row ∈ G := by
        have := List.getElem?_eq_some_iff.mp hrow
        rcases this with ⟨hh, heq⟩
        exact heq ▸ List.getElem_mem hh
      have hW := hrect.2 row hrowmem
      have hH := hrect.1
      omega

/-! ### The structural invariant of the generation algorithm -/

theorem isRoom_addConnection (n : MazeNode) (d : Direction) (j : ℕ) :
    (n.addConnection d j).isRoom = n.isRoom := rfl

theorem isConn_addConnection (n : MazeNode) (d : Direction) (j : ℕ) :
    (n.addConnection d j).isConn = n.isConn := rfl

/-- The id-graph: `i` steps to `j` when some placed node with id `i` has a
neighbor link to id `j`. -/
def AdjG (G : Grid) (i j : ℕ) : Prop :=
  ∃ n d, n ∈ nodesOf G ∧ n.id = i ∧ n.getLink d = some j

/-- Reachability along neighbor links, on ids. -/
def ReachG (G : Grid) : ℕ → ℕ → Prop := Relation.ReflTransGen (AdjG G)

/-- The structural invariant maintained over the expanded grid throughout
generation (established by room placement, preserved by every carve step). -/
structure GInv (width height : ℤ) (used : List String) (G : Grid) (nextId : ℕ) : Prop where
  hw : 1 ≤ width
  hh : 1 ≤ height
  rect : RectGrid (2 * width - 1).toNat (2 * height - 1).toNat G
  pos : ∀ r c n, cellZ G r c = some n → n.row = r ∧ n.col = c
  oddodd : ∀ r c n, cellZ G r c = some n → ¬(r % 2 = 1 ∧ c % 2 = 1)
  kindRoom : ∀ r c n, cellZ G r c = some n → r % 2 = 0 → c % 2 = 0 → n.isRoom = true
  kindConn : ∀ r c n, cellZ G r c = some n → r % 2 + c % 2 = 1 → n.isConn = true
  roomsAt : ∀ r c : ℤ, 0 ≤ r → r < height → 0 ≤ c → c < width →
    ∃ n, cellZ G (2 * r) (2 * c) = some n ∧ n.isRoom = true
  linkTarget : ∀ r c n d j, cellZ G r c = some n → n.getLink d = some j →
    ∃ m, cellZ G (r + Direction.dRow d) (c + Direction.dCol d) = some m ∧ m.id = j
  roomLinkBack : ∀ r c n d m, cellZ G r c = some n → n.isRoom = true →
    cellZ G (r + Direction.dRow d) (c + Direction.dCol d) = some m →
    (n.getLink d).isSome = true
  connLinks : ∀ r c n, cellZ G r c = some n → n.isConn = true →
    ∃ (e : Direction) (a b : ℕ), n.links = [(e.opposite, a), (e, b)] ∧
      (e.dRow ≠ 0 ↔ r % 2 = 1)
  idBound : ∀ n ∈ nodesOf G, n.id < nextId
  idInj : ∀ r c r' c' n n', cellZ G r c = some n → cellZ G r' c' = some n' →
    n.id = n'.id → r = r' ∧ c = c'
  nameMem : ∀ n ∈ nodesOf G, n.name ∈ used
  nameInj : ∀ r c r' c' n n', cellZ G r c = some n → cellZ G r' c' = some n' →
    n.name = n'.name → r = r' ∧ c = c'
  countAll : (nodesOf G).length = nextId
  countRooms : (roomsOf G).length = width.toNat * height.toNat

/-- Rooms sit at even-even cells. -/
theorem room_cell_even {width height used G nextId} (inv : GInv width height used G nextId)
    {r c : ℤ} {n : MazeNode} (h : cellZ G r c = some n) (hn : n.isRoom = true) :
    r % 2 = 0 ∧ c % 2 = 0 := by
  have h1 := inv.oddodd r c n h
  have h2 := inv.kindConn r c n h
  by_contra hcon
  have hmix : r % 2 + c % 2 = 1 := by omega
  have := h2 hmix
  rw [isRoom_not_isConn hn] at this
  exact Bool.noConfusion this

/-- Connections sit at mixed-parity cells. -/
theorem conn_cell_mixed {width height used G nextId} (inv : GInv width height used G nextId)
    {r c : ℤ} {n : MazeNode} (h : cellZ G r c = some n) (hn : n.isConn = true) :
    r % 2 + c % 2 = 1 := by
  have h1 := inv.oddodd r c n h
  have h2 := inv.kindRoom r c n h
  by_contra hcon
  have : r % 2 = 0 ∧ c % 2 = 0 := by omega
  have := h2 this.1 this.2
  rw [isConn_not_isRoom hn] at this
  exact Bool.noConfusion this

/-- A populated cell yields membership in `nodesOf`. -/
theorem cellZ_mem_nodesOf {G : Grid} {r c : ℤ} {n : MazeNode}
    (h : cellZ G r c = some n) : n ∈ nodesOf G := by
  obtain ⟨hr, hc⟩ := cellZ_some_nonneg h
  exact mem_nodesOf.mpr ⟨r.toNat, c.toNat, by
    rw [Int.toNat_of_nonneg hr, Int.toNat_of_nonneg hc]
    exact h⟩

/-- `createConnectionBetween` in explicit form. -/
theorem createConnectionBetween_eq (ra rb : MazeNode) (d : Direction) (len : ℤ)
    (cid : ℕ) (cname : String) (mr mc : ℤ) :
    createConnectionBetween ra rb d len cid cname mr mc =
      (ra.addConnection d cid, rb.addConnection d.opposite cid,
       ⟨cid, cname, mr, mc, [(d.opposite, ra.id), (d, rb.id)], .conn len⟩) := by
  cases d <;> rfl

/-- ℤ-level wrapper for in-bounds cell updates on a rectangular grid. -/
theorem cellZ_setCellZ_rect {W H : ℕ} {G : Grid} (hrect : RectGrid W H G)
    {r c : ℤ} (hr0 : 0 ≤ r) (hrH : r < (H : ℤ)) (hc0 : 0 ≤ c) (hcW : c < (W : ℤ))
    (v : Option MazeNode) (r' c' : ℤ) :
    cellZ (setCellZ G r c v) r' c' = if r' = r ∧ c' = c then v else cellZ G r' c' := by
  obtain ⟨a, rfl⟩ : ∃ a : ℕ, r = (a : ℤ) := ⟨r.toNat, (Int.toNat_of_nonneg hr0).symm⟩
  obtain ⟨b, rfl⟩ : ∃ b : ℕ, c = (b : ℤ) := ⟨c.toNat, (Int.toNat_of_nonneg hc0).symm⟩
  have ha : a < G.length := by rw [hrect.1]; exact_mod_cast hrH
  have hb : b < (G.getD a []).length := by
    rw [List.getD_eq_getElem _ _ ha, hrect.2 _ (List.getElem_mem ha)]
    exact_mod_cast hcW
  exact cellZ_setCellZ G a b ha hb v r' c'

theorem rect_setCellZ_rect {W H : ℕ} {G : Grid} (hrect : RectGrid W H G)
    {r c : ℤ} (hr0 : 0 ≤ r) (hrH : r < (H : ℤ)) (hc0 : 0 ≤ c) (v : Option MazeNode) :
    RectGrid W H (setCellZ G r c v) := by
  obtain ⟨a, rfl⟩ : ∃ a : ℕ, r = (a : ℤ) := ⟨r.toNat, (Int.toNat_of_nonneg hr0).symm⟩
  obtain ⟨b, rfl⟩ : ∃ b : ℕ, c = (b : ℤ) := ⟨c.toNat, (Int.toNat_of_nonneg hc0).symm⟩
  have ha : a < G.length := by rw [hrect.1]; exact_mod_cast hrH
  exact rect_setCellZ hrect a b ha v

theorem nodesOf_setCellZ_splice {W H : ℕ} {G : Grid} (hrect : RectGrid W H G)
    {r c : ℤ} (hr0 : 0 ≤ r) (hrH : r < (H : ℤ)) (hc0 : 0 ≤ c) (hcW : c < (W : ℤ))
    (v : Option MazeNode) :
    ∃ l₁ l₂ : List MazeNode,
      nodesOf G = l₁ ++ (cellZ G r c).toList ++ l₂ ∧
      nodesOf (setCellZ G r c v) = l₁ ++ v.toList ++ l₂ := by
  obtain ⟨a, rfl⟩ : ∃ a : ℕ, r = (a : ℤ) := ⟨r.toNat, (Int.toNat_of_nonneg hr0).symm⟩
  obtain ⟨b, rfl⟩ : ∃ b : ℕ, c = (b : ℤ) := ⟨c.toNat, (Int.toNat_of_nonneg hc0).symm⟩
  have ha : a < G.length := by rw [hrect.1]; exact_mod_cast hrH
  have hb : b < (G.getD a []).length := by
    rw [List.getD_eq_getElem _ _ ha, hrect.2 _ (List.getElem_mem ha)]
    exact_mod_cast hcW
  rw [setCellZ_natCast]
  exact nodesOf_set_splice G a ha b hb v

/-- The connection node created by one carve step. -/
def connNode (d : Direction) (ar ac : ℤ) (ra rb : MazeNode) (len : ℤ)
    (cid : ℕ) (cname : String) : MazeNode :=
  ⟨cid, cname, ar + d.dRow, ac + d.dCol, [(d.opposite, ra.id), (d, rb.id)], .conn len⟩

/-- The three-cell grid update performed by one carve step (room `ra` at
`(ar, ac)`, room `rb` two cells away in direction `d`, the new connection at
the midpoint). -/
def carvedGrid (G : Grid) (d : Direction) (ar ac : ℤ) (ra rb : MazeNode)
    (len : ℤ) (cid : ℕ) (cname : String) : Grid :=
  setCellZ (setCellZ (setCellZ G ar ac (some (ra.addConnection d cid)))
      (ar + 2 * d.dRow) (ac + 2 * d.dCol) (some (rb.addConnection d.opposite cid)))
    (ar + d.dRow) (ac + d.dCol) (some (connNode d ar ac ra rb len cid cname))

/-- Preconditions of one carve step, shared by Phase B and Phase C. -/
structure CarveCtx (width height : ℤ) (used : List String) (G : Grid) (nextId : ℕ)
    (d : Direction) (ar ac : ℤ) (ra rb : MazeNode) : Prop where
  inv : GInv width height used G nextId
  hA : cellZ G ar ac = some ra
  hraR : ra.isRoom = true
  hB : cellZ G (ar + 2 * d.dRow) (ac + 2 * d.dCol) = some rb
  hrbR : rb.isRoom = true
  hM : cellZ G (ar + d.dRow) (ac + d.dCol) = Option.none

section CarveStep

variable {width height : ℤ} {used : List String} {G : Grid} {nextId : ℕ}
variable {d : Direction} {ar ac : ℤ} {ra rb : MazeNode}

theorem CarveCtx.evenA (ctx : CarveCtx width height used G nextId d ar ac ra rb) :
    ar % 2 = 0 ∧ ac % 2 = 0 :=
  room_cell_even ctx.inv ctx.hA ctx.hraR

theorem CarveCtx.boundsA (ctx : CarveCtx width height used G nextId d ar ac ra rb) :
    0 ≤ ar ∧ ar < 2 * height - 1 ∧ 0 ≤ ac ∧ ac < 2 * width - 1 := by
  have h := cellZ_some_bounds ctx.inv.rect ctx.hA
  have hw := ctx.inv.hw
  have hh := ctx.inv.hh
  omega

theorem CarveCtx.boundsB (ctx : CarveCtx width height used G nextId d ar ac ra rb) :
    0 ≤ ar + 2 * d.dRow ∧ ar + 2 * d.dRow < 2 * height - 1 ∧
    0 ≤ ac + 2 * d.dCol ∧ ac + 2 * d.dCol < 2 * width - 1 := by
  have h := cellZ_some_bounds ctx.inv.rect ctx.hB
  have hw := ctx.inv.hw
  have hh := ctx.inv.hh
  omega

theorem CarveCtx.boundsM (ctx : CarveCtx width height used G nextId d ar ac ra rb) :
    0 ≤ ar + d.dRow ∧ ar + d.dRow < 2 * height - 1 ∧
    0 ≤ ac + d.dCol ∧ ac + d.dCol < 2 * width - 1 := by
  have h1 := ctx.boundsA
  have h2 := ctx.boundsB
  rcases delta_cases d with ⟨hr, hc⟩ | ⟨hr, hc⟩ | ⟨hr, hc⟩ | ⟨hr, hc⟩ <;> omega

theorem CarveCtx.linkA_none (ctx : CarveCtx width height used G nextId d ar ac ra rb) :
    ra.getLink d = Option.none := by
  cases hl : ra.getLink d with
  | none => rfl
  | some j =>
    obtain ⟨m, hm, _⟩ := ctx.inv.linkTarget ar ac ra d j ctx.hA hl
    rw [ctx.hM] at hm
    exact Option.noConfusion hm

theorem CarveCtx.linkB_none (ctx : CarveCtx width height used G nextId d ar ac ra rb) :
    rb.getLink d.opposite = Option.none := by
  cases hl : rb.getLink d.opposite with
  | none => rfl
  | some j =>
    obtain ⟨m, hm, _⟩ := ctx.inv.linkTarget _ _ rb d.opposite j ctx.hB hl
    rw [dRow_opposite, dCol_opposite] at hm
    rw [show ar + 2 * d.dRow + -d.dRow = ar + d.dRow by ring,
        show ac + 2 * d.dCol + -d.dCol = ac + d.dCol by ring] at hm
    rw [ctx.hM] at hm
    exact Option.noConfusion hm

/-- The deltas of a direction are never both zero, so the three touched cells
are pairwise distinct. -/
theorem CarveCtx.cells_distinct (ctx : CarveCtx width height used G nextId d ar ac ra rb) :
    ¬(ar = ar + d.dRow ∧ ac = ac + d.dCol) ∧
    ¬(ar + 2 * d.dRow = ar + d.dRow ∧ ac + 2 * d.dCol = ac + d.dCol) ∧
    ¬(ar = ar + 2 * d.dRow ∧ ac = ac + 2 * d.dCol) := by
  rcases delta_cases d with ⟨hr, hc⟩ | ⟨hr, hc⟩ | ⟨hr, hc⟩ | ⟨hr, hc⟩ <;>
    refine ⟨?_, ?_, ?_⟩ <;> rintro ⟨h1, h2⟩ <;> omega

/-- Reading any cell of the carved grid. -/
theorem carveStep_cellChar (ctx : CarveCtx width height used G nextId d ar ac ra rb)
    (len : ℤ) (cname : String) (r c : ℤ) :
    cellZ (carvedGrid G d ar ac ra rb len nextId cname) r c =
      if r = ar + d.dRow ∧ c = ac + d.dCol then some (connNode d ar ac ra rb len nextId cname)
      else if r = ar + 2 * d.dRow ∧ c = ac + 2 * d.dCol then
        some (rb.addConnection d.opposite nextId)
      else if r = ar ∧ c = ac then some (ra.addConnection d nextId)
      else cellZ G r c := by
  have hh := ctx.inv.hh
  have hw := ctx.inv.hw
  have hbA := ctx.boundsA
  have hbB := ctx.boundsB
  have hbM := ctx.boundsM
  have hH : ((2 * height - 1).toNat : ℤ) = 2 * height - 1 := Int.toNat_of_nonneg (by omega)
  have hW : ((2 * width - 1).toNat : ℤ) = 2 * width - 1 := Int.toNat_of_nonneg (by omega)
  have rect1 : RectGrid (2 * width - 1).toNat (2 * height - 1).toNat
      (setCellZ G ar ac (some (ra.addConnection d nextId))) :=
    rect_setCellZ_rect ctx.inv.rect hbA.1 (by omega) hbA.2.2.1 _
  have rect2 : RectGrid (2 * width - 1).toNat (2 * height - 1).toNat
      (setCellZ (setCellZ G ar ac (some (ra.addConnection d nextId)))
        (ar + 2 * d.dRow) (ac + 2 * d.dCol) (some (rb.addConnection d.opposite nextId))) :=
    rect_setCellZ_rect rect1 hbB.1 (by omega) hbB.2.2.1 _
  unfold carvedGrid
  rw [cellZ_setCellZ_rect rect2 hbM.1 (by omega) hbM.2.2.1 (by omega)]
  rw [cellZ_setCellZ_rect rect1 hbB.1 (by omega) hbB.2.2.1 (by omega)]
  rw [cellZ_setCellZ_rect ctx.inv.rect hbA.1 (by omega) hbA.2.2.1 (by omega)]

end CarveStep

theorem delta_injective (d d' : Direction) :
    d.dRow = d'.dRow → d.dCol = d'.dCol → d = d' := by
  cases d <;> cases d' <;> decide

theorem delta_opposite_iff (d d' : Direction) :
    (d'.dRow = -d.dRow ∧ d'.dCol = -d.dCol) ↔ d' = d.opposite := by
  cases d <;> cases d' <;> decide

/-- An even-even cell adjacent to the midpoint `(ar + δd)` of a carve is one of
its two endpoint rooms. -/
theorem even_adjacent_to_mid {ar ac r c : ℤ} {d d' : Direction}
    (hae : ar % 2 = 0) (hce : ac % 2 = 0) (hre : r % 2 = 0) (hcc : c % 2 = 0)
    (h1 : r + d'.dRow = ar + d.dRow) (h2 : c + d'.dCol = ac + d.dCol) :
    (r = ar ∧ c = ac) ∨ (r = ar + 2 * d.dRow ∧ c = ac + 2 * d.dCol) := by
  rcases delta_cases d with ⟨hr, hc⟩ | ⟨hr, hc⟩ | ⟨hr, hc⟩ | ⟨hr, hc⟩ <;>
    rcases delta_cases d' with ⟨hr', hc'⟩ | ⟨hr', hc'⟩ | ⟨hr', hc'⟩ | ⟨hr', hc'⟩ <;>
    omega

theorem connNode_isConn (d : Direction) (ar ac : ℤ) (ra rb : MazeNode) (len : ℤ)
    (cid : ℕ) (cname : String) :
    (connNode d ar ac ra rb len cid cname).isConn = true := rfl

theorem connNode_isRoom (d : Direction) (ar ac : ℤ) (ra rb : MazeNode) (len : ℤ)
    (cid : ℕ) (cname : String) :
    (connNode d ar ac ra rb len cid cname).isRoom = false := rfl

theorem connNode_getLink (d : Direction) (ar ac : ℤ) (ra rb : MazeNode) (len : ℤ)
    (cid : ℕ) (cname : String) (d' : Direction) :
    (connNode d ar ac ra rb len cid cname).getLink d' =
      if d' = d.opposite then some ra.id else if d' = d then some rb.id
      else Option.none :=
  getLink_pair cid cname (ar + d.dRow) (ac + d.dCol) (.conn len) d d' ra.id rb.id

section CarveStepInv

variable {width height : ℤ} {used : List String} {G : Grid} {nextId : ℕ}
variable {d : Direction} {ar ac : ℤ} {ra rb : MazeNode}

theorem carveStep_pos (ctx : CarveCtx width height used G nextId d ar ac ra rb)
    (len : ℤ) (cname : String) :
    ∀ r c n, cellZ (carvedGrid G d ar ac ra rb len nextId cname) r c = some n →
      n.row = r ∧ n.col = c := by
  intro r c n h
  rw [carveStep_cellChar ctx len cname] at h
  split_ifs at h with h1 h2 h3
  · injection h with hx
    subst hx
    exact ⟨h1.1.symm, h1.2.symm⟩
  · injection h with hx
    subst hx
    rw [addConnection_row, addConnection_col]
    obtain ⟨p1, p2⟩ := ctx.inv.pos _ _ _ ctx.hB
    exact ⟨by rw [p1, h2.1], by rw [p2, h2.2]⟩
  · injection h with hx
    subst hx
    rw [addConnection_row, addConnection_col]
    obtain ⟨p1, p2⟩ := ctx.inv.pos _ _ _ ctx.hA
    exact ⟨by rw [p1, h3.1], by rw [p2, h3.2]⟩
  · exact ctx.inv.pos r c n h

theorem carveStep_oddodd (ctx : CarveCtx width height used G nextId d ar ac ra rb)
    (len : ℤ) (cname : String) :
    ∀ r c n, cellZ (carvedGrid G d ar ac ra rb len nextId cname) r c = some n →
      ¬(r % 2 = 1 ∧ c % 2 = 1) := by
  intro r c n h
  rw [carveStep_cellChar ctx len cname] at h
  obtain ⟨hae, hce⟩ := ctx.evenA
  split_ifs at h with h1 h2 h3
  · obtain ⟨hr, hc⟩ := h1
    rcases delta_cases d with ⟨h4, h5⟩ | ⟨h4, h5⟩ | ⟨h4, h5⟩ | ⟨h4, h5⟩ <;> omega
  · obtain ⟨hr, hc⟩ := h2
    rcases delta_cases d with ⟨h4, h5⟩ | ⟨h4, h5⟩ | ⟨h4, h5⟩ | ⟨h4, h5⟩ <;> omega
  · obtain ⟨hr, hc⟩ := h3
    omega
  · exact ctx.inv.oddodd r c n h

theorem carveStep_kindRoom (ctx : CarveCtx width height used G nextId d ar ac ra rb)
    (len : ℤ) (cname : String) :
    ∀ r c n, cellZ (carvedGrid G d ar ac ra rb len nextId cname) r c = some n →
      r % 2 = 0 → c % 2 = 0 → n.isRoom = true := by
  intro r c n h hr hc
  rw [carveStep_cellChar ctx len cname] at h
  obtain ⟨hae, hce⟩ := ctx.evenA
  split_ifs at h with h1 h2 h3
  · exfalso
    obtain ⟨e1, e2⟩ := h1
    rcases delta_cases d with ⟨h4, h5⟩ | ⟨h4, h5⟩ | ⟨h4, h5⟩ | ⟨h4, h5⟩ <;> omega
  · injection h with hx
    subst hx
    rw [isRoom_addConnection]
    exact ctx.hrbR
  · injection h with hx
    subst hx
    rw [isRoom_addConnection]
    exact ctx.hraR
  · exact ctx.inv.kindRoom r c n h hr hc

theorem carveStep_kindConn (ctx : CarveCtx width height used G nextId d ar ac ra rb)
    (len : ℤ) (cname : String) :
    ∀ r c n, cellZ (carvedGrid G d ar ac ra rb len nextId cname) r c = some n →
      r % 2 + c % 2 = 1 → n.isConn = true := by
  intro r c n h hpar
  rw [carveStep_cellChar ctx len cname] at h
  obtain ⟨hae, hce⟩ := ctx.evenA
  have hbe := room_cell_even ctx.inv ctx.hB ctx.hrbR
  split_ifs at h with h1 h2 h3
  · injection h with hx
    subst hx
    rfl
  · exfalso
    obtain ⟨e1, e2⟩ := h2
    omega
  · exfalso
    obtain ⟨e1, e2⟩ := h3
    omega
  · exact ctx.inv.kindConn r c n h hpar

theorem carveStep_roomsAt (ctx : CarveCtx width height used G nextId d ar ac ra rb)
    (len : ℤ) (cname : String) :
    ∀ r c : ℤ, 0 ≤ r → r < height → 0 ≤ c → c < width →
      ∃ n, cellZ (carvedGrid G d ar ac ra rb len nextId cname) (2 * r) (2 * c) = some n ∧
        n.isRoom = true := by
  intro r c hr0 hrh hc0 hcw
  obtain ⟨n, hn, hnR⟩ := ctx.inv.roomsAt r c hr0 hrh hc0 hcw
  rw [carveStep_cellChar ctx len cname]
  obtain ⟨hae, hce⟩ := ctx.evenA
  split_ifs with h1 h2 h3
  · exfalso
    obtain ⟨e1, e2⟩ := h1
    rcases delta_cases d with ⟨h4, h5⟩ | ⟨h4, h5⟩ | ⟨h4, h5⟩ | ⟨h4, h5⟩ <;> omega
  · exact ⟨rb.addConnection d.opposite nextId, rfl, by rw [isRoom_addConnection]; exact ctx.hrbR⟩
  · exact ⟨ra.addConnection d nextId, rfl, by rw [isRoom_addConnection]; exact ctx.hraR⟩
  · exact ⟨n, hn, hnR⟩

theorem carveStep_linkTarget (ctx : CarveCtx width height used G nextId d ar ac ra rb)
    (len : ℤ) (cname : String) :
    ∀ r c n d' j, cellZ (carvedGrid G d ar ac ra rb len nextId cname) r c = some n →
      n.getLink d' = some j →
      ∃ m, cellZ (carvedGrid G d ar ac ra rb len nextId cname)
          (r + d'.dRow) (c + d'.dCol) = some m ∧ m.id = j := by
  intro r c n d' j h hl
  have cc := carveStep_cellChar ctx len cname
  rw [cc] at h
  split_ifs at h with h1 h2 h3
  · -- the new connection at the midpoint
    injection h with hx
    subst hx
    obtain ⟨hr, hc⟩ := h1
    subst hr
    subst hc
    rw [connNode_getLink] at hl
    split_ifs at hl with hd1 hd2
    · injection hl with hj
      subst hj
      subst hd1
      refine ⟨ra.addConnection d nextId, ?_, addConnection_id ra d nextId⟩
      rw [cc, dRow_opposite, dCol_opposite]
      have hne1 : ¬(ar + d.dRow + -d.dRow = ar + d.dRow ∧
          ac + d.dCol + -d.dCol = ac + d.dCol) := by
        rcases delta_cases d with ⟨e1, e2⟩ | ⟨e1, e2⟩ | ⟨e1, e2⟩ | ⟨e1, e2⟩ <;>
          rintro ⟨f1, f2⟩ <;> omega
      have hne2 : ¬(ar + d.dRow + -d.dRow = ar + 2 * d.dRow ∧
          ac + d.dCol + -d.dCol = ac + 2 * d.dCol) := by
        rcases delta_cases d with ⟨e1, e2⟩ | ⟨e1, e2⟩ | ⟨e1, e2⟩ | ⟨e1, e2⟩ <;>
          rintro ⟨f1, f2⟩ <;> omega
      have heq : ar + d.dRow + -d.dRow = ar ∧ ac + d.dCol + -d.dCol = ac := by
        constructor <;> omega
      rw [if_neg hne1, if_neg hne2, if_pos heq]
    · injection hl with hj
      subst hj
      rw [hd2]
      refine ⟨rb.addConnection d.opposite nextId, ?_, addConnection_id rb d.opposite nextId⟩
      rw [cc]
      have hne1 : ¬(ar + d.dRow + d.dRow = ar + d.dRow ∧
          ac + d.dCol + d.dCol = ac + d.dCol) := by
        rcases delta_cases d with ⟨e1, e2⟩ | ⟨e1, e2⟩ | ⟨e1, e2⟩ | ⟨e1, e2⟩ <;>
          rintro ⟨f1, f2⟩ <;> omega
      have heq : ar + d.dRow + d.dRow = ar + 2 * d.dRow ∧
          ac + d.dCol + d.dCol = ac + 2 * d.dCol := by
        constructor <;> omega
      rw [if_neg hne1, if_pos heq]
  · -- room B, link-extended
    injection h with hx
    subst hx
    obtain ⟨hr, hc⟩ := h2
    subst hr
    subst hc
    by_cases hd : d' = d.opposite
    · subst hd
      rw [getLink_addConnection_fresh_same nextId ctx.linkB_none] at hl
      injection hl with hj
      subst hj
      refine ⟨connNode d ar ac ra rb len nextId cname, ?_, rfl⟩
      rw [cc, dRow_opposite, dCol_opposite]
      rw [if_pos (by constructor <;> omega)]
    · rw [getLink_addConnection_fresh_other nextId ctx.linkB_none d' hd] at hl
      obtain ⟨m, hm, hmid⟩ := ctx.inv.linkTarget _ _ rb d' j ctx.hB hl
      have hne1 : ¬(ar + 2 * d.dRow + d'.dRow = ar + d.dRow ∧
          ac + 2 * d.dCol + d'.dCol = ac + d.dCol) := by
        rintro ⟨f1, f2⟩
        exact hd ((delta_opposite_iff d d').mp ⟨by omega, by omega⟩)
      have hne2 : ¬(ar + 2 * d.dRow + d'.dRow = ar + 2 * d.dRow ∧
          ac + 2 * d.dCol + d'.dCol = ac + 2 * d.dCol) := by
        rcases delta_cases d' with ⟨e1, e2⟩ | ⟨e1, e2⟩ | ⟨e1, e2⟩ | ⟨e1, e2⟩ <;>
          rintro ⟨f1, f2⟩ <;> omega
      have hne3 : ¬(ar + 2 * d.dRow + d'.dRow = ar ∧ ac + 2 * d.dCol + d'.dCol = ac) := by
        rcases delta_cases d with ⟨e1, e2⟩ | ⟨e1, e2⟩ | ⟨e1, e2⟩ | ⟨e1, e2⟩ <;>
          rcases delta_cases d' with ⟨f1, f2⟩ | ⟨f1, f2⟩ | ⟨f1, f2⟩ | ⟨f1, f2⟩ <;>
          rintro ⟨g1, g2⟩ <;> omega
      refine ⟨m, ?_, hmid⟩
      rw [cc, if_neg hne1, if_neg hne2, if_neg hne3]
      exact hm
  · -- room A, link-extended
    injection h with hx
    subst hx
    obtain ⟨hr, hc⟩ := h3
    rw [hr, hc]
    by_cases hd : d' = d
    · rw [hd]
      rw [hd, getLink_addConnection_fresh_same nextId ctx.linkA_none] at hl
      injection hl with hj
      subst hj
      exact ⟨connNode d ar ac ra rb len nextId cname, by
        rw [cc, if_pos ⟨rfl, rfl⟩], rfl⟩
    · rw [getLink_addConnection_fresh_other nextId ctx.linkA_none d' hd] at hl
      obtain ⟨m, hm, hmid⟩ := ctx.inv.linkTarget _ _ ra d' j ctx.hA hl
      have hne1 : ¬(ar + d'.dRow = ar + d.dRow ∧ ac + d'.dCol = ac + d.dCol) := by
        rintro ⟨f1, f2⟩
        exact hd (delta_injective d' d (by omega) (by omega))
      have hne2 : ¬(ar + d'.dRow = ar + 2 * d.dRow ∧ ac + d'.dCol = ac + 2 * d.dCol) := by
        rcases delta_cases d with ⟨e1, e2⟩ | ⟨e1, e2⟩ | ⟨e1, e2⟩ | ⟨e1, e2⟩ <;>
          rcases delta_cases d' with ⟨f1, f2⟩ | ⟨f1, f2⟩ | ⟨f1, f2⟩ | ⟨f1, f2⟩ <;>
          rintro ⟨g1, g2⟩ <;> omega
      have hne3 : ¬(ar + d'.dRow = ar ∧ ac + d'.dCol = ac) := by
        rcases delta_cases d' with ⟨e1, e2⟩ | ⟨e1, e2⟩ | ⟨e1, e2⟩ | ⟨e1, e2⟩ <;>
          rintro ⟨f1, f2⟩ <;> omega
      refine ⟨m, ?_, hmid⟩
      rw [cc, if_neg hne1, if_neg hne2, if_neg hne3]
      exact hm
  · -- an untouched node
    obtain ⟨m, hm, hmid⟩ := ctx.inv.linkTarget r c n d' j h hl
    by_cases ht1 : r + d'.dRow = ar + d.dRow ∧ c + d'.dCol = ac + d.dCol
    · exfalso
      rw [ht1.1, ht1.2, ctx.hM] at hm
      exact Option.noConfusion hm
    · by_cases ht2 : r + d'.dRow = ar + 2 * d.dRow ∧ c + d'.dCol = ac + 2 * d.dCol
      · have hmrb : m = rb := by
          rw [ht2.1, ht2.2, ctx.hB] at hm
          injection hm with e
          exact e.symm
        refine ⟨rb.addConnection d.opposite nextId, ?_, by
          rw [addConnection_id, ← hmrb]; exact hmid⟩
        rw [cc, if_neg ht1, if_pos ht2]
      · by_cases ht3 : r + d'.dRow = ar ∧ c + d'.dCol = ac
        · have hmra : m = ra := by
            rw [ht3.1, ht3.2, ctx.hA] at hm
            injection hm with e
            exact e.symm
          refine ⟨ra.addConnection d nextId, ?_, by
            rw [addConnection_id, ← hmra]; exact hmid⟩
          rw [cc, if_neg ht1, if_neg ht2, if_pos ht3]
        · refine ⟨m, ?_, hmid⟩
          rw [cc, if_neg ht1, if_neg ht2, if_neg ht3]
          exact hm

theorem carveStep_roomLinkBack (ctx : CarveCtx width height used G nextId d ar ac ra rb)
    (len : ℤ) (cname : String) :
    ∀ r c n d' m, cellZ (carvedGrid G d ar ac ra rb len nextId cname) r c = some n →
      n.isRoom = true →
      cellZ (carvedGrid G d ar ac ra rb len nextId cname)
        (r + d'.dRow) (c + d'.dCol) = some m →
      (n.getLink d').isSome = true := by
  intro r c n d' m h hn hm
  have cc := carveStep_cellChar ctx len cname
  rw [cc] at h
  split_ifs at h with h1 h2 h3
  · injection h with hx
    subst hx
    exact Bool.noConfusion hn
  · injection h with hx
    subst hx
    obtain ⟨hr, hc⟩ := h2
    by_cases hd : d' = d.opposite
    · rw [hd, getLink_addConnection_fresh_same nextId ctx.linkB_none]
      rfl
    · rw [getLink_addConnection_fresh_other nextId ctx.linkB_none d' hd]
      rw [cc, hr, hc] at hm
      have hne1 : ¬(ar + 2 * d.dRow + d'.dRow = ar + d.dRow ∧
          ac + 2 * d.dCol + d'.dCol = ac + d.dCol) := by
        rintro ⟨f1, f2⟩
        exact hd ((delta_opposite_iff d d').mp ⟨by omega, by omega⟩)
      have hne2 : ¬(ar + 2 * d.dRow + d'.dRow = ar + 2 * d.dRow ∧
          ac + 2 * d.dCol + d'.dCol = ac + 2 * d.dCol) := by
        rcases delta_cases d' with ⟨e1, e2⟩ | ⟨e1, e2⟩ | ⟨e1, e2⟩ | ⟨e1, e2⟩ <;>
          rintro ⟨f1, f2⟩ <;> omega
      have hne3 : ¬(ar + 2 * d.dRow + d'.dRow = ar ∧ ac + 2 * d.dCol + d'.dCol = ac) := by
        rcases delta_cases d with ⟨e1, e2⟩ | ⟨e1, e2⟩ | ⟨e1, e2⟩ | ⟨e1, e2⟩ <;>
          rcases delta_cases d' with ⟨f1, f2⟩ | ⟨f1, f2⟩ | ⟨f1, f2⟩ | ⟨f1, f2⟩ <;>
          rintro ⟨g1, g2⟩ <;> omega
      rw [if_neg hne1, if_neg hne2, if_neg hne3] at hm
      exact ctx.inv.roomLinkBack _ _ rb d' m ctx.hB ctx.hrbR hm
  · injection h with hx
    subst hx
    obtain ⟨hr, hc⟩ := h3
    by_cases hd : d' = d
    · rw [hd, getLink_addConnection_fresh_same nextId ctx.linkA_none]
      rfl
    · rw [getLink_addConnection_fresh_other nextId ctx.linkA_none d' hd]
      rw [cc, hr, hc] at hm
      have hne1 : ¬(ar + d'.dRow = ar + d.dRow ∧ ac + d'.dCol = ac + d.dCol) := by
        rintro ⟨f1, f2⟩
        exact hd (delta_injective d' d (by omega) (by omega))
      have hne2 : ¬(ar + d'.dRow = ar + 2 * d.dRow ∧ ac + d'.dCol = ac + 2 * d.dCol) := by
        rcases delta_cases d with ⟨e1, e2⟩ | ⟨e1, e2⟩ | ⟨e1, e2⟩ | ⟨e1, e2⟩ <;>
          rcases delta_cases d' with ⟨f1, f2⟩ | ⟨f1, f2⟩ | ⟨f1, f2⟩ | ⟨f1, f2⟩ <;>
          rintro ⟨g1, g2⟩ <;> omega
      have hne3 : ¬(ar + d'.dRow = ar ∧ ac + d'.dCol = ac) := by
        rcases delta_cases d' with ⟨e1, e2⟩ | ⟨e1, e2⟩ | ⟨e1, e2⟩ | ⟨e1, e2⟩ <;>
          rintro ⟨f1, f2⟩ <;> omega
      rw [if_neg hne1, if_neg hne2, if_neg hne3] at hm
      exact ctx.inv.roomLinkBack _ _ ra d' m ctx.hA ctx.hraR hm
  · rw [cc] at hm
    split_ifs at hm with g1 g2 g3
    · exfalso
      have hev := room_cell_even ctx.inv h hn
      have hevA := ctx.evenA
      rcases even_adjacent_to_mid hevA.1 hevA.2 hev.1 hev.2 g1.1 g1.2 with hAB | hAB
      · exact h3 hAB
      · exact h2 hAB
    · exact ctx.inv.roomLinkBack r c n d' rb h hn (by rw [g2.1, g2.2]; exact ctx.hB)
    · exact ctx.inv.roomLinkBack r c n d' ra h hn (by rw [g3.1, g3.2]; exact ctx.hA)
    · exact ctx.inv.roomLinkBack r c n d' m h hn hm

theorem carveStep_connLinks (ctx : CarveCtx width height used G nextId d ar ac ra rb)
    (len : ℤ) (cname : String) :
    ∀ r c n, cellZ (carvedGrid G d ar ac ra rb len nextId cname) r c = some n →
      n.isConn = true →
      ∃ (e : Direction) (a b : ℕ), n.links = [(e.opposite, a), (e, b)] ∧
        (e.dRow ≠ 0 ↔ r % 2 = 1) := by
  intro r c n h hn
  have cc := carveStep_cellChar ctx len cname
  rw [cc] at h
  split_ifs at h with h1 h2 h3
  · injection h with hx
    subst hx
    refine ⟨d, ra.id, rb.id, rfl, ?_⟩
    obtain ⟨hr, _⟩ := h1
    obtain ⟨hae, _⟩ := ctx.evenA
    rw [hr]
    rcases delta_cases d with ⟨e1, e2⟩ | ⟨e1, e2⟩ | ⟨e1, e2⟩ | ⟨e1, e2⟩ <;>
      rw [e1] <;> simp <;> omega
  · injection h with hx
    subst hx
    rw [isConn_addConnection, isRoom_not_isConn ctx.hrbR] at hn
    exact Bool.noConfusion hn
  · injection h with hx
    subst hx
    rw [isConn_addConnection, isRoom_not_isConn ctx.hraR] at hn
    exact Bool.noConfusion hn
  · exact ctx.inv.connLinks r c n h hn

theorem carveStep_nodesChar (ctx : CarveCtx width height used G nextId d ar ac ra rb)
    (len : ℤ) (cname : String) :
    ∀ n, n ∈ nodesOf (carvedGrid G d ar ac ra rb len nextId cname) →
      n = connNode d ar ac ra rb len nextId cname ∨
      n = ra.addConnection d nextId ∨ n = rb.addConnection d.opposite nextId ∨
      n ∈ nodesOf G := by
  intro n hmem
  obtain ⟨r, c, h⟩ := mem_nodesOf.mp hmem
  rw [carveStep_cellChar ctx len cname] at h
  split_ifs at h with h1 h2 h3
  · left
    injection h with hx
    exact hx.symm
  · right; right; left
    injection h with hx
    exact hx.symm
  · right; left
    injection h with hx
    exact hx.symm
  · right; right; right
    exact cellZ_mem_nodesOf h

theorem carveStep_idBound (ctx : CarveCtx width height used G nextId d ar ac ra rb)
    (len : ℤ) (cname : String) :
    ∀ n ∈ nodesOf (carvedGrid G d ar ac ra rb len nextId cname), n.id < nextId + 1 := by
  intro n hmem
  have hraB := ctx.inv.idBound ra (cellZ_mem_nodesOf ctx.hA)
  have hrbB := ctx.inv.idBound rb (cellZ_mem_nodesOf ctx.hB)
  rcases carveStep_nodesChar ctx len cname n hmem with hx | hx | hx | hx
  · subst hx
    exact Nat.lt_succ_self nextId
  · subst hx
    have : (ra.addConnection d nextId).id = ra.id := rfl
    omega
  · subst hx
    have : (rb.addConnection d.opposite nextId).id = rb.id := rfl
    omega
  · have := ctx.inv.idBound n hx
    omega

theorem carveStep_idInj (ctx : CarveCtx width height used G nextId d ar ac ra rb)
    (len : ℤ) (cname : String) :
    ∀ r c r' c' n n', cellZ (carvedGrid G d ar ac ra rb len nextId cname) r c = some n →
      cellZ (carvedGrid G d ar ac ra rb len nextId cname) r' c' = some n' →
      n.id = n'.id → r = r' ∧ c = c' := by
  intro r c r' c' n n' h h' hid
  have cc := carveStep_cellChar ctx len cname
  have hraB := ctx.inv.idBound ra (cellZ_mem_nodesOf ctx.hA)
  have hrbB := ctx.inv.idBound rb (cellZ_mem_nodesOf ctx.hB)
  rw [cc] at h h'
  split_ifs at h with h1 h2 h3 <;> split_ifs at h' with g1 g2 g3
  · exact ⟨by rw [h1.1, g1.1], by rw [h1.2, g1.2]⟩
  · exfalso
    injection h with hx
    injection h' with hy
    subst hx
    subst hy
    have he : nextId = rb.id := hid
    omega
  · exfalso
    injection h with hx
    injection h' with hy
    subst hx
    subst hy
    have he : nextId = ra.id := hid
    omega
  · exfalso
    injection h with hx
    subst hx
    have hb := ctx.inv.idBound n' (cellZ_mem_nodesOf h')
    have he : nextId = n'.id := hid
    omega
  · exfalso
    injection h with hx
    injection h' with hy
    subst hx
    subst hy
    have he : rb.id = nextId := hid
    omega
  · exact ⟨by rw [h2.1, g2.1], by rw [h2.2, g2.2]⟩
  · exfalso
    injection h with hx
    injection h' with hy
    subst hx
    subst hy
    have he : rb.id = ra.id := hid
    obtain ⟨e1, e2⟩ := ctx.inv.idInj _ _ _ _ rb ra ctx.hB ctx.hA he
    rcases delta_cases d with ⟨f1, f2⟩ | ⟨f1, f2⟩ | ⟨f1, f2⟩ | ⟨f1, f2⟩ <;> omega
  · exfalso
    injection h with hx
    subst hx
    have he : rb.id = n'.id := hid
    obtain ⟨e1, e2⟩ := ctx.inv.idInj _ _ _ _ rb n' ctx.hB h' he
    exact g2 ⟨e1.symm, e2.symm⟩
  · exfalso
    injection h with hx
    injection h' with hy
    subst hx
    subst hy
    have he : ra.id = nextId := hid
    omega
  · exfalso
    injection h with hx
    injection h' with hy
    subst hx
    subst hy
    have he : ra.id = rb.id := hid
    obtain ⟨e1, e2⟩ := ctx.inv.idInj _ _ _ _ ra rb ctx.hA ctx.hB he
    rcases delta_cases d with ⟨f1, f2⟩ | ⟨f1, f2⟩ | ⟨f1, f2⟩ | ⟨f1, f2⟩ <;> omega
  · exact ⟨by rw [h3.1, g3.1], by rw [h3.2, g3.2]⟩
  · exfalso
    injection h with hx
    subst hx
    have he : ra.id = n'.id := hid
    obtain ⟨e1, e2⟩ := ctx.inv.idInj _ _ _ _ ra n' ctx.hA h' he
    exact g3 ⟨e1.symm, e2.symm⟩
  · exfalso
    injection h' with hy
    subst hy
    have hb := ctx.inv.idBound n (cellZ_mem_nodesOf h)
    have he : n.id = nextId := hid
    omega
  · exfalso
    injection h' with hy
    subst hy
    have he : n.id = rb.id := hid
    obtain ⟨e1, e2⟩ := ctx.inv.idInj _ _ _ _ n rb h ctx.hB he
    exact h2 ⟨e1, e2⟩
  · exfalso
    injection h' with hy
    subst hy
    have he : n.id = ra.id := hid
    obtain ⟨e1, e2⟩ := ctx.inv.idInj _ _ _ _ n ra h ctx.hA he
    exact h3 ⟨e1, e2⟩
  · exact ctx.inv.idInj r c r' c' n n' h h' hid

theorem carveStep_nameMem (ctx : CarveCtx width height used G nextId d ar ac ra rb)
    (len : ℤ) (cname : String) :
    ∀ n ∈ nodesOf (carvedGrid G d ar ac ra rb len nextId cname), n.name ∈ cname :: used := by
  intro n hmem
  rcases carveStep_nodesChar ctx len cname n hmem with hx | hx | hx | hx
  · subst hx
    exact List.mem_cons_self _ _
  · subst hx
    exact List.mem_cons_of_mem _ (ctx.inv.nameMem ra (cellZ_mem_nodesOf ctx.hA))
  · subst hx
    exact List.mem_cons_of_mem _ (ctx.inv.nameMem rb (cellZ_mem_nodesOf ctx.hB))
  · exact List.mem_cons_of_mem _ (ctx.inv.nameMem n hx)

theorem carveStep_nameInj (ctx : CarveCtx width height used G nextId d ar ac ra rb)
    (len : ℤ) (cname : String) (hname : cname ∉ used) :
    ∀ r c r' c' n n', cellZ (carvedGrid G d ar ac ra rb len nextId cname) r c = some n →
      cellZ (carvedGrid G d ar ac ra rb len nextId cname) r' c' = some n' →
      n.name = n'.name → r = r' ∧ c = c' := by
  intro r c r' c' n n' h h' hid
  have cc := carveStep_cellChar ctx len cname
  have hraM := ctx.inv.nameMem ra (cellZ_mem_nodesOf ctx.hA)
  have hrbM := ctx.inv.nameMem rb (cellZ_mem_nodesOf ctx.hB)
  rw [cc] at h h'
  split_ifs at h with h1 h2 h3 <;> split_ifs at h' with g1 g2 g3
  · exact ⟨by rw [h1.1, g1.1], by rw [h1.2, g1.2]⟩
  · exfalso
    injection h with hx
    injection h' with hy
    subst hx
    subst hy
    have he : cname = rb.name := hid
    rw [he] at hname
    exact hname hrbM
  · exfalso
    injection h with hx
    injection h' with hy
    subst hx
    subst hy
    have he : cname = ra.name := hid
    rw [he] at hname
    exact hname hraM
  · exfalso
    injection h with hx
    subst hx
    have hb := ctx.inv.nameMem n' (cellZ_mem_nodesOf h')
    have he : cname = n'.name := hid
    rw [he] at hname
    exact hname hb
  · exfalso
    injection h with hx
    injection h' with hy
    subst hx
    subst hy
    have he : rb.name = cname := hid
    rw [← he] at hname
    exact hname hrbM
  · exact ⟨by rw [h2.1, g2.1], by rw [h2.2, g2.2]⟩
  · exfalso
    injection h with hx
    injection h' with hy
    subst hx
    subst hy
    have he : rb.name = ra.name := hid
    obtain ⟨e1, e2⟩ := ctx.inv.nameInj _ _ _ _ rb ra ctx.hB ctx.hA he
    rcases delta_cases d with ⟨f1, f2⟩ | ⟨f1, f2⟩ | ⟨f1, f2⟩ | ⟨f1, f2⟩ <;> omega
  · exfalso
    injection h with hx
    subst hx
    have he : rb.name = n'.name := hid
    obtain ⟨e1, e2⟩ := ctx.inv.nameInj _ _ _ _ rb n' ctx.hB h' he
    exact g2 ⟨e1.symm, e2.symm⟩
  · exfalso
    injection h with hx
    injection h' with hy
    subst hx
    subst hy
    have he : ra.name = cname := hid
    rw [← he] at hname
    exact hname hraM
  · exfalso
    injection h with hx
    injection h' with hy
    subst hx
    subst hy
    have he : ra.name = rb.name := hid
    obtain ⟨e1, e2⟩ := ctx.inv.nameInj _ _ _ _ ra rb ctx.hA ctx.hB he
    rcases delta_cases d with ⟨f1, f2⟩ | ⟨f1, f2⟩ | ⟨f1, f2⟩ | ⟨f1, f2⟩ <;> omega
  · exact ⟨by rw [h3.1, g3.1], by rw [h3.2, g3.2]⟩
  · exfalso
    injection h with hx
    subst hx
    have he : ra.name = n'.name := hid
    obtain ⟨e1, e2⟩ := ctx.inv.nameInj _ _ _ _ ra n' ctx.hA h' he
    exact g3 ⟨e1.symm, e2.symm⟩
  · exfalso
    injection h' with hy
    subst hy
    have hb := ctx.inv.nameMem n (cellZ_mem_nodesOf h)
    have he : n.name = cname := hid
    rw [← he] at hname
    exact hname hb
  · exfalso
    injection h' with hy
    subst hy
    have he : n.name = rb.name := hid
    obtain ⟨e1, e2⟩ := ctx.inv.nameInj _ _ _ _ n rb h ctx.hB he
    exact h2 ⟨e1, e2⟩
  · exfalso
    injection h' with hy
    subst hy
    have he : n.name = ra.name := hid
    obtain ⟨e1, e2⟩ := ctx.inv.nameInj _ _ _ _ n ra h ctx.hA he
    exact h3 ⟨e1, e2⟩
  · exact ctx.inv.nameInj r c r' c' n n' h h' hid

theorem carveStep_rect (ctx : CarveCtx width height used G nextId d ar ac ra rb)
    (len : ℤ) (cname : String) :
    RectGrid (2 * width - 1).toNat (2 * height - 1).toNat
      (carvedGrid G d ar ac ra rb len nextId cname) := by
  have hh := ctx.inv.hh
  have hw := ctx.inv.hw
  have hbA := ctx.boundsA
  have hbB := ctx.boundsB
  have hbM := ctx.boundsM
  have rect1 := rect_setCellZ_rect ctx.inv.rect hbA.1 (by omega) hbA.2.2.1
    (some (ra.addConnection d nextId))
  have rect2 := rect_setCellZ_rect rect1 hbB.1 (by omega) hbB.2.2.1
    (some (rb.addConnection d.opposite nextId))
  exact rect_setCellZ_rect rect2 hbM.1 (by omega) hbM.2.2.1 _

theorem carveStep_counts (ctx : CarveCtx width height used G nextId d ar ac ra rb)
    (len : ℤ) (cname : String) :
    (nodesOf (carvedGrid G d ar ac ra rb len nextId cname)).length =
      (nodesOf G).length + 1 ∧
    (roomsOf (carvedGrid G d ar ac ra rb len nextId cname)).length =
      (roomsOf G).length ∧
    (connsOf (carvedGrid G d ar ac ra rb len nextId cname)).length =
      (connsOf G).length + 1 := by
  have hh := ctx.inv.hh
  have hw := ctx.inv.hw
  have hbA := ctx.boundsA
  have hbB := ctx.boundsB
  have hbM := ctx.boundsM
  have hdis := ctx.cells_distinct
  obtain ⟨l₁, l₂, e₁, e₂⟩ := nodesOf_setCellZ_splice ctx.inv.rect hbA.1 (by omega)
    hbA.2.2.1 (by omega) (some (ra.addConnection d nextId))
  rw [ctx.hA] at e₁
  have rect1 := rect_setCellZ_rect ctx.inv.rect hbA.1 (by omega) hbA.2.2.1
    (some (ra.addConnection d nextId))
  have hcellB1 : cellZ (setCellZ G ar ac (some (ra.addConnection d nextId)))
      (ar + 2 * d.dRow) (ac + 2 * d.dCol) = some rb := by
    rw [cellZ_setCellZ_rect ctx.inv.rect hbA.1 (by omega) hbA.2.2.1 (by omega)]
    rw [if_neg (by rintro ⟨f1, f2⟩; exact hdis.2.2 ⟨f1.symm, f2.symm⟩)]
    exact ctx.hB
  obtain ⟨l₃, l₄, e₃, e₄⟩ := nodesOf_setCellZ_splice rect1 hbB.1 (by omega)
    hbB.2.2.1 (by omega) (some (rb.addConnection d.opposite nextId))
  rw [hcellB1] at e₃
  have rect2 := rect_setCellZ_rect rect1 hbB.1 (by omega) hbB.2.2.1
    (some (rb.addConnection d.opposite nextId))
  have hcellM2 : cellZ (setCellZ (setCellZ G ar ac (some (ra.addConnection d nextId)))
        (ar + 2 * d.dRow) (ac + 2 * d.dCol) (some (rb.addConnection d.opposite nextId)))
      (ar + d.dRow) (ac + d.dCol) = Option.none := by
    rw [cellZ_setCellZ_rect rect1 hbB.1 (by omega) hbB.2.2.1 (by omega)]
    rw [if_neg (by rintro ⟨f1, f2⟩; exact hdis.2.1 ⟨f1.symm, f2.symm⟩)]
    rw [cellZ_setCellZ_rect ctx.inv.rect hbA.1 (by omega) hbA.2.2.1 (by omega)]
    rw [if_neg (by rintro ⟨f1, f2⟩; exact hdis.1 ⟨f1.symm, f2.symm⟩)]
    exact ctx.hM
  obtain ⟨l₅, l₆, e₅, e₆⟩ := nodesOf_setCellZ_splice rect2 hbM.1 (by omega)
    hbM.2.2.1 (by omega) (some (connNode d ar ac ra rb len nextId cname))
  rw [hcellM2] at e₅
  have hG3 : nodesOf (carvedGrid G d ar ac ra rb len nextId cname) =
      l₅ ++ [connNode d ar ac ra rb len nextId cname] ++ l₆ := e₆
  have hraC := isRoom_not_isConn ctx.hraR
  have hrbC := isRoom_not_isConn ctx.hrbR
  refine ⟨?_, ?_, ?_⟩
  · have n1 := congrArg List.length e₁
    have n2 := congrArg List.length e₂
    have n3 := congrArg List.length e₃
    have n4 := congrArg List.length e₄
    have n5 := congrArg List.length e₅
    have n6 := congrArg List.length hG3
    simp [List.length_append] at n1 n2 n3 n4 n5 n6
    omega
  · have f := fun (l : List MazeNode) => (l.filter (fun n => n.isRoom)).length
    have n1 := congrArg (fun (l : List MazeNode) => (l.filter (fun n => n.isRoom)).length) e₁
    have n2 := congrArg (fun (l : List MazeNode) => (l.filter (fun n => n.isRoom)).length) e₂
    have n3 := congrArg (fun (l : List MazeNode) => (l.filter (fun n => n.isRoom)).length) e₃
    have n4 := congrArg (fun (l : List MazeNode) => (l.filter (fun n => n.isRoom)).length) e₄
    have n5 := congrArg (fun (l : List MazeNode) => (l.filter (fun n => n.isRoom)).length) e₅
    have n6 := congrArg (fun (l : List MazeNode) => (l.filter (fun n => n.isRoom)).length) hG3
    simp [List.filter_append, ctx.hraR, ctx.hrbR, isRoom_addConnection, connNode_isRoom]
      at n1 n2 n3 n4 n5 n6
    unfold roomsOf
    omega
  · have n1 := congrArg (fun (l : List MazeNode) => (l.filter (fun n => n.isConn)).length) e₁
    have n2 := congrArg (fun (l : List MazeNode) => (l.filter (fun n => n.isConn)).length) e₂
    have n3 := congrArg (fun (l : List MazeNode) => (l.filter (fun n => n.isConn)).length) e₃
    have n4 := congrArg (fun (l : List MazeNode) => (l.filter (fun n => n.isConn)).length) e₄
    have n5 := congrArg (fun (l : List MazeNode) => (l.filter (fun n => n.isConn)).length) e₅
    have n6 := congrArg (fun (l : List MazeNode) => (l.filter (fun n => n.isConn)).length) hG3
    simp [List.filter_append, hraC, hrbC, isConn_addConnection, connNode_isConn]
      at n1 n2 n3 n4 n5 n6
    unfold connsOf
    omega

/-- Full invariant preservation for one carve step. -/
theorem carveStep_inv (ctx : CarveCtx width height used G nextId d ar ac ra rb)
    (len : ℤ) (cname : String) (hname : cname ∉ used) :
    GInv width height (cname :: used) (carvedGrid G d ar ac ra rb len nextId cname)
      (nextId + 1) where
  hw := ctx.inv.hw
  hh := ctx.inv.hh
  rect := carveStep_rect ctx len cname
  pos := carveStep_pos ctx len cname
  oddodd := carveStep_oddodd ctx len cname
  kindRoom := carveStep_kindRoom ctx len cname
  kindConn := carveStep_kindConn ctx len cname
  roomsAt := carveStep_roomsAt ctx len cname
  linkTarget := carveStep_linkTarget ctx len cname
  roomLinkBack := carveStep_roomLinkBack ctx len cname
  connLinks := carveStep_connLinks ctx len cname
  idBound := carveStep_idBound ctx len cname
  idInj := carveStep_idInj ctx len cname
  nameMem := carveStep_nameMem ctx len cname
  nameInj := carveStep_nameInj ctx len cname hname
  countAll := by
    have h := (carveStep_counts ctx len cname).1
    rw [h, ctx.inv.countAll]
  countRooms := by
    have h := (carveStep_counts ctx len cname).2.1
    rw [h, ctx.inv.countRooms]

theorem carveStep_memA (ctx : CarveCtx width height used G nextId d ar ac ra rb)
    (len : ℤ) (cname : String) :
    cellZ (carvedGrid G d ar ac ra rb len nextId cname) ar ac =
      some (ra.addConnection d nextId) := by
  rw [carveStep_cellChar ctx len cname]
  have hdis := ctx.cells_distinct
  rw [if_neg (by rintro ⟨f1, f2⟩; exact hdis.1 ⟨f1, f2⟩)]
  rw [if_neg (by rintro ⟨f1, f2⟩; exact hdis.2.2 ⟨f1, f2⟩)]
  rw [if_pos ⟨rfl, rfl⟩]

theorem carveStep_memB (ctx : CarveCtx width height used G nextId d ar ac ra rb)
    (len : ℤ) (cname : String) :
    cellZ (carvedGrid G d ar ac ra rb len nextId cname)
      (ar + 2 * d.dRow) (ac + 2 * d.dCol) = some (rb.addConnection d.opposite nextId) := by
  rw [carveStep_cellChar ctx len cname]
  have hdis := ctx.cells_distinct
  rw [if_neg (by rintro ⟨f1, f2⟩; exact hdis.2.1 ⟨f1, f2⟩)]
  rw [if_pos ⟨rfl, rfl⟩]

theorem carveStep_memM (ctx : CarveCtx width height used G nextId d ar ac ra rb)
    (len : ℤ) (cname : String) :
    cellZ (carvedGrid G d ar ac ra rb len nextId cname)
      (ar + d.dRow) (ac + d.dCol) = some (connNode d ar ac ra rb len nextId cname) := by
  rw [carveStep_cellChar ctx len cname]
  rw [if_pos ⟨rfl, rfl⟩]

theorem carveStep_adj_mono (ctx : CarveCtx width height used G nextId d ar ac ra rb)
    (len : ℤ) (cname : String) :
    ∀ i j, AdjG G i j → AdjG (carvedGrid G d ar ac ra rb len nextId cname) i j := by
  rintro i j ⟨n, d', hmem, hid, hl⟩
  obtain ⟨rn, cn, hcell⟩ := mem_nodesOf.mp hmem
  by_cases hMc : (rn : ℤ) = ar + d.dRow ∧ (cn : ℤ) = ac + d.dCol
  · exfalso
    rw [hMc.1, hMc.2, ctx.hM] at hcell
    exact Option.noConfusion hcell
  · by_cases hAc : (rn : ℤ) = ar ∧ (cn : ℤ) = ac
    · have hn : n = ra := by
        rw [hAc.1, hAc.2, ctx.hA] at hcell
        injection hcell with e
        exact e.symm
      rw [hn] at hid hl
      have hd : d' ≠ d := by
        intro he
        rw [he, ctx.linkA_none] at hl
        exact Option.noConfusion hl
      refine ⟨ra.addConnection d nextId, d',
        cellZ_mem_nodesOf (carveStep_memA ctx len cname), hid, ?_⟩
      rw [getLink_addConnection_fresh_other nextId ctx.linkA_none d' hd]
      exact hl
    · by_cases hBc : (rn : ℤ) = ar + 2 * d.dRow ∧ (cn : ℤ) = ac + 2 * d.dCol
      · have hn : n = rb := by
          rw [hBc.1, hBc.2, ctx.hB] at hcell
          injection hcell with e
          exact e.symm
        rw [hn] at hid hl
        have hd : d' ≠ d.opposite := by
          intro he
          rw [he, ctx.linkB_none] at hl
          exact Option.noConfusion hl
        refine ⟨rb.addConnection d.opposite nextId, d',
          cellZ_mem_nodesOf (carveStep_memB ctx len cname), hid, ?_⟩
        rw [getLink_addConnection_fresh_other nextId ctx.linkB_none d' hd]
        exact hl
      · refine ⟨n, d', ?_, hid, hl⟩
        apply cellZ_mem_nodesOf (r := (rn : ℤ)) (c := (cn : ℤ))
        rw [carveStep_cellChar ctx len cname]
        rw [if_neg hMc, if_neg hBc, if_neg hAc]
        exact hcell

theorem carveStep_reach_mono (ctx : CarveCtx width height used G nextId d ar ac ra rb)
    (len : ℤ) (cname : String) :
    ∀ i j, ReachG G i j → ReachG (carvedGrid G d ar ac ra rb len nextId cname) i j := by
  intro i j h
  exact Relation.ReflTransGen.mono (carveStep_adj_mono ctx len cname) h

theorem carveStep_newAdj (ctx : CarveCtx width height used G nextId d ar ac ra rb)
    (len : ℤ) (cname : String) :
    AdjG (carvedGrid G d ar ac ra rb len nextId cname) ra.id nextId ∧
    AdjG (carvedGrid G d ar ac ra rb len nextId cname) nextId ra.id ∧
    AdjG (carvedGrid G d ar ac ra rb len nextId cname) nextId rb.id ∧
    AdjG (carvedGrid G d ar ac ra rb len nextId cname) rb.id nextId := by
  refine ⟨⟨ra.addConnection d nextId, d,
      cellZ_mem_nodesOf (carveStep_memA ctx len cname), rfl, ?_⟩,
    ⟨connNode d ar ac ra rb len nextId cname, d.opposite,
      cellZ_mem_nodesOf (carveStep_memM ctx len cname), rfl, ?_⟩,
    ⟨connNode d ar ac ra rb len nextId cname, d,
      cellZ_mem_nodesOf (carveStep_memM ctx len cname), rfl, ?_⟩,
    ⟨rb.addConnection d.opposite nextId, d.opposite,
      cellZ_mem_nodesOf (carveStep_memB ctx len cname), rfl, ?_⟩⟩
  · exact getLink_addConnection_fresh_same nextId ctx.linkA_none
  · rw [connNode_getLink, if_pos rfl]
  · rw [connNode_getLink, if_neg (Ne.symm (opposite_ne d)), if_pos rfl]
  · exact getLink_addConnection_fresh_same nextId ctx.linkB_none

end CarveStepInv

/-! ### Phase A: room placement establishes the invariant -/

theorem coordsList_mem {width height : ℤ} {p : ℕ × ℕ} :
    p ∈ coordsList width height ↔ p.1 < height.toNat ∧ p.2 < width.toNat := by
  unfold coordsList
  rw [List.mem_flatMap]
  constructor
  · rintro ⟨r, hr, hp⟩
    rw [List.mem_map] at hp
    obtain ⟨c, hc, rfl⟩ := hp
    exact ⟨List.mem_range.mp hr, List.mem_range.mp hc⟩
  · rintro ⟨h1, h2⟩
    exact ⟨p.1, List.mem_range.mpr h1,
      List.mem_map.mpr ⟨p.2, List.mem_range.mpr h2, rfl⟩⟩

theorem coordsList_nodup (width height : ℤ) : (coordsList width height).Nodup := by
  unfold coordsList
  rw [List.nodup_flatMap]
  constructor
  · intro r _
    exact (List.nodup_range _).map (fun a b h => by
      injection h)
  · have : ∀ (a b : ℕ), a ≠ b →
        List.Disjoint ((List.range width.toNat).map (fun c => (a, c)))
          ((List.range width.toNat).map (fun c => (b, c))) := by
      intro a b hab x hxa hxb
      rw [List.mem_map] at hxa hxb
      obtain ⟨c₁, _, rfl⟩ := hxa
      obtain ⟨c₂, _, he⟩ := hxb
      exact hab (by injection he with e1 e2; exact e1.symm)
    exact (List.nodup_range height.toNat).imp (fun hab => this _ _ hab)

theorem coordsList_length (width height : ℤ) :
    (coordsList width height).length = height.toNat * width.toNat := by
  unfold coordsList
  rw [List.length_flatMap]
  simp [Function.comp_def, Nat.mul_comm]

theorem cellZ_empty_grid (H W : ℕ) (r c : ℤ) :
    cellZ (List.replicate H (List.replicate W (Option.none : Option MazeNode))) r c =
      Option.none := by
  unfold cellZ
  split_ifs with h
  · rw [List.getElem?_replicate]
    split_ifs with h2
    · show ((List.replicate W (Option.none : Option MazeNode))[c.toNat]?).join = Option.none
      rw [List.getElem?_replicate]
      split_ifs with h3 <;> rfl
    · rfl
  · rfl

/-- The invariant of the room-placement loop: `done` is the list of logical
cells already populated. -/
structure PlaceInv (width height : ℤ) (done : List (ℕ × ℕ)) (st : GenSt) : Prop where
  rect : RectGrid (2 * width - 1).toNat (2 * height - 1).toNat st.grid
  nextIdEq : st.nextId = done.length
  countAll : (nodesOf st.grid).length = done.length
  cellChar : ∀ r c n, cellZ st.grid r c = some n → n.isRoom = true ∧ n.links = [] ∧
    n.row = r ∧ n.col = c ∧ ∃ p ∈ done, r = (p.1 : ℤ) * 2 ∧ c = (p.2 : ℤ) * 2
  placed : ∀ p ∈ done, ∃ n, cellZ st.grid ((p.1 : ℤ) * 2) ((p.2 : ℤ) * 2) = some n
  idBound : ∀ n ∈ nodesOf st.grid, n.id < st.nextId
  idInj : ∀ r c r' c' n n', cellZ st.grid r c = some n → cellZ st.grid r' c' = some n' →
    n.id = n'.id → r = r' ∧ c = c'
  nameMem : ∀ n ∈ nodesOf st.grid, n.name ∈ st.used
  nameInj : ∀ r c r' c' n n', cellZ st.grid r c = some n → cellZ st.grid r' c' = some n' →
    n.name = n'.name → r = r' ∧ c = c'

theorem place_write_spec {width height : ℤ} (hw : 1 ≤ width) (hh : 1 ≤ height)
    (done : List (ℕ × ℕ)) (st : GenSt) (hinv : PlaceInv width height done st)
    (r c : ℕ) (hrb : r < height.toNat) (hcb : c < width.toNat) (hnd : (r, c) ∉ done)
    (nm : String) (hfresh : nm ∉ st.used) (rng' : Rng)
    (ow : OwnerType) (tr : TreasureType) (tp : TrapType) :
    PlaceInv width height (done ++ [(r, c)])
      ⟨rng', nm :: st.used, st.nextId + 1,
        setCellZ st.grid ((r : ℤ) * 2) ((c : ℤ) * 2)
          (some ⟨st.nextId, nm, (r : ℤ) * 2, (c : ℤ) * 2, [], .room ow tr tp⟩)⟩ := by
  have hrZ : (r : ℤ) * 2 < 2 * height - 1 := by
    have : (r : ℤ) < height.toNat := by exact_mod_cast hrb
    omega
  have hcZ : (c : ℤ) * 2 < 2 * width - 1 := by
    have : (c : ℤ) < width.toNat := by exact_mod_cast hcb
    omega
  have hr0 : (0 : ℤ) ≤ (r : ℤ) * 2 := by positivity
  have hc0 : (0 : ℤ) ≤ (c : ℤ) * 2 := by positivity
  have hH : ((2 * height - 1).toNat : ℤ) = 2 * height - 1 := Int.toNat_of_nonneg (by omega)
  have hW : ((2 * width - 1).toNat : ℤ) = 2 * width - 1 := Int.toNat_of_nonneg (by omega)
  set room : MazeNode := ⟨st.nextId, nm, (r : ℤ) * 2, (c : ℤ) * 2, [], .room ow tr tp⟩ with hroom
  have hempty : cellZ st.grid ((r : ℤ) * 2) ((c : ℤ) * 2) = Option.none := by
    cases hcell : cellZ st.grid ((r : ℤ) * 2) ((c : ℤ) * 2) with
    | none => rfl
    | some n =>
      exfalso
      obtain ⟨_, _, _, _, p, hp, he1, he2⟩ := hinv.cellChar _ _ n hcell
      have : p = (r, c) := by
        have e1 : (p.1 : ℤ) = (r : ℤ) := by omega
        have e2 : (p.2 : ℤ) = (c : ℤ) := by omega
        have e1' : p.1 = r := by exact_mod_cast e1
        have e2' : p.2 = c := by exact_mod_cast e2
        exact Prod.ext e1' e2'
      rw [this] at hp
      exact hnd hp
  have cc := fun r' c' => cellZ_setCellZ_rect hinv.rect hr0 (by omega) hc0 (by omega)
    (some room) r' c'
  obtain ⟨l₁, l₂, e₁, e₂⟩ := nodesOf_setCellZ_splice hinv.rect hr0 (by omega) hc0 (by omega)
    (some room)
  rw [hempty] at e₁
  have hroomR : room.isRoom = true := rfl
  refine ⟨rect_setCellZ_rect hinv.rect hr0 (by omega) hc0 _, ?_, ?_, ?_, ?_, ?_, ?_, ?_, ?_⟩
  · simp [hinv.nextIdEq]
  · have n1 := congrArg List.length e₁
    have n2 := congrArg List.length e₂
    simp [List.length_append] at n1 n2
    have := hinv.countAll
    simp [List.length_append]
    omega
  · intro r' c' n h
    rw [cc] at h
    split_ifs at h with h1
    · injection h with hx
      subst hx
      exact ⟨rfl, rfl, h1.1.symm, h1.2.symm, (r, c), by simp, h1.1, h1.2⟩
    · obtain ⟨a1, a2, a3, a4, p, hp, hp1, hp2⟩ := hinv.cellChar r' c' n h
      exact ⟨a1, a2, a3, a4, p, by simp [hp], hp1, hp2⟩
  · intro p hp
    rw [List.mem_append] at hp
    rcases hp with hp | hp
    · obtain ⟨n, hn⟩ := hinv.placed p hp
      refine ⟨n, ?_⟩
      rw [cc]
      rw [if_neg ?_]
      · exact hn
      · rintro ⟨f1, f2⟩
        apply hnd
        have e1 : p.1 = r := by exact_mod_cast (by omega : (p.1 : ℤ) = (r : ℤ))
        have e2 : p.2 = c := by exact_mod_cast (by omega : (p.2 : ℤ) = (c : ℤ))
        rw [← e1, ← e2]
        exact hp
    · rw [List.mem_singleton] at hp
      subst hp
      refine ⟨room, ?_⟩
      rw [cc, if_pos ⟨rfl, rfl⟩]
  · intro n hmem
    show n.id < st.nextId + 1
    obtain ⟨rn, cn, hcell⟩ := mem_nodesOf.mp hmem
    rw [cc] at hcell
    split_ifs at hcell with h1
    · injection hcell with hx
      subst hx
      exact Nat.lt_succ_self _
    · have := hinv.idBound n (cellZ_mem_nodesOf hcell)
      omega
  · intro r1 c1 r2 c2 n n' h h' hid
    rw [cc] at h h'
    split_ifs at h with h1 <;> split_ifs at h' with h2
    · exact ⟨by rw [h1.1, h2.1], by rw [h1.2, h2.2]⟩
    · exfalso
      injection h with hx
      subst hx
      have hb := hinv.idBound n' (cellZ_mem_nodesOf h')
      have : st.nextId = n'.id := hid
      omega
    · exfalso
      injection h' with hx
      subst hx
      have hb := hinv.idBound n (cellZ_mem_nodesOf h)
      have : n.id = st.nextId := hid
      omega
    · exact hinv.idInj r1 c1 r2 c2 n n' h h' hid
  · intro n hmem
    obtain ⟨rn, cn, hcell⟩ := mem_nodesOf.mp hmem
    rw [cc] at hcell
    split_ifs at hcell with h1
    · injection hcell with hx
      subst hx
      exact List.mem_cons_self _ _
    · exact List.mem_cons_of_mem _ (hinv.nameMem n (cellZ_mem_nodesOf hcell))
  · intro r1 c1 r2 c2 n n' h h' hnm
    rw [cc] at h h'
    split_ifs at h with h1 <;> split_ifs at h' with h2
    · exact ⟨by rw [h1.1, h2.1], by rw [h1.2, h2.2]⟩
    · exfalso
      injection h with hx
      subst hx
      have hb := hinv.nameMem n' (cellZ_mem_nodesOf h')
      have he : nm = n'.name := hnm
      rw [he] at hfresh
      exact hfresh hb
    · exfalso
      injection h' with hx
      subst hx
      have hb := hinv.nameMem n (cellZ_mem_nodesOf h)
      have he : n.name = nm := hnm
      rw [← he] at hfresh
      exact hfresh hb
    · exact hinv.nameInj r1 c1 r2 c2 n n' h h' hnm

theorem placeRooms_spec {width height : ℤ} (hw : 1 ≤ width) (hh : 1 ≤ height)
    (oc tc pc : ℚ) :
    ∀ (coords done : List (ℕ × ℕ)) (st : GenSt),
      PlaceInv width height done st →
      (∀ p ∈ coords, p.1 < height.toNat ∧ p.2 < width.toNat) →
      (∀ p ∈ coords, p ∉ done) →
      coords.Nodup →
      PlaceInv width height (done ++ coords) (placeRooms oc tc pc coords st)
  | [], done, st, hinv, _, _, _ => by simpa using hinv
  | (r, c) :: rest, done, st, hinv, hb, hnd, hndp => by
    have hstep : PlaceInv width height (done ++ [(r, c)]) (placeRoom oc tc pc r c st) := by
      rcases hgen : generateRoomName st.rng st.used with ⟨nm, rng₁, used₁⟩
      obtain ⟨hfresh, husedEq⟩ :=
        generateName_fresh ROOM_ADJECTIVES ROOM_NOUNS (by decide) (by decide)
          st.rng st.used nm rng₁ used₁ hgen
      have heq : placeRoom oc tc pc r c st =
          ⟨(randomTrap (randomTreasure (randomOwner rng₁ oc).2 tc).2 pc).2, used₁,
            st.nextId + 1,
            setCellZ st.grid ((r : ℤ) * 2) ((c : ℤ) * 2)
              (some ⟨st.nextId, nm, (r : ℤ) * 2, (c : ℤ) * 2, [],
                .room (randomOwner rng₁ oc).1
                  (randomTreasure (randomOwner rng₁ oc).2 tc).1
                  (randomTrap (randomTreasure (randomOwner rng₁ oc).2 tc).2 pc).1⟩)⟩ := by
        unfold placeRoom
        rw [hgen]
      rw [heq, husedEq]
      exact place_write_spec hw hh done st hinv r c (hb (r, c) (by simp)).1
        (hb (r, c) (by simp)).2 (hnd (r, c) (by simp)) nm hfresh _ _ _ _
    have hrec := placeRooms_spec hw hh oc tc pc rest (done ++ [(r, c)])
      (placeRoom oc tc pc r c st) hstep
      (fun p hp => hb p (by simp [hp]))
      (fun p hp => by
        rw [List.mem_append, List.mem_singleton]
        rintro (hmem | hEq)
        · exact hnd p (by simp [hp]) hmem
        · subst hEq
          exact (List.nodup_cons.mp hndp).1 hp)
      (List.nodup_cons.mp hndp).2
    show PlaceInv width height (done ++ (r, c) :: rest) (placeRooms oc tc pc rest (placeRoom oc tc pc r c st))
    have hap : done ++ (r, c) :: rest = (done ++ [(r, c)]) ++ rest := by
      simp
    rw [hap]
    exact hrec

theorem placeInv_init {width height : ℤ} (rng : Rng) :
    PlaceInv width height []
      ⟨rng, [], 0, List.replicate (2 * height - 1).toNat
        (List.replicate (2 * width - 1).toNat Option.none)⟩ := by
  have hempty : ∀ r c : ℤ, cellZ (List.replicate (2 * height - 1).toNat
      (List.replicate (2 * width - 1).toNat (Option.none : Option MazeNode))) r c =
      Option.none := fun r c => cellZ_empty_grid _ _ r c
  have hnil : nodesOf (List.replicate (2 * height - 1).toNat
      (List.replicate (2 * width - 1).toNat (Option.none : Option MazeNode))) = [] := by
    rw [List.eq_nil_iff_forall_not_mem]
    intro n hmem
    obtain ⟨r, c, hcell⟩ := mem_nodesOf.mp hmem
    rw [hempty] at hcell
    exact Option.noConfusion hcell
  refine ⟨⟨by simp, ?_⟩, rfl, ?_, ?_, ?_, ?_, ?_, ?_, ?_⟩
  case refine_2 =>
    show (nodesOf (List.replicate (2 * height - 1).toNat
      (List.replicate (2 * width - 1).toNat Option.none))).length =
      ([] : List (ℕ × ℕ)).length
    rw [hnil]
    rfl
  · intro row hrow
    rw [List.eq_of_mem_replicate hrow]
    simp
  · intro r c n h
    rw [hempty] at h
    exact Option.noConfusion h
  · intro p hp
    exact absurd hp (List.not_mem_nil p)
  · intro n hmem
    rw [show (⟨rng, [], 0, List.replicate (2 * height - 1).toNat
      (List.replicate (2 * width - 1).toNat Option.none)⟩ : GenSt).grid =
      List.replicate (2 * height - 1).toNat
        (List.replicate (2 * width - 1).toNat Option.none) from rfl, hnil] at hmem
    exact absurd hmem (List.not_mem_nil n)
  · intro r c r' c' n n' h
    rw [hempty] at h
    exact Option.noConfusion h
  · intro n hmem
    rw [show (⟨rng, [], 0, List.replicate (2 * height - 1).toNat
      (List.replicate (2 * width - 1).toNat Option.none)⟩ : GenSt).grid =
      List.replicate (2 * height - 1).toNat
        (List.replicate (2 * width - 1).toNat Option.none) from rfl, hnil] at hmem
    exact absurd hmem (List.not_mem_nil n)
  · intro r c r' c' n n' h
    rw [hempty] at h
    exact Option.noConfusion h

/-- After Phase A the full structural invariant holds, every node is a
link-free room, and `nextId` is the room count. -/
theorem placeRooms_ginv {width height : ℤ} (hw : 1 ≤ width) (hh : 1 ≤ height)
    (oc tc pc : ℚ) (rng : Rng)
    (st' : GenSt)
    (hst : st' = placeRooms oc tc pc (coordsList width height)
      ⟨rng, [], 0, List.replicate (2 * height - 1).toNat
        (List.replicate (2 * width - 1).toNat Option.none)⟩) :
    GInv width height st'.used st'.grid st'.nextId ∧
    st'.nextId = width.toNat * height.toNat ∧
    (∀ r c n, cellZ st'.grid r c = some n → n.isRoom = true ∧ n.links = []) := by
  have hinv : PlaceInv width height ([] ++ coordsList width height) st' := by
    rw [hst]
    exact placeRooms_spec hw hh oc tc pc (coordsList width height) [] _
      (placeInv_init rng)
      (fun p hp => coordsList_mem.mp hp)
      (fun p _ => List.not_mem_nil p)
      (coordsList_nodup width height)
  rw [List.nil_append] at hinv
  have hlen := coordsList_length width height
  have hWH : (coordsList width height).length = width.toNat * height.toNat := by
    rw [hlen, Nat.mul_comm]
  have hallRooms : ∀ n ∈ nodesOf st'.grid, n.isRoom = true := by
    intro n hmem
    obtain ⟨r, c, hcell⟩ := mem_nodesOf.mp hmem
    exact (hinv.cellChar _ _ n hcell).1
  refine ⟨?_, by rw [hinv.nextIdEq, hWH], fun r c n h => ⟨(hinv.cellChar _ _ n h).1,
    (hinv.cellChar _ _ n h).2.1⟩⟩
  refine ⟨hw, hh, hinv.rect, ?_, ?_, ?_, ?_, ?_, ?_, ?_, ?_, hinv.idBound, hinv.idInj,
    hinv.nameMem, hinv.nameInj, by rw [hinv.countAll, hinv.nextIdEq], ?_⟩
  · intro r c n h
    obtain ⟨_, _, h3, h4, _⟩ := hinv.cellChar r c n h
    exact ⟨h3, h4⟩
  · intro r c n h
    obtain ⟨_, _, _, _, p, _, he1, he2⟩ := hinv.cellChar r c n h
    omega
  · intro r c n h _ _
    exact (hinv.cellChar r c n h).1
  · intro r c n h hpar
    obtain ⟨_, _, _, _, p, _, he1, he2⟩ := hinv.cellChar r c n h
    omega
  · intro r c hr0 hrh hc0 hcw
    have hrb : r.toNat < height.toNat := by omega
    have hcb : c.toNat < width.toNat := by omega
    obtain ⟨n, hn⟩ := hinv.placed (r.toNat, c.toNat) (coordsList_mem.mpr ⟨hrb, hcb⟩)
    refine ⟨n, ?_, ?_⟩
    · rw [show (2 : ℤ) * r = ((r.toNat : ℕ) : ℤ) * 2 by omega,
          show (2 : ℤ) * c = ((c.toNat : ℕ) : ℤ) * 2 by omega]
      exact hn
    · obtain ⟨h1, _⟩ := hinv.cellChar _ _ n hn
      exact h1
  · intro r c n dd j h hl
    have hlinks := (hinv.cellChar r c n h).2.1
    rw [MazeNode.getLink, hlinks] at hl
    exact Option.noConfusion hl
  · intro r c n dd m h hn hm
    exfalso
    obtain ⟨_, _, _, _, p, _, he1, he2⟩ := hinv.cellChar r c n h
    obtain ⟨_, _, _, _, q, _, hf1, hf2⟩ := hinv.cellChar _ _ m hm
    rcases delta_cases dd with ⟨e1, e2⟩ | ⟨e1, e2⟩ | ⟨e1, e2⟩ | ⟨e1, e2⟩ <;> omega
  · intro r c n h hn
    rw [isRoom_not_isConn (hallRooms n (cellZ_mem_nodesOf h))] at hn
    exact Bool.noConfusion hn
  · rw [show roomsOf st'.grid = (nodesOf st'.grid).filter (fun n => n.isRoom) from rfl]
    rw [List.filter_eq_self.mpr hallRooms]
    rw [hinv.countAll, hWH]

/-! ### Phase B: the DFS carving loop -/

/-- The invariant of the `while stack:` randomized-DFS loop.  `root` is the id
of the room at the starting cell. -/
structure CarveInv (width height : ℤ) (root : ℕ) (cst : CarveSt) : Prop where
  ginv : GInv width height cst.gs.used cst.gs.grid cst.gs.nextId
  visBounds : ∀ p ∈ cst.visited, 0 ≤ p.1 ∧ p.1 < height ∧ 0 ≤ p.2 ∧ p.2 < width
  visNodup : cst.visited.Nodup
  stackSub : ∀ p ∈ cst.stack, p ∈ cst.visited
  closure : ∀ p ∈ cst.visited, p ∉ cst.stack → ∀ d : Direction,
    0 ≤ p.1 + d.dRow → p.1 + d.dRow < height → 0 ≤ p.2 + d.dCol → p.2 + d.dCol < width →
    (p.1 + d.dRow, p.2 + d.dCol) ∈ cst.visited
  nextIdEq : cst.gs.nextId + 1 = width.toNat * height.toNat + cst.visited.length
  freshRooms : ∀ p : ℤ × ℤ, p ∉ cst.visited → ∀ n,
    cellZ cst.gs.grid (p.1 * 2) (p.2 * 2) = some n → n.links = []
  reachAll : ∀ n ∈ nodesOf cst.gs.grid,
    (n.isConn = true ∨ (n.row / 2, n.col / 2) ∈ cst.visited) →
    ReachG cst.gs.grid root n.id ∧ ReachG cst.gs.grid n.id root

theorem chooseNE_mem {α : Type} (rng : Rng) (l : List α) (h : l ≠ []) :
    (rng.chooseNE l h).1 ∈ l := by
  unfold Rng.chooseNE Rng.nextNat
  show l.get _ ∈ l
  exact List.get_mem l _ _

theorem mem_logicalNeighbors {width height : ℤ} {visited : List (ℤ × ℤ)} {cr cc : ℤ}
    {d : Direction} {nr nc : ℤ}
    (h : (d, nr, nc) ∈ logicalNeighbors width height visited cr cc) :
    nr = cr + d.dRow ∧ nc = cc + d.dCol ∧ 0 ≤ nr ∧ nr < height ∧ 0 ≤ nc ∧ nc < width ∧
    (nr, nc) ∉ visited := by
  unfold logicalNeighbors at h
  rw [List.mem_filterMap] at h
  obtain ⟨e, _, he⟩ := h
  split_ifs at he with hc
  · injection he with he1
    injection he1 with g1 g2
    injection g2 with g3 g4
    subst g1
    subst g3
    subst g4
    exact ⟨rfl, rfl, hc.1, hc.2.1, hc.2.2.1, hc.2.2.2.1, hc.2.2.2.2⟩

theorem logicalNeighbors_eq_nil {width height : ℤ} {visited : List (ℤ × ℤ)} {cr cc : ℤ}
    (h : logicalNeighbors width height visited cr cc = []) :
    ∀ d : Direction, 0 ≤ cr + d.dRow → cr + d.dRow < height →
    0 ≤ cc + d.dCol → cc + d.dCol < width → (cr + d.dRow, cc + d.dCol) ∈ visited := by
  intro d h1 h2 h3 h4
  by_contra hnv
  have hmem : (d, cr + d.dRow, cc + d.dCol) ∈ logicalNeighbors width height visited cr cc := by
    unfold logicalNeighbors
    rw [List.mem_filterMap]
    refine ⟨d, by cases d <;> simp [directionOrder], ?_⟩
    rw [if_pos ⟨h1, h2, h3, h4, hnv⟩]
  rw [h] at hmem
  exact absurd hmem (List.not_mem_nil _)

theorem getLink_of_links_nil {n : MazeNode} (h : n.links = []) (d : Direction) :
    n.getLink d = Option.none := by
  unfold MazeNode.getLink
  rw [h]
  rfl

/-- The DFS loop preserves `CarveInv`, empties the stack, and only grows the
visited set. -/
theorem carve_spec (width height minLen maxLen : ℤ) (root : ℕ) :
    ∀ (fuel : ℕ) (cst cst' : CarveSt),
      carve width height minLen maxLen fuel cst = .ok cst' →
      CarveInv width height root cst →
      CarveInv width height root cst' ∧ cst'.stack = [] ∧
        ∀ p ∈ cst.visited, p ∈ cst'.visited := by
  intro fuel
  induction fuel with
  | zero =>
    intro cst cst' hok _hinv
    exact absurd hok (by simp [carve])
  | succ fuel ih =>
    intro cst cst' hok hinv
    simp only [carve] at hok
    rcases hstk : cst.stack with _ | ⟨⟨cr, cc⟩, rest⟩
    · rw [hstk] at hok
      have heq : cst = cst' := by injection hok
      subst heq
      exact ⟨hinv, hstk, fun p hp => hp⟩
    · rw [hstk] at hok
      dsimp only at hok
      have hcrv : (cr, cc) ∈ cst.visited :=
        hinv.stackSub (cr, cc) (by rw [hstk]; exact List.mem_cons_self _ _)
      have hbcc := hinv.visBounds (cr, cc) hcrv
      by_cases hne : logicalNeighbors width height cst.visited cr cc = []
      · rw [dif_neg (not_not_intro hne)] at hok
        have newInv : CarveInv width height root ⟨cst.gs, cst.visited, rest⟩ :=
          { ginv := hinv.ginv
            visBounds := hinv.visBounds
            visNodup := hinv.visNodup
            stackSub := fun p hp =>
              hinv.stackSub p (by rw [hstk]; exact List.mem_cons_of_mem _ hp)
            closure := by
              intro p hp hns e k1 k2 k3 k4
              by_cases hpc : p = (cr, cc)
              · subst hpc
                exact logicalNeighbors_eq_nil hne e k1 k2 k3 k4
              · refine hinv.closure p hp ?_ e k1 k2 k3 k4
                intro hmem
                rw [hstk] at hmem
                rcases List.mem_cons.mp hmem with h | h
                · exact hpc h
                · exact hns h
            nextIdEq := hinv.nextIdEq
            freshRooms := hinv.freshRooms
            reachAll := hinv.reachAll }
        obtain ⟨finv, fstk, fmono⟩ := ih _ _ hok newInv
        exact ⟨finv, fstk, fun p hp => fmono p hp⟩
      · rw [dif_pos hne] at hok
        rcases hch : cst.gs.rng.chooseNE (logicalNeighbors width height cst.visited cr cc) hne
          with ⟨⟨d, nr, nc⟩, rng₁⟩
        rw [hch] at hok
        dsimp only at hok
        have hd : (d, nr, nc) ∈ logicalNeighbors width height cst.visited cr cc := by
          have := chooseNE_mem cst.gs.rng
            (logicalNeighbors width height cst.visited cr cc) hne
          rw [hch] at this
          exact this
        obtain ⟨hnr, hnc, hb1, hb2, hb3, hb4, hnvis⟩ := mem_logicalNeighbors hd
        rcases hri : rng₁.randint minLen maxLen with e | ⟨len, rng₂⟩
        · rw [hri] at hok
          exact absurd hok (by simp)
        rw [hri] at hok
        dsimp only at hok
        rcases hgn : generateConnectionName rng₂ cst.gs.used with ⟨cname, rng₃, used₁⟩
        rw [hgn] at hok
        dsimp only at hok
        obtain ⟨ra0, hra0, hra0R⟩ :=
          hinv.ginv.roomsAt cr cc hbcc.1 hbcc.2.1 hbcc.2.2.1 hbcc.2.2.2
        have hca : cellZ cst.gs.grid (cr * 2) (cc * 2) = some ra0 := by
          rw [mul_comm cr 2, mul_comm cc 2]
          exact hra0
        obtain ⟨rb0, hrb0, hrb0R⟩ := hinv.ginv.roomsAt nr nc hb1 hb2 hb3 hb4
        have hcb : cellZ cst.gs.grid (nr * 2) (nc * 2) = some rb0 := by
          rw [mul_comm nr 2, mul_comm nc 2]
          exact hrb0
        rw [hca, hcb] at hok
        dsimp only at hok
        rw [if_pos (by rw [hra0R, hrb0R]; rfl)] at hok
        rw [createConnectionBetween_eq] at hok
        dsimp only at hok
        have e1 : nr * 2 = cr * 2 + 2 * d.dRow := by rw [hnr]; ring
        have e2 : nc * 2 = cc * 2 + 2 * d.dCol := by rw [hnc]; ring
        have e3 : (cr * 2 + nr * 2) / 2 = cr * 2 + d.dRow := by
          rw [show cr * 2 + nr * 2 = (cr * 2 + d.dRow) * 2 by rw [hnr]; ring]
          exact Int.mul_ediv_cancel _ (by norm_num)
        have e4 : (cc * 2 + nc * 2) / 2 = cc * 2 + d.dCol := by
          rw [show cc * 2 + nc * 2 = (cc * 2 + d.dCol) * 2 by rw [hnc]; ring]
          exact Int.mul_ediv_cancel _ (by norm_num)
        rw [e3, e4, e1, e2] at hok
        have hrbLinks : rb0.links = [] := hinv.freshRooms (nr, nc) hnvis rb0 hcb
        have hM : cellZ cst.gs.grid (cr * 2 + d.dRow) (cc * 2 + d.dCol) = Option.none := by
          cases hm : cellZ cst.gs.grid (cr * 2 + d.dRow) (cc * 2 + d.dCol) with
          | none => rfl
          | some m =>
            exfalso
            have hmid : cellZ cst.gs.grid (nr * 2 + Direction.dRow d.opposite)
                (nc * 2 + Direction.dCol d.opposite) = some m := by
              rw [dRow_opposite, dCol_opposite,
                show nr * 2 + -d.dRow = cr * 2 + d.dRow by rw [hnr]; ring,
                show nc * 2 + -d.dCol = cc * 2 + d.dCol by rw [hnc]; ring]
              exact hm
            have hback := hinv.ginv.roomLinkBack (nr * 2) (nc * 2) rb0 d.opposite m
              hcb hrb0R hmid
            rw [getLink_of_links_nil hrbLinks] at hback
            exact Bool.noConfusion hback
        have hB : cellZ cst.gs.grid (cr * 2 + 2 * d.dRow) (cc * 2 + 2 * d.dCol) = some rb0 := by
          rw [← e1, ← e2]
          exact hcb
        have ctx : CarveCtx width height cst.gs.used cst.gs.grid cst.gs.nextId
            d (cr * 2) (cc * 2) ra0 rb0 := ⟨hinv.ginv, hca, hra0R, hB, hrb0R, hM⟩
        have hfresh : cname ∉ cst.gs.used ∧ used₁ = cname :: cst.gs.used := by
          unfold generateConnectionName at hgn
          exact generateName_fresh _ _ (by decide) (by decide) _ _ _ _ _ hgn
        have newInv : CarveInv width height root
            ⟨⟨rng₃, used₁, cst.gs.nextId + 1,
              carvedGrid cst.gs.grid d (cr * 2) (cc * 2) ra0 rb0 len cst.gs.nextId cname⟩,
             (nr, nc) :: cst.visited, (nr, nc) :: ((cr, cc) :: rest)⟩ :=
          { ginv := by
              have h := carveStep_inv ctx len cname hfresh.1
              rw [hfresh.2]
              exact h
            visBounds := by
              intro p hp
              rcases List.mem_cons.mp hp with rfl | h
              · exact ⟨hb1, hb2, hb3, hb4⟩
              · exact hinv.visBounds p h
            visNodup := List.nodup_cons.mpr ⟨hnvis, hinv.visNodup⟩
            stackSub := by
              intro p hp
              rcases List.mem_cons.mp hp with rfl | h
              · exact List.mem_cons_self _ _
              · exact List.mem_cons_of_mem _ (hinv.stackSub p (by rw [hstk]; exact h))
            closure := by
              intro p hp hns e k1 k2 k3 k4
              have hpn : p ≠ (nr, nc) := fun h => hns (h ▸ List.mem_cons_self _ _)
              have hpv : p ∈ cst.visited := (List.mem_cons.mp hp).resolve_left hpn
              have hnstk : p ∉ cst.stack := by
                intro h
                rw [hstk] at h
                exact hns (List.mem_cons_of_mem _ h)
              exact List.mem_cons_of_mem _ (hinv.closure p hpv hnstk e k1 k2 k3 k4)
            nextIdEq := by
              show cst.gs.nextId + 1 + 1 =
                width.toNat * height.toNat + ((nr, nc) :: cst.visited).length
              have h := hinv.nextIdEq
              simp only [List.length_cons]
              omega
            freshRooms := by
              rintro ⟨pa, pb⟩ hp n hcell
              have hp1 : (pa, pb) ≠ ((nr, nc) : ℤ × ℤ) :=
                fun h => hp (h ▸ List.mem_cons_self _ _)
              have hp2 : ((pa, pb) : ℤ × ℤ) ∉ cst.visited :=
                fun h => hp (List.mem_cons_of_mem _ h)
              have hpcc : (pa, pb) ≠ ((cr, cc) : ℤ × ℤ) := fun h => hp2 (h ▸ hcrv)
              rw [carveStep_cellChar ctx len cname] at hcell
              split_ifs at hcell with h1 h2 h3
              · exfalso
                obtain ⟨h1a, h1b⟩ := h1
                rcases delta_cases d with ⟨f1, f2⟩ | ⟨f1, f2⟩ | ⟨f1, f2⟩ | ⟨f1, f2⟩ <;>
                  (rw [f1] at h1a; rw [f2] at h1b; omega)
              · exfalso
                obtain ⟨h2a, h2b⟩ := h2
                apply hp1
                rw [Prod.mk.injEq]
                constructor <;> omega
              · exfalso
                obtain ⟨h3a, h3b⟩ := h3
                apply hpcc
                rw [Prod.mk.injEq]
                constructor <;> omega
              · exact hinv.freshRooms (pa, pb) hp2 n hcell
            reachAll := by
              intro n hmem hcond
              have hmono := carveStep_reach_mono ctx len cname
              have hadj := carveStep_newAdj ctx len cname
              have hraPos := hinv.ginv.pos _ _ _ hca
              have hraCell : ((ra0.row / 2 : ℤ), (ra0.col / 2 : ℤ)) ∈ cst.visited := by
                rw [hraPos.1, hraPos.2,
                  Int.mul_ediv_cancel cr (by norm_num : (2 : ℤ) ≠ 0),
                  Int.mul_ediv_cancel cc (by norm_num : (2 : ℤ) ≠ 0)]
                exact hcrv
              have hra := hinv.reachAll ra0 (cellZ_mem_nodesOf hca) (Or.inr hraCell)
              have hr1 := hmono _ _ hra.1
              have hr2 := hmono _ _ hra.2
              have hc1 := hr1.tail hadj.1
              have hc2 := Relation.ReflTransGen.head hadj.2.1 hr2
              have hq1 := hc1.tail hadj.2.2.1
              have hq2 := Relation.ReflTransGen.head hadj.2.2.2 hc2
              obtain ⟨r, c, hcell⟩ := mem_nodesOf.mp hmem
              rw [carveStep_cellChar ctx len cname] at hcell
              split_ifs at hcell with h1 h2 h3
              · injection hcell with hx
                rw [← hx]
                exact ⟨hc1, hc2⟩
              · injection hcell with hx
                rw [← hx]
                exact ⟨hq1, hq2⟩
              · injection hcell with hx
                rw [← hx]
                exact ⟨hr1, hr2⟩
              · have hmemOld : n ∈ nodesOf cst.gs.grid := cellZ_mem_nodesOf hcell
                rcases isRoom_or_isConn n with hR | hC
                · rcases hcond with hC' | hv
                  · rw [isRoom_not_isConn hR] at hC'
                    exact Bool.noConfusion hC'
                  · rcases List.mem_cons.mp hv with heq | hv'
                    · exfalso
                      apply h2
                      have hpos := hinv.ginv.pos _ _ _ hcell
                      have hev := room_cell_even hinv.ginv hcell hR
                      have hg1 : n.row / 2 = nr := congrArg Prod.fst heq
                      have hg2 : n.col / 2 = nc := congrArg Prod.snd heq
                      rw [hpos.1] at hg1
                      rw [hpos.2] at hg2
                      have hr2n : (r : ℤ) = 2 * nr := by omega
                      have hc2n : (c : ℤ) = 2 * nc := by omega
                      rw [hr2n, hc2n, hnr, hnc]
                      constructor <;> ring
                    · have h := hinv.reachAll n hmemOld (Or.inr hv')
                      exact ⟨hmono _ _ h.1, hmono _ _ h.2⟩
                · have h := hinv.reachAll n hmemOld (Or.inl hC)
                  exact ⟨hmono _ _ h.1, hmono _ _ h.2⟩ }
        obtain ⟨finv, fstk, fmono⟩ := ih _ _ hok newInv
        exact ⟨finv, fstk, fun p hp => fmono p (List.mem_cons_of_mem _ hp)⟩

/-- When the stack is empty, the closure property propagates the visited set
to the whole logical grid (induction on the taxicab distance to a visited
cell). -/
theorem visited_complete {width height : ℤ} {root : ℕ} {cst : CarveSt}
    (hinv : CarveInv width height root cst) (hstk : cst.stack = [])
    (pa pb : ℤ) (hp0 : (pa, pb) ∈ cst.visited) :
    ∀ q : ℤ × ℤ, 0 ≤ q.1 → q.1 < height → 0 ≤ q.2 → q.2 < width → q ∈ cst.visited := by
  have hcl : ∀ p ∈ cst.visited, ∀ e : Direction,
      0 ≤ p.1 + e.dRow → p.1 + e.dRow < height → 0 ≤ p.2 + e.dCol → p.2 + e.dCol < width →
      (p.1 + e.dRow, p.2 + e.dCol) ∈ cst.visited := by
    intro p hp
    exact hinv.closure p hp (by rw [hstk]; exact List.not_mem_nil p)
  have hb0 := hinv.visBounds (pa, pb) hp0
  have key : ∀ k : ℕ, ∀ qa qb : ℤ, (qa - pa).natAbs + (qb - pb).natAbs = k →
      0 ≤ qa → qa < height → 0 ≤ qb → qb < width → ((qa, qb) : ℤ × ℤ) ∈ cst.visited := by
    intro k
    induction k using Nat.strong_induction_on with
    | _ k ih =>
      intro qa qb hk h1 h2 h3 h4
      by_cases hqa : qa = pa
      · by_cases hqb : qb = pb
        · rw [hqa, hqb]
          exact hp0
        · by_cases hlt : qb < pb
          · have hq' : ((qa, qb + 1) : ℤ × ℤ) ∈ cst.visited :=
              ih ((qa - pa).natAbs + (qb + 1 - pb).natAbs) (by omega)
                qa (qb + 1) rfl h1 h2 (by omega) (by omega)
            have hm := hcl (qa, qb + 1) hq' Direction.west
              (by show 0 ≤ qa + 0; omega) (by show qa + 0 < height; omega)
              (by show 0 ≤ qb + 1 + -1; omega) (by show qb + 1 + -1 < width; omega)
            have hconv : ((qa, qb + 1).1 + Direction.dRow Direction.west,
                (qa, qb + 1).2 + Direction.dCol Direction.west) = ((qa, qb) : ℤ × ℤ) := by
              show ((qa + 0, qb + 1 + -1) : ℤ × ℤ) = (qa, qb)
              rw [Prod.mk.injEq]
              constructor <;> ring
            rw [hconv] at hm
            exact hm
          · have hq' : ((qa, qb - 1) : ℤ × ℤ) ∈ cst.visited :=
              ih ((qa - pa).natAbs + (qb - 1 - pb).natAbs) (by omega)
                qa (qb - 1) rfl h1 h2 (by omega) (by omega)
            have hm := hcl (qa, qb - 1) hq' Direction.east
              (by show 0 ≤ qa + 0; omega) (by show qa + 0 < height; omega)
              (by show 0 ≤ qb - 1 + 1; omega) (by show qb - 1 + 1 < width; omega)
            have hconv : ((qa, qb - 1).1 + Direction.dRow Direction.east,
                (qa, qb - 1).2 + Direction.dCol Direction.east) = ((qa, qb) : ℤ × ℤ) := by
              show ((qa + 0, qb - 1 + 1) : ℤ × ℤ) = (qa, qb)
              rw [Prod.mk.injEq]
              constructor <;> ring
            rw [hconv] at hm
            exact hm
      · by_cases hlt : qa < pa
        · have hq' : ((qa + 1, qb) : ℤ × ℤ) ∈ cst.visited :=
            ih ((qa + 1 - pa).natAbs + (qb - pb).natAbs) (by omega)
              (qa + 1) qb rfl (by omega) (by omega) h3 h4
          have hm := hcl (qa + 1, qb) hq' Direction.north
            (by show 0 ≤ qa + 1 + -1; omega) (by show qa + 1 + -1 < height; omega)
            (by show 0 ≤ qb + 0; omega) (by show qb + 0 < width; omega)
          have hconv : ((qa + 1, qb).1 + Direction.dRow Direction.north,
              (qa + 1, qb).2 + Direction.dCol Direction.north) = ((qa, qb) : ℤ × ℤ) := by
            show ((qa + 1 + -1, qb + 0) : ℤ × ℤ) = (qa, qb)
            rw [Prod.mk.injEq]
            constructor <;> ring
          rw [hconv] at hm
          exact hm
        · have hq' : ((qa - 1, qb) : ℤ × ℤ) ∈ cst.visited :=
            ih ((qa - 1 - pa).natAbs + (qb - pb).natAbs) (by omega)
              (qa - 1) qb rfl (by omega) (by omega) h3 h4
          have hm := hcl (qa - 1, qb) hq' Direction.south
            (by show 0 ≤ qa - 1 + 1; omega) (by show qa - 1 + 1 < height; omega)
            (by show 0 ≤ qb + 0; omega) (by show qb + 0 < width; omega)
          have hconv : ((qa - 1, qb).1 + Direction.dRow Direction.south,
              (qa - 1, qb).2 + Direction.dCol Direction.south) = ((qa, qb) : ℤ × ℤ) := by
            show ((qa - 1 + 1, qb + 0) : ℤ × ℤ) = (qa, qb)
            rw [Prod.mk.injEq]
            constructor <;> ring
          rw [hconv] at hm
          exact hm
  rintro ⟨qa, qb⟩ h1 h2 h3 h4
  exact key ((qa - pa).natAbs + (qb - pb).natAbs) qa qb rfl h1 h2 h3 h4

/-- A fully propagated visited set has exactly `width·height` elements. -/
theorem visited_count {width height : ℤ} {root : ℕ} {cst : CarveSt}
    (hinv : CarveInv width height root cst)
    (hall : ∀ q : ℤ × ℤ, 0 ≤ q.1 → q.1 < height → 0 ≤ q.2 → q.2 < width →
      q ∈ cst.visited) :
    cst.visited.length = width.toNat * height.toNat := by
  have hperm : cst.visited.Perm
      ((coordsList width height).map (fun p => ((p.1 : ℤ), (p.2 : ℤ)))) := by
    rw [List.perm_ext_iff_of_nodup hinv.visNodup]
    · rintro ⟨qa, qb⟩
      rw [List.mem_map]
      constructor
      · intro hq
        have hb := hinv.visBounds (qa, qb) hq
        refine ⟨(qa.toNat, qb.toNat), coordsList_mem.mpr ⟨by omega, by omega⟩, ?_⟩
        rw [Prod.mk.injEq]
        constructor <;> simp <;> omega
      · rintro ⟨⟨a, b⟩, hab, he⟩
        obtain ⟨ha, hb⟩ := coordsList_mem.mp hab
        have he1 : ((a : ℤ), (b : ℤ)) = ((qa, qb) : ℤ × ℤ) := he
        rw [Prod.mk.injEq] at he1
        refine he1.1 ▸ he1.2 ▸ hall ((a : ℤ), (b : ℤ)) ?_ ?_ ?_ ?_ <;> simp <;> omega
    · refine (coordsList_nodup width height).map ?_
      rintro ⟨a, b⟩ ⟨a', b'⟩ he
      rw [Prod.mk.injEq] at he ⊢
      exact_mod_cast he
  rw [hperm.length_eq, List.length_map, coordsList_length, Nat.mul_comm]

/-! ### The float stream is threaded unchanged through the generator -/

theorem randint_ok_bounds {r : Rng} {lo hi v : ℤ} {r' : Rng}
    (h : r.randint lo hi = .ok (v, r')) : lo ≤ v ∧ v ≤ hi := by
  unfold Rng.randint at h
  split_ifs at h with hle
  · dsimp only [Rng.nextNat] at h
    injection h with h
    injection h with h1 h2
    have hlt : r.ints r.intIdx % (hi - lo + 1).toNat < (hi - lo + 1).toNat :=
      Nat.mod_lt _ (by omega)
    omega

theorem randint_floats {r : Rng} {lo hi v : ℤ} {r' : Rng}
    (h : r.randint lo hi = .ok (v, r')) : r'.floats = r.floats := by
  unfold Rng.randint at h
  split_ifs at h with hle
  · dsimp only [Rng.nextNat] at h
    injection h with h
    injection h with h1 h2
    rw [← h2]

theorem chooseNE_floats {α : Type} (r : Rng) (l : List α) (h : l ≠ []) :
    (r.chooseNE l h).2.floats = r.floats := rfl

theorem randomOwner_floats (r : Rng) (c : ℚ) : (randomOwner r c).2.floats = r.floats := by
  unfold randomOwner
  dsimp only [Rng.random]
  split_ifs <;> rfl

theorem randomTreasure_floats (r : Rng) (c : ℚ) :
    (randomTreasure r c).2.floats = r.floats := by
  unfold randomTreasure
  dsimp only [Rng.random]
  split_ifs <;> rfl

theorem randomTrap_floats (r : Rng) (c : ℚ) : (randomTrap r c).2.floats = r.floats := by
  unfold randomTrap
  dsimp only [Rng.random]
  split_ifs <;> rfl

theorem tryFreshName_floats (adjs nouns : List String) (ha : adjs ≠ []) (hn : nouns ≠ []) :
    ∀ (fuel : ℕ) (rng : Rng) (used : List String),
      (tryFreshName adjs nouns ha hn fuel rng used).2.floats = rng.floats
  | 0, rng, used => rfl
  | fuel + 1, rng, used => by
    simp only [tryFreshName]
    split
    · exact tryFreshName_floats adjs nouns ha hn fuel _ used
    · rfl

theorem generateName_floats (adjs nouns : List String) (ha : adjs ≠ []) (hn : nouns ≠ [])
    (rng : Rng) (used : List String) :
    (generateName adjs nouns ha hn rng used).2.1.floats = rng.floats := by
  unfold generateName
  split
  · rename_i name used₀ r₀ heq
    have := tryFreshName_floats adjs nouns ha hn 100 rng used
    rw [heq] at this
    exact this
  · rename_i r₀ heq
    have := tryFreshName_floats adjs nouns ha hn 100 rng used
    rw [heq] at this
    exact this

theorem generateRoomName_floats {rng : Rng} {used : List String}
    {nm : String} {r : Rng} {used' : List String}
    (h : generateRoomName rng used = (nm, r, used')) : r.floats = rng.floats := by
  have := generateName_floats ROOM_ADJECTIVES ROOM_NOUNS (by decide) (by decide) rng used
  unfold generateRoomName at h
  rw [h] at this
  exact this

theorem placeRoom_floats (oc tc pc : ℚ) (r c : ℕ) (st : GenSt) :
    (placeRoom oc tc pc r c st).rng.floats = st.rng.floats := by
  unfold placeRoom
  rcases hgn : generateRoomName st.rng st.used with ⟨name, rng₁, used₁⟩
  dsimp only
  rcases ho : randomOwner rng₁ oc with ⟨ow, rng₂⟩
  dsimp only
  rcases ht : randomTreasure rng₂ tc with ⟨tr, rng₃⟩
  dsimp only
  rcases hq : randomTrap rng₃ pc with ⟨tp, rng₄⟩
  dsimp only
  have h1 : rng₁.floats = st.rng.floats := generateRoomName_floats hgn
  have h2 := randomOwner_floats rng₁ oc
  rw [ho] at h2
  have h3 := randomTreasure_floats rng₂ tc
  rw [ht] at h3
  have h4 := randomTrap_floats rng₃ pc
  rw [hq] at h4
  exact h4.trans (h3.trans (h2.trans h1))

theorem placeRooms_floats (oc tc pc : ℚ) :
    ∀ (l : List (ℕ × ℕ)) (st : GenSt),
      (placeRooms oc tc pc l st).rng.floats = st.rng.floats
  | [], st => rfl
  | (r, c) :: rest, st => by
    show (placeRooms oc tc pc rest (placeRoom oc tc pc r c st)).rng.floats =
      st.rng.floats
    rw [placeRooms_floats oc tc pc rest, placeRoom_floats]

theorem generateConnectionName_floats {rng : Rng} {used : List String}
    {nm : String} {r : Rng} {used' : List String}
    (h : generateConnectionName rng used = (nm, r, used')) : r.floats = rng.floats := by
  have := generateName_floats CONNECTION_ADJECTIVES CONNECTION_NOUNS
    (by decide) (by decide) rng used
  unfold generateConnectionName at h
  rw [h] at this
  exact this

theorem carve_floats (width height minLen maxLen : ℤ) :
    ∀ (fuel : ℕ) (cst cst' : CarveSt),
      carve width height minLen maxLen fuel cst = .ok cst' →
      cst'.gs.rng.floats = cst.gs.rng.floats := by
  intro fuel
  induction fuel with
  | zero =>
    intro cst cst' hok
    exact absurd hok (by simp [carve])
  | succ fuel ih =>
    intro cst cst' hok
    simp only [carve] at hok
    rcases hstk : cst.stack with _ | ⟨⟨cr, cc⟩, rest⟩
    · rw [hstk] at hok
      have heq : cst = cst' := by injection hok
      rw [← heq]
    · rw [hstk] at hok
      dsimp only at hok
      by_cases hne : logicalNeighbors width height cst.visited cr cc = []
      · rw [dif_neg (not_not_intro hne)] at hok
        exact ih ⟨cst.gs, cst.visited, rest⟩ cst' hok
      · rw [dif_pos hne] at hok
        rcases hch : cst.gs.rng.chooseNE (logicalNeighbors width height cst.visited cr cc) hne
          with ⟨⟨d, nr, nc⟩, rng₁⟩
        rw [hch] at hok
        dsimp only at hok
        have hf1 : rng₁.floats = cst.gs.rng.floats := by
          have := chooseNE_floats cst.gs.rng
            (logicalNeighbors width height cst.visited cr cc) hne
          rw [hch] at this
          exact this
        rcases hri : rng₁.randint minLen maxLen with e | ⟨len, rng₂⟩
        · rw [hri] at hok
          exact absurd hok (by simp)
        rw [hri] at hok
        dsimp only at hok
        rcases hgn : generateConnectionName rng₂ cst.gs.used with ⟨cname, rng₃, used₁⟩
        rw [hgn] at hok
        dsimp only at hok
        have hf3 : rng₃.floats = cst.gs.rng.floats := by
          rw [generateConnectionName_floats hgn, randint_floats hri, hf1]
        rcases hc1 : cellZ cst.gs.grid (cr * 2) (cc * 2) with _ | ra
        · rw [hc1] at hok
          exact absurd hok (by simp)
        rcases hc2 : cellZ cst.gs.grid (nr * 2) (nc * 2) with _ | rb
        · rw [hc1, hc2] at hok
          exact absurd hok (by simp)
        rw [hc1, hc2] at hok
        dsimp only at hok
        by_cases hRR : (ra.isRoom && rb.isRoom) = true
        · rw [if_pos hRR] at hok
          rcases hcc : createConnectionBetween ra rb d len cst.gs.nextId cname
              ((cr * 2 + nr * 2) / 2) ((cc * 2 + nc * 2) / 2) with ⟨ra', rb', conn⟩
          rw [hcc] at hok
          dsimp only at hok
          rw [ih _ _ hok]
          exact hf3
        · rw [if_neg hRR] at hok
          exact absurd hok (by simp)

/-! ### The invariant at the entry of the DFS loop -/

theorem carveInv_init {width height : ℤ}
    {used : List String} {G : Grid} {nextId : ℕ}
    (ginv : GInv width height used G nextId)
    (hnext : nextId = width.toNat * height.toNat)
    (hfree : ∀ r c n, cellZ G r c = some n → n.isRoom = true ∧ n.links = [])
    (sr sc : ℤ) (hsr0 : 0 ≤ sr) (hsr1 : sr < height) (hsc0 : 0 ≤ sc) (hsc1 : sc < width)
    (ρ : MazeNode) (hρ : cellZ G (2 * sr) (2 * sc) = some ρ)
    (rng : Rng) :
    CarveInv width height ρ.id ⟨⟨rng, used, nextId, G⟩, [(sr, sc)], [(sr, sc)]⟩ where
  ginv := ginv
  visBounds := by
    rintro p hp
    rcases List.mem_cons.mp hp with rfl | h
    · exact ⟨hsr0, hsr1, hsc0, hsc1⟩
    · exact absurd h (List.not_mem_nil p)
  visNodup := List.nodup_singleton _
  stackSub := fun p hp => hp
  closure := by
    intro p hp hns
    exact absurd hp hns
  nextIdEq := by
    show nextId + 1 = width.toNat * height.toNat + [((sr, sc) : ℤ × ℤ)].length
    simp only [List.length_cons, List.length_nil]
    omega
  freshRooms := fun p _ n hcell => (hfree _ _ n hcell).2
  reachAll := by
    intro n hmem hcond
    obtain ⟨r, c, hcell⟩ := mem_nodesOf.mp hmem
    have hnR := (hfree _ _ n hcell).1
    rcases hcond with hC | hv
    · rw [isRoom_not_isConn hnR] at hC
      exact Bool.noConfusion hC
    · have heq : ((n.row / 2, n.col / 2) : ℤ × ℤ) = (sr, sc) :=
        (List.mem_cons.mp hv).resolve_right (List.not_mem_nil _)
      have hpos := ginv.pos _ _ _ hcell
      have hev := room_cell_even ginv hcell hnR
      have hg1 : n.row / 2 = sr := congrArg Prod.fst heq
      have hg2 : n.col / 2 = sc := congrArg Prod.snd heq
      rw [hpos.1] at hg1
      rw [hpos.2] at hg2
      have hr2 : (r : ℤ) = 2 * sr := by omega
      have hc2 : (c : ℤ) = 2 * sc := by omega
      rw [hr2, hc2, hρ] at hcell
      injection hcell with hx
      rw [← hx]
      exact ⟨Relation.ReflTransGen.refl, Relation.ReflTransGen.refl⟩

/-! ### Phase C: extra connections preserve the invariant and reachability -/

/-- Every placed node is reachable from, and reaches back to, the root id. -/
def rootedReach (G : Grid) (root : ℕ) : Prop :=
  ∀ n ∈ nodesOf G, ReachG G root n.id ∧ ReachG G n.id root

/-- At the end of the DFS (stack empty, all cells visited) every node is
connected to the root. -/
theorem rootedReach_of_carve {width height : ℤ} {root : ℕ} {cst : CarveSt}
    (hinv : CarveInv width height root cst)
    (hall : ∀ q : ℤ × ℤ, 0 ≤ q.1 → q.1 < height → 0 ≤ q.2 → q.2 < width →
      q ∈ cst.visited) :
    rootedReach cst.gs.grid root := by
  intro n hmem
  apply hinv.reachAll n hmem
  rcases isRoom_or_isConn n with hR | hC
  · right
    obtain ⟨r, c, hcell⟩ := mem_nodesOf.mp hmem
    have hpos := hinv.ginv.pos _ _ _ hcell
    have hb := cellZ_some_bounds hinv.ginv.rect hcell
    have hh := hinv.ginv.hh
    have hw := hinv.ginv.hw
    have hH : ((2 * height - 1).toNat : ℤ) = 2 * height - 1 :=
      Int.toNat_of_nonneg (by omega)
    have hW : ((2 * width - 1).toNat : ℤ) = 2 * width - 1 :=
      Int.toNat_of_nonneg (by omega)
    rw [hpos.1, hpos.2]
    refine hall ((r : ℤ) / 2, (c : ℤ) / 2) ?_ ?_ ?_ ?_ <;> dsimp only <;> omega
  · left
    exact hC

theorem extraDir_spec {width height minLen maxLen : ℤ} {ec : ℚ} {r c : ℕ} {d : Direction}
    {gs gs' : GenSt} {root : ℕ}
    (hok : extraDir width height minLen maxLen ec r c d gs = .ok gs')
    (hginv : GInv width height gs.used gs.grid gs.nextId)
    (hreach : rootedReach gs.grid root) :
    GInv width height gs'.used gs'.grid gs'.nextId ∧ rootedReach gs'.grid root := by
  unfold extraDir at hok
  dsimp only at hok
  rcases hcur : cellZ gs.grid ((r : ℤ) * 2) ((c : ℤ) * 2) with _ | cur
  · rw [hcur] at hok
    exact absurd hok (by simp)
  rw [hcur] at hok
  dsimp only at hok
  split_ifs at hok with hcond hq
  rotate_left
  · injection hok with h
    rw [← h]
    exact ⟨hginv, hreach⟩
  · injection hok with h
    rw [← h]
    exact ⟨hginv, hreach⟩
  obtain ⟨hb1, hb2, hb3, hb4, hnl⟩ := hcond
  rcases hnb : cellZ gs.grid (((r : ℤ) + d.dRow) * 2) (((c : ℤ) + d.dCol) * 2) with _ | nbr
  · rw [hnb] at hok
    exact absurd hok (by simp)
  rw [hnb] at hok
  dsimp only at hok
  have hnbR : nbr.isRoom = true := hginv.kindRoom _ _ _ hnb (by omega) (by omega)
  rw [if_pos hnbR] at hok
  split_ifs at hok with hnbl
  swap
  · injection hok with h
    rw [← h]
    exact ⟨hginv, hreach⟩
  rcases hri : gs.rng.random.2.randint minLen maxLen with e | ⟨len, rng₂⟩
  · rw [hri] at hok
    exact absurd hok (by simp)
  rw [hri] at hok
  dsimp only at hok
  rcases hgn : generateConnectionName rng₂ gs.used with ⟨cname, rng₃, used₁⟩
  rw [hgn] at hok
  dsimp only at hok
  rw [createConnectionBetween_eq] at hok
  dsimp only at hok
  have hcurR : cur.isRoom = true := hginv.kindRoom _ _ _ hcur (by omega) (by omega)
  have e1 : ((r : ℤ) + d.dRow) * 2 = (r : ℤ) * 2 + 2 * d.dRow := by ring
  have e2 : ((c : ℤ) + d.dCol) * 2 = (c : ℤ) * 2 + 2 * d.dCol := by ring
  have e3 : ((r : ℤ) * 2 + ((r : ℤ) + d.dRow) * 2) / 2 = (r : ℤ) * 2 + d.dRow := by
    rw [show (r : ℤ) * 2 + ((r : ℤ) + d.dRow) * 2 = ((r : ℤ) * 2 + d.dRow) * 2 by ring]
    exact Int.mul_ediv_cancel _ (by norm_num)
  have e4 : ((c : ℤ) * 2 + ((c : ℤ) + d.dCol) * 2) / 2 = (c : ℤ) * 2 + d.dCol := by
    rw [show (c : ℤ) * 2 + ((c : ℤ) + d.dCol) * 2 = ((c : ℤ) * 2 + d.dCol) * 2 by ring]
    exact Int.mul_ediv_cancel _ (by norm_num)
  rw [e3, e4, e1, e2] at hok
  have hM : cellZ gs.grid ((r : ℤ) * 2 + d.dRow) ((c : ℤ) * 2 + d.dCol) = Option.none := by
    cases hm : cellZ gs.grid ((r : ℤ) * 2 + d.dRow) ((c : ℤ) * 2 + d.dCol) with
    | none => rfl
    | some m =>
      exfalso
      have hback := hginv.roomLinkBack ((r : ℤ) * 2) ((c : ℤ) * 2) cur d m hcur hcurR hm
      unfold MazeNode.hasLink at hnl
      rw [hback] at hnl
      exact Bool.noConfusion hnl
  have hB : cellZ gs.grid ((r : ℤ) * 2 + 2 * d.dRow) ((c : ℤ) * 2 + 2 * d.dCol) =
      some nbr := by
    rw [← e1, ← e2]
    exact hnb
  have ctx : CarveCtx width height gs.used gs.grid gs.nextId
      d ((r : ℤ) * 2) ((c : ℤ) * 2) cur nbr := ⟨hginv, hcur, hcurR, hB, hnbR, hM⟩
  have hfresh : cname ∉ gs.used ∧ used₁ = cname :: gs.used := by
    unfold generateConnectionName at hgn
    exact generateName_fresh _ _ (by decide) (by decide) _ _ _ _ _ hgn
  injection hok with h
  rw [← h]
  constructor
  · have hg := carveStep_inv ctx len cname hfresh.1
    show GInv width height used₁ _ _
    rw [hfresh.2]
    exact hg
  · show rootedReach
      (carvedGrid gs.grid d ((r : ℤ) * 2) ((c : ℤ) * 2) cur nbr len gs.nextId cname) root
    intro n hmem
    have hmono := carveStep_reach_mono ctx len cname
    have hadj := carveStep_newAdj ctx len cname
    have hcurReach := hreach cur (cellZ_mem_nodesOf hcur)
    have hnbrReach := hreach nbr (cellZ_mem_nodesOf hnb)
    have hr1 := hmono _ _ hcurReach.1
    have hr2 := hmono _ _ hcurReach.2
    have hc1 := hr1.tail hadj.1
    have hc2 := Relation.ReflTransGen.head hadj.2.1 hr2
    obtain ⟨r', c', hcell⟩ := mem_nodesOf.mp hmem
    rw [carveStep_cellChar ctx len cname] at hcell
    split_ifs at hcell with h1 h2 h3
    · injection hcell with hx
      rw [← hx]
      exact ⟨hc1, hc2⟩
    · injection hcell with hx
      rw [← hx]
      exact ⟨hmono _ _ hnbrReach.1, hmono _ _ hnbrReach.2⟩
    · injection hcell with hx
      rw [← hx]
      exact ⟨hr1, hr2⟩
    · have hold := hreach n (cellZ_mem_nodesOf hcell)
      exact ⟨hmono _ _ hold.1, hmono _ _ hold.2⟩

theorem extrasDirs_spec {width height minLen maxLen : ℤ} {ec : ℚ} {r c : ℕ} {root : ℕ} :
    ∀ (ds : List Direction) (gs gs' : GenSt),
      extrasDirs width height minLen maxLen ec r c ds gs = .ok gs' →
      GInv width height gs.used gs.grid gs.nextId →
      rootedReach gs.grid root →
      GInv width height gs'.used gs'.grid gs'.nextId ∧ rootedReach gs'.grid root
  | [], gs, gs', hok, hg, hr => by
    have heq : gs = gs' := by injection hok
    rw [← heq]
    exact ⟨hg, hr⟩
  | d :: ds, gs, gs', hok, hg, hr => by
    simp only [extrasDirs] at hok
    rcases he : extraDir width height minLen maxLen ec r c d gs with e | gs₁
    · rw [he] at hok
      exact absurd hok (by simp)
    · rw [he] at hok
      obtain ⟨hg₁, hr₁⟩ := extraDir_spec he hg hr
      exact extrasDirs_spec ds gs₁ gs' hok hg₁ hr₁

theorem extrasForCell_spec {width height minLen maxLen : ℤ} {ec : ℚ} {r c : ℕ} {root : ℕ}
    {gs gs' : GenSt}
    (hok : extrasForCell width height minLen maxLen ec r c gs = .ok gs')
    (hg : GInv width height gs.used gs.grid gs.nextId)
    (hr : rootedReach gs.grid root) :
    GInv width height gs'.used gs'.grid gs'.nextId ∧ rootedReach gs'.grid root := by
  unfold extrasForCell at hok
  rcases hcell : cellZ gs.grid ((r : ℤ) * 2) ((c : ℤ) * 2) with _ | cur
  · rw [hcell] at hok
    exact absurd hok (by simp)
  · rw [hcell] at hok
    dsimp only at hok
    split_ifs at hok with hR
    exact extrasDirs_spec _ _ _ hok hg hr

theorem extras_spec {width height minLen maxLen : ℤ} {ec : ℚ} {root : ℕ} :
    ∀ (l : List (ℕ × ℕ)) (gs gs' : GenSt),
      extras width height minLen maxLen ec l gs = .ok gs' →
      GInv width height gs.used gs.grid gs.nextId →
      rootedReach gs.grid root →
      GInv width height gs'.used gs'.grid gs'.nextId ∧ rootedReach gs'.grid root
  | [], gs, gs', hok, hg, hr => by
    have heq : gs = gs' := by injection hok
    rw [← heq]
    exact ⟨hg, hr⟩
  | (r, c) :: rest, gs, gs', hok, hg, hr => by
    simp only [extras] at hok
    rcases he : extrasForCell width height minLen maxLen ec r c gs with e | gs₁
    · rw [he] at hok
      exact absurd hok (by simp)
    · rw [he] at hok
      obtain ⟨hg₁, hr₁⟩ := extrasForCell_spec he hg hr
      exact extras_spec rest gs₁ gs' hok hg₁ hr₁

/-- With `extra_connections = 0` and a nonnegative float stream, Phase C never
fires: grid, names and ids are untouched. -/
theorem extraDir_noop {width height minLen maxLen : ℤ} {r c : ℕ} {d : Direction}
    {gs gs' : GenSt} (hfl : ∀ k, 0 ≤ gs.rng.floats k)
    (hok : extraDir width height minLen maxLen 0 r c d gs = .ok gs') :
    gs'.grid = gs.grid ∧ gs'.used = gs.used ∧ gs'.nextId = gs.nextId ∧
      gs'.rng.floats = gs.rng.floats := by
  unfold extraDir at hok
  dsimp only at hok
  rcases hcur : cellZ gs.grid ((r : ℤ) * 2) ((c : ℤ) * 2) with _ | cur
  · rw [hcur] at hok
    exact absurd hok (by simp)
  rw [hcur] at hok
  dsimp only at hok
  split_ifs at hok with hcond hq
  · exact absurd hq (not_lt.mpr (hfl _))
  · injection hok with h
    rw [← h]
    exact ⟨rfl, rfl, rfl, rfl⟩
  · injection hok with h
    rw [← h]
    exact ⟨rfl, rfl, rfl, rfl⟩

theorem extrasDirs_noop {width height minLen maxLen : ℤ} {r c : ℕ} :
    ∀ (ds : List Direction) (gs gs' : GenSt), (∀ k, 0 ≤ gs.rng.floats k) →
      extrasDirs width height minLen maxLen 0 r c ds gs = .ok gs' →
      gs'.grid = gs.grid ∧ gs'.used = gs.used ∧ gs'.nextId = gs.nextId ∧
        gs'.rng.floats = gs.rng.floats
  | [], gs, gs', hfl, hok => by
    have heq : gs = gs' := by injection hok
    rw [← heq]
    exact ⟨rfl, rfl, rfl, rfl⟩
  | d :: ds, gs, gs', hfl, hok => by
    simp only [extrasDirs] at hok
    rcases he : extraDir width height minLen maxLen 0 r c d gs with e | gs₁
    · rw [he] at hok
      exact absurd hok (by simp)
    · rw [he] at hok
      obtain ⟨n1, n2, n3, n4⟩ := extraDir_noop hfl he
      obtain ⟨m1, m2, m3, m4⟩ := extrasDirs_noop ds gs₁ gs'
        (fun k => by rw [n4]; exact hfl k) hok
      exact ⟨m1.trans n1, m2.trans n2, m3.trans n3, m4.trans n4⟩

theorem extrasForCell_noop {width height minLen maxLen : ℤ} {r c : ℕ} {gs gs' : GenSt}
    (hfl : ∀ k, 0 ≤ gs.rng.floats k)
    (hok : extrasForCell width height minLen maxLen 0 r c gs = .ok gs') :
    gs'.grid = gs.grid ∧ gs'.used = gs.used ∧ gs'.nextId = gs.nextId ∧
      gs'.rng.floats = gs.rng.floats := by
  unfold extrasForCell at hok
  rcases hcell : cellZ gs.grid ((r : ℤ) * 2) ((c : ℤ) * 2) with _ | cur
  · rw [hcell] at hok
    exact absurd hok (by simp)
  · rw [hcell] at hok
    dsimp only at hok
    split_ifs at hok with hR
    exact extrasDirs_noop _ _ _ hfl hok

theorem extras_noop {width height minLen maxLen : ℤ} :
    ∀ (l : List (ℕ × ℕ)) (gs gs' : GenSt), (∀ k, 0 ≤ gs.rng.floats k) →
      extras width height minLen maxLen 0 l gs = .ok gs' →
      gs'.grid = gs.grid ∧ gs'.used = gs.used ∧ gs'.nextId = gs.nextId ∧
        gs'.rng.floats = gs.rng.floats
  | [], gs, gs', hfl, hok => by
    have heq : gs = gs' := by injection hok
    rw [← heq]
    exact ⟨rfl, rfl, rfl, rfl⟩
  | (r, c) :: rest, gs, gs', hfl, hok => by
    simp only [extras] at hok
    rcases he : extrasForCell width height minLen maxLen 0 r c gs with e | gs₁
    · rw [he] at hok
      exact absurd hok (by simp)
    · rw [he] at hok
      obtain ⟨n1, n2, n3, n4⟩ := extrasForCell_noop hfl he
      obtain ⟨m1, m2, m3, m4⟩ := extras_noop rest gs₁ gs'
        (fun k => by rw [n4]; exact hfl k) hok
      exact ⟨m1.trans n1, m2.trans n2, m3.trans n3, m4.trans n4⟩

/-! ### Destructuring the ok-path of `generateMaze` -/

/-- Every successfully generated maze comes from: a placed grid satisfying
`GInv`, a completed DFS (`CarveInv`, empty stack, all logical cells visited),
and a Phase C pass preserving the invariant and root-connectivity. -/
theorem generateMaze_ok_spec {ints : ℕ → ℕ} {floats : ℕ → ℚ} {width height : ℤ}
    {minLen maxLen : ℤ} {oc tc pc ec : ℚ} {nm : String} {m : Maze}
    (hok : generateMaze ints floats width height minLen maxLen oc tc pc ec nm = .ok m) :
    ∃ (root : ℕ) (cst : CarveSt) (gs₂ : GenSt),
      1 ≤ width ∧ 1 ≤ height ∧
      CarveInv width height root cst ∧ cst.stack = [] ∧
      (∀ q : ℤ × ℤ, 0 ≤ q.1 → q.1 < height → 0 ≤ q.2 → q.2 < width →
        q ∈ cst.visited) ∧
      cst.gs.rng.floats = floats ∧
      extras width height minLen maxLen ec (coordsList width height) cst.gs = .ok gs₂ ∧
      m.grid = gs₂.grid ∧ m.roomsWide = width ∧ m.roomsTall = height ∧
      GInv width height gs₂.used gs₂.grid gs₂.nextId ∧
      rootedReach gs₂.grid root := by
  unfold generateMaze at hok
  dsimp only at hok
  set st₁ := placeRooms oc tc pc (coordsList width height)
    ⟨⟨ints, floats, 0, 0⟩, [], 0,
      List.replicate (if height > 0 then max (2 * height - 1) 0 else 0).toNat
        (List.replicate (if width > 0 then max (2 * width - 1) 0 else 0).toNat
          Option.none)⟩ with hst₁
  split at hok
  · exact absurd hok (by simp)
  rename_i startRow rngA heq
  split at hok
  · exact absurd hok (by simp)
  rename_i startCol rngB heq2
  have hbr := randint_ok_bounds heq
  have hbc := randint_ok_bounds heq2
  have hh : 1 ≤ height := by omega
  have hw : 1 ≤ width := by omega
  split at hok
  · exact absurd hok (by simp)
  rename_i cst heqc
  split at hok
  · exact absurd hok (by simp)
  rename_i gs₂ heqe
  have hifH : (if height > 0 then max (2 * height - 1) 0 else 0) = 2 * height - 1 := by
    rw [if_pos (by omega : height > 0)]
    omega
  have hifW : (if width > 0 then max (2 * width - 1) 0 else 0) = 2 * width - 1 := by
    rw [if_pos (by omega : width > 0)]
    omega
  obtain ⟨hginv, hnext, hfree⟩ := placeRooms_ginv hw hh oc tc pc ⟨ints, floats, 0, 0⟩ st₁
    (by rw [hst₁, hifH, hifW])
  obtain ⟨ρ, hρ, hρR⟩ := hginv.roomsAt startRow startCol
    (by omega) (by omega) (by omega) (by omega)
  have hinit := carveInv_init hginv hnext hfree startRow startCol
    (by omega) (by omega) (by omega) (by omega) ρ hρ rngB
  obtain ⟨hcinv, hcstk, hcmono⟩ := carve_spec width height minLen maxLen ρ.id
    (2 * (width.toNat * height.toNat) + 1) _ cst heqc hinit
  have hstart : ((startRow, startCol) : ℤ × ℤ) ∈ cst.visited :=
    hcmono _ (List.mem_cons_self _ _)
  have hall := visited_complete hcinv hcstk startRow startCol hstart
  have hfl : cst.gs.rng.floats = floats := by
    have h1 := carve_floats width height minLen maxLen _ _ _ heqc
    have h2 := randint_floats heq2
    have h3 := randint_floats heq
    have h4 : st₁.rng.floats = floats := by
      rw [hst₁, placeRooms_floats]
    exact h1.trans (h2.trans (h3.trans h4))
  have hroot : rootedReach cst.gs.grid ρ.id := rootedReach_of_carve hcinv hall
  obtain ⟨hg2, hr2⟩ := extras_spec _ _ _ heqe hcinv.ginv hroot
  injection hok with hm
  refine ⟨ρ.id, cst, gs₂, hw, hh, hcinv, hcstk, hall, hfl, heqe, ?_, ?_, ?_, hg2, hr2⟩
  · rw [← hm]
  · rw [← hm]
  · rw [← hm]

/-! ### Counting and uniqueness helpers -/

/-- Every node is a room or a connection, so the two filters partition. -/
theorem filter_partition :
    ∀ (l : List MazeNode),
      (l.filter MazeNode.isRoom).length + (l.filter MazeNode.isConn).length =
        l.length
  | [] => rfl
  | x :: xs => by
    have ih := filter_partition xs
    rcases isRoom_or_isConn x with hR | hC
    · rw [List.filter_cons_of_pos hR,
        List.filter_cons_of_neg (by simp [isRoom_not_isConn hR])]
      simp only [List.length_cons]
      omega
    · rw [List.filter_cons_of_neg (by simp [isConn_not_isRoom hC]),
        List.filter_cons_of_pos hC]
      simp only [List.length_cons]
      omega

theorem nodes_partition (G : Grid) :
    (roomsOf G).length + (connsOf G).length = (nodesOf G).length :=
  filter_partition (nodesOf G)

theorem cellZ_cons_succ (row : List (Option MazeNode)) (rest : Grid) (r c : ℕ) :
    cellZ (row :: rest) ((r + 1 : ℕ) : ℤ) ((c : ℕ) : ℤ) = cellZ rest (r : ℤ) (c : ℤ) := by
  rw [cellZ_natCast, cellZ_natCast, List.getElem?_cons_succ]

theorem cellZ_cons_zero (row : List (Option MazeNode)) (rest : Grid) (c : ℕ) :
    cellZ (row :: rest) ((0 : ℕ) : ℤ) ((c : ℕ) : ℤ) = (row[c]?).join := by
  rw [cellZ_natCast, List.getElem?_cons_zero]
  rfl

/-- A per-row injective labelling gives a duplicate-free labelled row. -/
theorem row_map_nodup {α : Type} (f : MazeNode → α) :
    ∀ (row : List (Option MazeNode)),
      (∀ (c c' : ℕ) (n n' : MazeNode), row[c]? = some (some n) →
        row[c']? = some (some n') → f n = f n' → c = c') →
      ((row.reduceOption).map f).Nodup
  | [], _ => List.nodup_nil
  | x :: t, hinj => by
    have hshift : ∀ (c c' : ℕ) (n n' : MazeNode), t[c]? = some (some n) →
        t[c']? = some (some n') → f n = f n' → c = c' := by
      intro c c' n n' h1 h2 hf
      have h1' : (x :: t)[c + 1]? = some (some n) := by
        rw [List.getElem?_cons_succ]
        exact h1
      have h2' : (x :: t)[c' + 1]? = some (some n') := by
        rw [List.getElem?_cons_succ]
        exact h2
      have := hinj (c + 1) (c' + 1) n n' h1' h2' hf
      omega
    have ih := row_map_nodup f t hshift
    cases x with
    | none =>
      rw [reduceOption_cons_toList]
      simpa using ih
    | some n =>
      rw [reduceOption_cons_toList, List.map_append, List.nodup_append]
      refine ⟨by simp, ih, ?_⟩
      intro a ha hb
      simp only [Option.toList_some, List.map_cons, List.map_nil,
        List.mem_singleton] at ha
      rw [List.mem_map] at hb
      obtain ⟨p, hp, hfp⟩ := hb
      rw [List.reduceOption_mem_iff, List.mem_iff_getElem?] at hp
      obtain ⟨c, hc⟩ := hp
      have h0 : (some n :: t)[0]? = some (some n) := List.getElem?_cons_zero
      have hc1 : (some n :: t)[c + 1]? = some (some p) := by
        rw [List.getElem?_cons_succ]
        exact hc
      have := hinj 0 (c + 1) n p h0 hc1 ((hfp.trans ha).symm)
      omega

/-- A cell-injective labelling of the grid gives duplicate-free labels over
all placed nodes. -/
theorem nodesOf_map_nodup {α : Type} (f : MazeNode → α) :
    ∀ (G : Grid),
      (∀ (r c r' c' : ℕ) n n', cellZ G (r : ℤ) (c : ℤ) = some n →
        cellZ G (r' : ℤ) (c' : ℤ) = some n' → f n = f n' → r = r' ∧ c = c') →
      ((nodesOf G).map f).Nodup
  | [], _ => by simp [nodesOf]
  | row :: rest, hinj => by
    rw [nodesOf_cons, List.map_append, List.nodup_append]
    refine ⟨?_, ?_, ?_⟩
    · refine row_map_nodup f row ?_
      intro c c' n n' h1 h2 hf
      have g1 : cellZ (row :: rest) ((0 : ℕ) : ℤ) ((c : ℕ) : ℤ) = some n := by
        rw [cellZ_cons_zero, Option.join_eq_some]
        exact h1
      have g2 : cellZ (row :: rest) ((0 : ℕ) : ℤ) ((c' : ℕ) : ℤ) = some n' := by
        rw [cellZ_cons_zero, Option.join_eq_some]
        exact h2
      exact (hinj 0 c 0 c' n n' g1 g2 hf).2
    · refine nodesOf_map_nodup f rest ?_
      intro r c r' c' n n' h1 h2 hf
      have g1 : cellZ (row :: rest) ((r + 1 : ℕ) : ℤ) ((c : ℕ) : ℤ) = some n := by
        rw [cellZ_cons_succ]
        exact h1
      have g2 : cellZ (row :: rest) ((r' + 1 : ℕ) : ℤ) ((c' : ℕ) : ℤ) = some n' := by
        rw [cellZ_cons_succ]
        exact h2
      have := hinj (r + 1) c (r' + 1) c' n n' g1 g2 hf
      exact ⟨by omega, this.2⟩
    · intro a ha hb
      rw [List.mem_map] at ha hb
      obtain ⟨n, hn, hfn⟩ := ha
      obtain ⟨p, hp, hfp⟩ := hb
      rw [List.reduceOption_mem_iff, List.mem_iff_getElem?] at hn
      obtain ⟨c, hc⟩ := hn
      obtain ⟨r', c', hcell⟩ := mem_nodesOf.mp hp
      have g1 : cellZ (row :: rest) ((0 : ℕ) : ℤ) ((c : ℕ) : ℤ) = some n := by
        rw [cellZ_cons_zero, Option.join_eq_some]
        exact hc
      have g2 : cellZ (row :: rest) ((r' + 1 : ℕ) : ℤ) ((c' : ℕ) : ℤ) = some p := by
        rw [cellZ_cons_succ]
        exact hcell
      have := (hinj 0 c (r' + 1) c' n p g1 g2 (hfn.trans hfp.symm)).1
      omega

/-- Specialisation: distinct ids over all placed nodes. -/
theorem ids_nodup {width height : ℤ} {used : List String} {G : Grid} {nextId : ℕ}
    (inv : GInv width height used G nextId) :
    ((nodesOf G).map (fun n => n.id)).Nodup := by
  refine nodesOf_map_nodup _ G ?_
  intro r c r' c' n n' h1 h2 hf
  have := inv.idInj _ _ _ _ _ _ h1 h2 hf
  exact_mod_cast this

/-- Specialisation: distinct names over all placed nodes. -/
theorem names_nodup {width height : ℤ} {used : List String} {G : Grid} {nextId : ℕ}
    (inv : GInv width height used G nextId) :
    ((nodesOf G).map (fun n => n.name)).Nodup := by
  refine nodesOf_map_nodup _ G ?_
  intro r c r' c' n n' h1 h2 hf
  have := inv.nameInj _ _ _ _ _ _ h1 h2 hf
  exact_mod_cast this

/-- A link always leads to the id of a placed node. -/
theorem adj_target {width height : ℤ} {used : List String} {G : Grid} {nextId : ℕ}
    (inv : GInv width height used G nextId) {i j : ℕ} (h : AdjG G i j) :
    ∃ p ∈ nodesOf G, p.id = j := by
  obtain ⟨n, d, hmem, hid, hl⟩ := h
  obtain ⟨r, c, hcell⟩ := mem_nodesOf.mp hmem
  obtain ⟨p, hp, hpid⟩ := inv.linkTarget _ _ _ _ _ hcell hl
  exact ⟨p, cellZ_mem_nodesOf hp, hpid⟩

theorem reach_target {width height : ℤ} {used : List String} {G : Grid} {nextId : ℕ}
    (inv : GInv width height used G nextId) {i j : ℕ}
    (hi : ∃ p ∈ nodesOf G, p.id = i) (h : ReachG G i j) :
    ∃ p ∈ nodesOf G, p.id = j := by
  induction h with
  | refl => exact hi
  | tail hsteps hstep ih => exact adj_target inv hstep

theorem dir_axis_cases (d e : Direction) (h : (d.dRow ≠ 0) ↔ (e.dRow ≠ 0)) :
    d = e ∨ d = e.opposite := by
  revert h
  cases d <;> cases e <;> decide

theorem getLink_links_pair (p : MazeNode) (e : Direction) (a b : ℕ)
    (hlinks : p.links = [(e.opposite, a), (e, b)]) (d' : Direction) :
    p.getLink d' = if d' = e.opposite then some a
      else if d' = e then some b else Option.none := by
  unfold MazeNode.getLink
  rw [hlinks]
  cases e <;> cases d' <;> simp [List.find?, Direction.opposite]

/-- A connection's links always lead to rooms (in the adjacent cells along its
axis). -/
theorem conn_link_room {width height : ℤ} {used : List String} {G : Grid} {nextId : ℕ}
    (inv : GInv width height used G nextId)
    {r c : ℤ} {n : MazeNode} (hcell : cellZ G r c = some n) (hC : n.isConn = true)
    {d : Direction} {j : ℕ} (hl : n.getLink d = some j) :
    ∃ p, cellZ G (r + d.dRow) (c + d.dCol) = some p ∧ p.id = j ∧ p.isRoom = true := by
  obtain ⟨e, a, b, hlinks, haxis⟩ := inv.connLinks _ _ _ hcell hC
  have hde : d = e.opposite ∨ d = e := by
    by_contra hno
    push_neg at hno
    rw [getLink_links_pair n e a b hlinks, if_neg hno.1, if_neg hno.2] at hl
    exact Option.noConfusion hl
  have hmix := conn_cell_mixed inv hcell hC
  have hax : (d.dRow ≠ 0) ↔ r % 2 = 1 := by
    rcases hde with rfl | rfl
    · rw [dRow_opposite]
      simp only [neg_ne_zero]
      exact haxis
    · exact haxis
  obtain ⟨p, hp, hpid⟩ := inv.linkTarget _ _ _ _ _ hcell hl
  refine ⟨p, hp, hpid, ?_⟩
  apply inv.kindRoom _ _ _ hp
  · rcases delta_cases d with ⟨e1, e2⟩ | ⟨e1, e2⟩ | ⟨e1, e2⟩ | ⟨e1, e2⟩ <;>
      (rw [e1] at hax; rw [e1]; omega)
  · rcases delta_cases d with ⟨e1, e2⟩ | ⟨e1, e2⟩ | ⟨e1, e2⟩ | ⟨e1, e2⟩ <;>
      (rw [e1] at hax; rw [e2]; omega)

/-- Invariant-level bidirectionality: every link is mirrored by an opposite
link from the target back to the source. -/
theorem ginv_link_back {width height : ℤ} {used : List String} {G : Grid} {nextId : ℕ}
    (inv : GInv width height used G nextId) :
    ∀ n ∈ nodesOf G, ∀ (d : Direction) (j : ℕ), n.getLink d = some j →
      ∃ p ∈ nodesOf G, p.id = j ∧ p.getLink d.opposite = some n.id := by
  intro n hn d j hl
  obtain ⟨r, c, hcell⟩ := mem_nodesOf.mp hn
  obtain ⟨p, hp, hpid⟩ := inv.linkTarget _ _ _ _ _ hcell hl
  refine ⟨p, cellZ_mem_nodesOf hp, hpid, ?_⟩
  have hback : (p.getLink d.opposite).isSome = true := by
    rcases isRoom_or_isConn n with hR | hC
    · have hev := room_cell_even inv hcell hR
      have hpC : p.isConn = true := by
        apply inv.kindConn _ _ _ hp
        rcases delta_cases d with ⟨e1, e2⟩ | ⟨e1, e2⟩ | ⟨e1, e2⟩ | ⟨e1, e2⟩ <;>
          (rw [e1, e2]; omega)
      obtain ⟨e, a, b, hlinks, haxis⟩ := inv.connLinks _ _ _ hp hpC
      have hax2 : (d.dRow ≠ 0) ↔ ((r + d.dRow) % 2 = 1) := by
        rcases delta_cases d with ⟨e1, e2⟩ | ⟨e1, e2⟩ | ⟨e1, e2⟩ | ⟨e1, e2⟩ <;>
          (rw [e1]; omega)
      have hde : d = e ∨ d = e.opposite := dir_axis_cases d e (hax2.trans haxis.symm)
      rw [getLink_links_pair p e a b hlinks]
      rcases hde with rfl | rfl
      · rw [if_pos rfl]
        rfl
      · rw [opposite_opposite, if_neg (Ne.symm (opposite_ne e)), if_pos rfl]
        rfl
    · have hpR : p.isRoom = true := by
        obtain ⟨p', hp', _, hp'R⟩ := conn_link_room inv hcell hC hl
        rw [hp] at hp'
        injection hp' with hx
        rw [← hx] at hp'R
        exact hp'R
      exact inv.roomLinkBack _ _ p d.opposite n hp hpR
        (by rw [dRow_opposite, dCol_opposite,
          show r + d.dRow + -d.dRow = r by ring,
          show c + d.dCol + -d.dCol = c by ring]; exact hcell)
  obtain ⟨t, hts⟩ := Option.isSome_iff_exists.mp hback
  obtain ⟨q, hq, hqid⟩ := inv.linkTarget _ _ _ _ _ hp hts
  have hq' : cellZ G r c = some q := by
    rw [dRow_opposite, dCol_opposite, show r + d.dRow + -d.dRow = r by ring,
      show c + d.dCol + -d.dCol = c by ring] at hq
    exact hq
  rw [hcell] at hq'
  injection hq' with hx
  rw [hts, ← hqid, ← hx]

/-! ### Claim theorems -/

/-- C10: the read-only grid queries are total.  `get_cell` returns `None`
(rather than raising) for every integer pair outside the rectangular grid
bounds, negative indices included; and `get_room` returns `None` whenever
the cell at `(2·logical_row, 2·logical_col)` is absent or not a `Room`. -/
theorem C10_grid_queries_total :
    (∀ (m : Maze) (row col : ℤ),
      ¬(0 ≤ row ∧ row < (m.grid.length : ℤ) ∧
        0 ≤ col ∧ col < ((m.grid.headD []).length : ℤ)) →
      m.getCell row col = Option.none) ∧
    (∀ (m : Maze) (lr lc : ℤ),
      (∀ n, m.getCell (lr * 2) (lc * 2) = some n → n.isRoom = false) →
      m.getRoom lr lc = Option.none) := by
  constructor
  · intro m row col hout
    unfold Maze.getCell
    rw [if_neg]
    intro hc
    exact hout ⟨hc.1, hc.2.1, hc.2.2.2⟩
  · intro m lr lc hcell
    unfold Maze.getRoom
    cases hc : m.getCell (lr * 2) (lc * 2) with
    | none => rfl
    | some n =>
      have := hcell n hc
      simp [this]

/-- Witness for C10 at a concrete maze: a one-cell empty grid, probed out of
bounds and at a non-room logical cell. -/
theorem C10_grid_queries_total_witness :
    (Maze.mk 1 1 [[Option.none]] Option.none "X").getCell 1 0 = Option.none ∧
    (Maze.mk 1 1 [[Option.none]] Option.none "X").getRoom 0 0 = Option.none := by
  constructor
  · exact C10_grid_queries_total.1 (Maze.mk 1 1 [[Option.none]] Option.none "X") 1 0
      (by decide)
  · exact C10_grid_queries_total.2 (Maze.mk 1 1 [[Option.none]] Option.none "X") 0 0
      (fun n h => Option.noConfusion ((by decide :
        (Maze.mk 1 1 [[Option.none]] Option.none "X").getCell (0 * 2) (0 * 2) =
          Option.none) ▸ h))

/-- C6 (code bug): contrary to the claim, `generate_maze` does not return an
empty maze for `width ≤ 0` or `height ≤ 0`: after placing zero rooms it still
executes `rng.randint(0, height - 1)` / `rng.randint(0, width - 1)`, and with
an empty range Python's `randint` raises `ValueError` — modeled here as the
generator returning an error for `width = 0, height = 1` and for
`width = 1, height = 0`. -/
theorem C6_zero_size_raises :
    runMaze 0 1 (1/10) = .error ("empty range for randrange()") ∧
    runMaze 1 0 (1/10) = .error ("empty range for randrange()") := by
  constructor
  · rfl
  · rfl

/-- C2: determinism in the seed.  The pseudo-random stream is a fixed function
of the seed (`random.Random(seed)` is deterministic), so two calls of the
generator with the same streams and the same arguments yield mazes with
identical room owner/treasure/trap/connection-count sequences, identical
connection-length sequences in scan order, identical names, and identical
topology (the mazes are equal). -/
theorem C2_seed_deterministic (ints : ℕ → ℕ) (floats : ℕ → ℚ)
    (width height minLen maxLen : ℤ) (oc tc pc ec : ℚ) (nm : String)
    (m₁ m₂ : Maze)
    (h₁ : generateMaze ints floats width height minLen maxLen oc tc pc ec nm = .ok m₁)
    (h₂ : generateMaze ints floats width height minLen maxLen oc tc pc ec nm = .ok m₂) :
    m₁.allRooms.map (fun ρ => (ρ.owner?, ρ.treasure?, ρ.trap?, ρ.connectionCount)) =
      m₂.allRooms.map (fun ρ => (ρ.owner?, ρ.treasure?, ρ.trap?, ρ.connectionCount)) ∧
    m₁.allConnections.map (fun k => k.length?) =
      m₂.allConnections.map (fun k => k.length?) ∧
    m₁.allNodes.map (fun n => n.name) = m₂.allNodes.map (fun n => n.name) ∧
    m₁ = m₂ := by
  rw [h₁] at h₂
  have : m₁ = m₂ := by injection h₂
  subst this
  exact ⟨rfl, rfl, rfl, rfl⟩

theorem gridDim_eq (h : ℤ) :
    (if h > 0 then max (2 * h - 1) 0 else 0) = (if h ≤ 0 then 0 else 2 * h - 1) := by
  split_ifs <;> omega

theorem entryOf_spec (width height : ℤ) (G : Grid) (nm : String) :
    let m : Maze := ⟨width, height, G,
      entryOf (if height > 0 then max (2 * height - 1) 0 else 0)
        (if width > 0 then max (2 * width - 1) 0 else 0) G, nm⟩
    (m.entry = match m.allConnections.find? (onBoundary m) with
      | some k => some k
      | Option.none => m.allConnections.head?) ∧
    (m.entry = Option.none ↔ m.allConnections = []) := by
  intro m
  have hconns : m.allConnections = G.flatten.reduceOption.filter (fun n => n.isConn) := rfl
  have hpred : (fun (k : MazeNode) =>
      decide (k.row = 0 ∨
        k.row = (if height > 0 then max (2 * height - 1) 0 else 0) - 1 ∨
        k.col = 0 ∨
        k.col = (if width > 0 then max (2 * width - 1) 0 else 0) - 1)) =
      onBoundary m := by
    funext k
    unfold onBoundary
    rw [decide_eq_decide]
    rw [gridDim_eq height, gridDim_eq width]
    exact Iff.rfl
  have hentry : m.entry =
      match m.allConnections.find? (onBoundary m) with
      | some e => some e
      | Option.none => m.allConnections.head? := by
    show entryOf _ _ G = _
    unfold entryOf
    rw [hconns, hpred]
  refine ⟨hentry, ?_⟩
  rw [hentry]
  cases hf : m.allConnections.find? (onBoundary m) with
  | some k =>
    simp only
    constructor
    · intro hsome
      exact Option.noConfusion hsome
    · intro hnil
      have hmem := List.mem_of_find?_eq_some hf
      rw [hnil] at hmem
      exact absurd hmem (List.not_mem_nil k)
  | none =>
    simp only
    exact List.head?_eq_none_iff

/-- C7: entry selection.  The entry is the first connection, in grid row-major
scan order, lying on the outer boundary of the expanded grid; if no connection
is on the boundary it is the first connection in scan order; and it is unset
exactly when the maze has no connections. -/
theorem C7_entry_selection (ints : ℕ → ℕ) (floats : ℕ → ℚ)
    (width height minLen maxLen : ℤ) (oc tc pc ec : ℚ) (nm : String) (m : Maze)
    (hok : generateMaze ints floats width height minLen maxLen oc tc pc ec nm = .ok m) :
    (m.entry = match m.allConnections.find? (onBoundary m) with
      | some k => some k
      | Option.none => m.allConnections.head?) ∧
    (m.entry = Option.none ↔ m.allConnections = []) := by
  unfold generateMaze at hok
  simp only at hok
  split at hok
  · exact Except.noConfusion hok
  · split at hok
    · exact Except.noConfusion hok
    · split at hok
      · exact Except.noConfusion hok
      · split at hok
        · exact Except.noConfusion hok
        · injection hok with hm
          subst hm
          exact entryOf_spec width height _ nm

/-- Witness for C7 at the concrete 2×2 run. -/
theorem C7_entry_selection_witness :
    ((okMaze (runMaze 2 2 0)).entry =
      match (okMaze (runMaze 2 2 0)).allConnections.find?
          (onBoundary (okMaze (runMaze 2 2 0))) with
      | some k => some k
      | Option.none => (okMaze (runMaze 2 2 0)).allConnections.head?) ∧
    ((okMaze (runMaze 2 2 0)).entry = Option.none ↔
      (okMaze (runMaze 2 2 0)).allConnections = []) :=
  C7_entry_selection wInts wFloats 2 2 1 10 0 0 0 0 "The Dungeon"
    (okMaze (runMaze 2 2 0)) (by decide)

/-- Witness for C2: the two (equal) runs at width 2, height 2. -/
theorem C2_seed_deterministic_witness :
    (okMaze (runMaze 2 2 0)).allRooms.map
        (fun ρ => (ρ.owner?, ρ.treasure?, ρ.trap?, ρ.connectionCount)) =
      (okMaze (runMaze 2 2 0)).allRooms.map
        (fun ρ => (ρ.owner?, ρ.treasure?, ρ.trap?, ρ.connectionCount)) ∧
    (okMaze (runMaze 2 2 0)).allConnections.map (fun k => k.length?) =
      (okMaze (runMaze 2 2 0)).allConnections.map (fun k => k.length?) ∧
    (okMaze (runMaze 2 2 0)).allNodes.map (fun n => n.name) =
      (okMaze (runMaze 2 2 0)).allNodes.map (fun n => n.name) ∧
    okMaze (runMaze 2 2 0) = okMaze (runMaze 2 2 0) :=
  C2_seed_deterministic wInts wFloats 2 2 1 10 0 0 0 0 "The Dungeon"
    (okMaze (runMaze 2 2 0)) (okMaze (runMaze 2 2 0)) (by decide) (by decide)

/-- C4: position-parity invariant.  In every maze returned by the generator,
rooms sit at even-even grid cells, connections at mixed-parity cells (exactly
one odd coordinate), and no node occupies an odd-odd cell. -/
theorem C4_position_parity (ints : ℕ → ℕ) (floats : ℕ → ℚ)
    (width height minLen maxLen : ℤ) (oc tc pc ec : ℚ) (nm : String) (m : Maze)
    (hok : generateMaze ints floats width height minLen maxLen oc tc pc ec nm = .ok m) :
    (∀ ρ ∈ m.allRooms, ρ.row % 2 = 0 ∧ ρ.col % 2 = 0) ∧
    (∀ k ∈ m.allConnections, k.row % 2 + k.col % 2 = 1) ∧
    (∀ n ∈ m.allNodes, ¬(n.row % 2 = 1 ∧ n.col % 2 = 1)) := by
  obtain ⟨root, cst, gs₂, hw, hh, hcinv, hstk, hall, hflEq, hex, hgrid, hrw, hrt, hg, hr⟩ :=
    generateMaze_ok_spec hok
  refine ⟨?_, ?_, ?_⟩
  · intro ρ hρ
    rw [allRooms_eq, hgrid] at hρ
    have hm : ρ ∈ (nodesOf gs₂.grid).filter (fun n => n.isRoom) := hρ
    have hmem := List.mem_filter.mp hm
    obtain ⟨r, c, hcell⟩ := mem_nodesOf.mp hmem.1
    have hpos := hg.pos _ _ _ hcell
    have hev := room_cell_even hg hcell (by simpa using hmem.2)
    rw [hpos.1, hpos.2]
    exact hev
  · intro k hk
    rw [allConnections_eq, hgrid] at hk
    have hm : k ∈ (nodesOf gs₂.grid).filter (fun n => n.isConn) := hk
    have hmem := List.mem_filter.mp hm
    obtain ⟨r, c, hcell⟩ := mem_nodesOf.mp hmem.1
    have hpos := hg.pos _ _ _ hcell
    have hmix := conn_cell_mixed hg hcell (by simpa using hmem.2)
    rw [hpos.1, hpos.2]
    exact hmix
  · intro n hn
    rw [allNodes_eq, hgrid] at hn
    obtain ⟨r, c, hcell⟩ := mem_nodesOf.mp hn
    have hpos := hg.pos _ _ _ hcell
    have hodd := hg.oddodd _ _ _ hcell
    rw [hpos.1, hpos.2]
    exact hodd

/-- Witness for C4 at the concrete 2×2 run with extra connections. -/
theorem C4_position_parity_witness :
    (∀ ρ ∈ (okMaze (runMaze 2 2 1)).allRooms, ρ.row % 2 = 0 ∧ ρ.col % 2 = 0) ∧
    (∀ k ∈ (okMaze (runMaze 2 2 1)).allConnections, k.row % 2 + k.col % 2 = 1) ∧
    (∀ n ∈ (okMaze (runMaze 2 2 1)).allNodes, ¬(n.row % 2 = 1 ∧ n.col % 2 = 1)) :=
  C4_position_parity wInts wFloats 2 2 1 10 0 0 0 1 "The Dungeon"
    (okMaze (runMaze 2 2 1)) (by decide)

/-- C5: bidirectionality.  Whenever a node `n` links to id `j` in direction
`d`, the node with id `j` links back to `n` in the opposite direction. -/
theorem C5_bidirectional (ints : ℕ → ℕ) (floats : ℕ → ℚ)
    (width height minLen maxLen : ℤ) (oc tc pc ec : ℚ) (nm : String) (m : Maze)
    (hok : generateMaze ints floats width height minLen maxLen oc tc pc ec nm = .ok m) :
    ∀ n ∈ m.allNodes, ∀ (d : Direction) (j : ℕ), n.getLink d = some j →
      ∃ p ∈ m.allNodes, p.id = j ∧ p.getLink d.opposite = some n.id := by
  obtain ⟨root, cst, gs₂, hw, hh, hcinv, hstk, hall, hflEq, hex, hgrid, hrw, hrt, hg, hr⟩ :=
    generateMaze_ok_spec hok
  intro n hn d j hl
  rw [allNodes_eq, hgrid] at hn
  obtain ⟨p, hp, hpid, hpl⟩ := ginv_link_back hg n hn d j hl
  refine ⟨p, ?_, hpid, hpl⟩
  rw [allNodes_eq, hgrid]
  exact hp

/-- Witness for C5: in the concrete 2×2 run, the first node links south to
id 6, and that node links back north to it. -/
theorem C5_bidirectional_witness :
    ∃ p ∈ (okMaze (runMaze 2 2 1)).allNodes, p.id = 6 ∧
      p.getLink Direction.south.opposite =
        some (((okMaze (runMaze 2 2 1)).allNodes.headD wNode).id) :=
  C5_bidirectional wInts wFloats 2 2 1 10 0 0 0 1 "The Dungeon"
    (okMaze (runMaze 2 2 1)) (by decide)
    ((okMaze (runMaze 2 2 1)).allNodes.headD wNode) (by decide)
    Direction.south 6 (by decide)

/-- C9: connection shape.  Every connection has exactly two entries in its
neighbor map, and both targets are rooms — never another connection. -/
theorem C9_connection_shape (ints : ℕ → ℕ) (floats : ℕ → ℚ)
    (width height minLen maxLen : ℤ) (oc tc pc ec : ℚ) (nm : String) (m : Maze)
    (hok : generateMaze ints floats width height minLen maxLen oc tc pc ec nm = .ok m) :
    ∀ k ∈ m.allConnections, k.connectionCount = 2 ∧
      ∀ (d : Direction) (j : ℕ), k.getLink d = some j →
        ∃ p ∈ m.allNodes, p.id = j ∧ p.isRoom = true ∧ p.isConn = false := by
  obtain ⟨root, cst, gs₂, hw, hh, hcinv, hstk, hall, hflEq, hex, hgrid, hrw, hrt, hg, hr⟩ :=
    generateMaze_ok_spec hok
  intro k hk
  rw [allConnections_eq, hgrid] at hk
  have hm : k ∈ (nodesOf gs₂.grid).filter (fun n => n.isConn) := hk
  have hmem := List.mem_filter.mp hm
  have hkC : k.isConn = true := by simpa using hmem.2
  obtain ⟨r, c, hcell⟩ := mem_nodesOf.mp hmem.1
  obtain ⟨e, a, b, hlinks, haxis⟩ := hg.connLinks _ _ _ hcell hkC
  constructor
  · rw [MazeNode.connectionCount, hlinks]
    rfl
  · intro d j hl
    obtain ⟨p, hp, hpid, hpR⟩ := conn_link_room hg hcell hkC hl
    refine ⟨p, ?_, hpid, hpR, isRoom_not_isConn hpR⟩
    rw [allNodes_eq, hgrid]
    exact cellZ_mem_nodesOf hp

/-- Witness for C9: the first connection of the concrete 2×2 run is 2-way
with room targets. -/
theorem C9_connection_shape_witness :
    ((okMaze (runMaze 2 2 1)).allConnections.headD wNode).connectionCount = 2 ∧
    ∀ (d : Direction) (j : ℕ),
      ((okMaze (runMaze 2 2 1)).allConnections.headD wNode).getLink d = some j →
      ∃ p ∈ (okMaze (runMaze 2 2 1)).allNodes, p.id = j ∧
        p.isRoom = true ∧ p.isConn = false :=
  C9_connection_shape wInts wFloats 2 2 1 10 0 0 0 1 "The Dungeon"
    (okMaze (runMaze 2 2 1)) (by decide)
    ((okMaze (runMaze 2 2 1)).allConnections.headD wNode) (by decide)

/-- C1: full reachability.  All node ids are distinct, and from any room the
set of ids reachable along neighbor links is exactly the set of ids of the
placed nodes (so a traversal from any room visits exactly `total_nodes`
distinct ids). -/
theorem C1_full_reachability (ints : ℕ → ℕ) (floats : ℕ → ℚ)
    (width height minLen maxLen : ℤ) (oc tc pc ec : ℚ) (nm : String) (m : Maze)
    (hok : generateMaze ints floats width height minLen maxLen oc tc pc ec nm = .ok m) :
    (m.allNodes.map (fun n => n.id)).Nodup ∧
    ∀ ρ ∈ m.allRooms, ∀ i : ℕ,
      (ReachG m.grid ρ.id i ↔ ∃ n ∈ m.allNodes, n.id = i) := by
  obtain ⟨root, cst, gs₂, hw, hh, hcinv, hstk, hall, hflEq, hex, hgrid, hrw, hrt, hg, hr⟩ :=
    generateMaze_ok_spec hok
  constructor
  · rw [allNodes_eq, hgrid]
    exact ids_nodup hg
  · intro ρ hρ i
    have hρ' : ρ ∈ nodesOf gs₂.grid := by
      rw [allRooms_eq, hgrid] at hρ
      have hm : ρ ∈ (nodesOf gs₂.grid).filter (fun n => n.isRoom) := hρ
      exact (List.mem_filter.mp hm).1
    rw [hgrid]
    constructor
    · intro hreach
      have := reach_target hg ⟨ρ, hρ', rfl⟩ hreach
      rw [allNodes_eq, hgrid]
      exact this
    · rintro ⟨n, hn, rfl⟩
      rw [allNodes_eq, hgrid] at hn
      exact ((hr ρ hρ').2).trans ((hr n hn).1)

/-- Witness for C1 at the concrete 2×2 run with extra connections. -/
theorem C1_full_reachability_witness :
    ((okMaze (runMaze 2 2 1)).allNodes.map (fun n => n.id)).Nodup ∧
    ∀ ρ ∈ (okMaze (runMaze 2 2 1)).allRooms, ∀ i : ℕ,
      (ReachG (okMaze (runMaze 2 2 1)).grid ρ.id i ↔
        ∃ n ∈ (okMaze (runMaze 2 2 1)).allNodes, n.id = i) :=
  C1_full_reachability wInts wFloats 2 2 1 10 0 0 0 1 "The Dungeon"
    (okMaze (runMaze 2 2 1)) (by decide)

/-- C8: fresh names.  The name generators always return a name not in the
used set and register it; consequently room names are pairwise distinct and
connection names are pairwise distinct in every generated maze. -/
theorem C8_fresh_names (ints : ℕ → ℕ) (floats : ℕ → ℚ)
    (width height minLen maxLen : ℤ) (oc tc pc ec : ℚ) (nm : String) (m : Maze)
    (hok : generateMaze ints floats width height minLen maxLen oc tc pc ec nm = .ok m) :
    (∀ (rng : Rng) (used : List String) (s : String) (r : Rng) (used' : List String),
      generateRoomName rng used = (s, r, used') → s ∉ used ∧ used' = s :: used) ∧
    (∀ (rng : Rng) (used : List String) (s : String) (r : Rng) (used' : List String),
      generateConnectionName rng used = (s, r, used') → s ∉ used ∧ used' = s :: used) ∧
    (m.allRooms.map (fun n => n.name)).Nodup ∧
    (m.allConnections.map (fun n => n.name)).Nodup := by
  obtain ⟨root, cst, gs₂, hw, hh, hcinv, hstk, hall, hflEq, hex, hgrid, hrw, hrt, hg, hr⟩ :=
    generateMaze_ok_spec hok
  refine ⟨?_, ?_, ?_, ?_⟩
  · intro rng used s r used' h
    unfold generateRoomName at h
    exact generateName_fresh _ _ (by decide) (by decide) _ _ _ _ _ h
  · intro rng used s r used' h
    unfold generateConnectionName at h
    exact generateName_fresh _ _ (by decide) (by decide) _ _ _ _ _ h
  · rw [allRooms_eq, hgrid]
    exact List.Nodup.sublist
      (List.Sublist.map _ (List.filter_sublist (nodesOf gs₂.grid))) (names_nodup hg)
  · rw [allConnections_eq, hgrid]
    exact List.Nodup.sublist
      (List.Sublist.map _ (List.filter_sublist (nodesOf gs₂.grid))) (names_nodup hg)

/-- Witness for C8 at the concrete 2×2 run with extra connections. -/
theorem C8_fresh_names_witness :
    (∀ (rng : Rng) (used : List String) (s : String) (r : Rng) (used' : List String),
      generateRoomName rng used = (s, r, used') → s ∉ used ∧ used' = s :: used) ∧
    (∀ (rng : Rng) (used : List String) (s : String) (r : Rng) (used' : List String),
      generateConnectionName rng used = (s, r, used') → s ∉ used ∧ used' = s :: used) ∧
    ((okMaze (runMaze 2 2 1)).allRooms.map (fun n => n.name)).Nodup ∧
    ((okMaze (runMaze 2 2 1)).allConnections.map (fun n => n.name)).Nodup :=
  C8_fresh_names wInts wFloats 2 2 1 10 0 0 0 1 "The Dungeon"
    (okMaze (runMaze 2 2 1)) (by decide)

/-- C3: spanning-tree size.  With `extra_connections = 0` (and the float
stream modelling `random()`, hence nonnegative), the number of connections in
the generated maze is exactly `total_rooms − 1`. -/
theorem C3_spanning_tree_count (ints : ℕ → ℕ) (floats : ℕ → ℚ)
    (width height minLen maxLen : ℤ) (oc tc pc : ℚ) (nm : String) (m : Maze)
    (hfl : ∀ k, 0 ≤ floats k)
    (hok : generateMaze ints floats width height minLen maxLen oc tc pc 0 nm = .ok m) :
    (m.allConnections.length : ℤ) = m.totalRooms - 1 := by
  obtain ⟨root, cst, gs₂, hw, hh, hcinv, hstk, hall, hflEq, hex, hgrid, hrw, hrt, hg, hr⟩ :=
    generateMaze_ok_spec hok
  have hfl₂ : ∀ k, 0 ≤ cst.gs.rng.floats k := by
    rw [hflEq]
    exact hfl
  obtain ⟨hgr, hus, hni, _⟩ := extras_noop _ _ _ hfl₂ hex
  have hcount := visited_count hcinv hall
  have hnid := hcinv.nextIdEq
  have hCA := hcinv.ginv.countAll
  have hCR := hcinv.ginv.countRooms
  have hpart := nodes_partition cst.gs.grid
  have hconn : m.allConnections = connsOf cst.gs.grid := by
    rw [allConnections_eq, hgrid, hgr]
  have htr : m.totalRooms = width * height := by
    rw [Maze.totalRooms, hrw, hrt]
  have hWH : ((width.toNat * height.toNat : ℕ) : ℤ) = width * height := by
    push_cast
    rw [Int.toNat_of_nonneg (by omega), Int.toNat_of_nonneg (by omega)]
  rw [hconn, htr]
  omega

/-- Witness for C3 at the concrete 3×3 run: 9 rooms, 8 connections. -/
theorem C3_spanning_tree_count_witness :
    (∀ k, 0 ≤ wFloats k) ∧
    ((okMaze (runMaze 3 3 0)).allConnections.length : ℤ) =
      (okMaze (runMaze 3 3 0)).totalRooms - 1 :=
  ⟨fun k => le_refl 0,
    C3_spanning_tree_count wInts wFloats 3 3 1 10 0 0 0 "The Dungeon"
      (okMaze (runMaze 3 3 0)) (fun k => le_refl 0) (by decide)⟩

end DndMaze
